import Mathlib

/-!
# A two-pass assembler: macro expander, first pass and second pass

Shallow embedding of `firstPass.c`, `secondPass.c` and `preAss.c`.

Conventions of the embedding.

* A C string is the list of its characters up to, and without, the terminating NUL
  (`CString`).  The character arrays of `LineInfo` are lists without a bound: a `strcpy`
  that would overrun its destination has no defined behaviour in C, and the embedding
  describes the program on the inputs where every copy fits.  `withinCapacity` is the
  condition that the texts of a record fit the arrays `HEDER.h` declares.
* A C `int` is a Lean `Int`.  The operators that can leave the 32-bit range or that
  act on the two's-complement representation (`<<`, `|`, `&`) are written with an
  explicit reduction modulo `2 ^ 32`.  `atoi` is the function of the C library,
  `(int) strtol(s, NULL, 10)` with a 64-bit `long`: the number saturates at `LONG_MAX`
  and `LONG_MIN`, and the conversion to `int` keeps the low 32 bits.
* `strtok` is a function from the string still to be scanned to the token found (if
  any) and the string that remains; the hidden pointer of the C library is passed
  explicitly.
* A loop is a recursive function on the data it traverses, or on a counter that bounds
  the number of its iterations.
* A dereference of a NULL pointer is the result `none`.
* The arrays of the macro expander are unbounded as well: a macro name of 50 characters
  or more, or a macro body of more than 50 lines, overruns its array in C.
* The record table is a list; the capacity `MAX_LINES` of the array `lines` of `main` is
  not represented (a file of more lines overruns it, which C leaves undefined). The image
  `output` is a function from addresses to words, zero where nothing was stored; the
  second pass itself never stores at or past `MAX_LINES`.
* A `char` is an ASCII character or a byte, given by its code; it promotes to `int` as a
  signed `char` does.
-/

namespace Assembler

/-! ## Constants of `HEDER.h` -/

abbrev CString := List Char

def MAX_LINE_LENGTH : Nat := 256
def MAX_LABEL_LENGTH : Nat := 31
def MAX_OPCODE_LENGTH : Nat := 10
def MAX_METHOD_LENGTH : Nat := 10
def MIN_MEM_VAL : Nat := 100
def MAX_LINES : Nat := 4096
def BITS : Nat := 15

/-- Addressing methods (`AddressingMethod`). -/
def IMMEDIATE : Int := 0
def DIRECT : Int := 1
def INDIRECT_REGISTER : Int := 2
def DIRECT_REGISTER : Int := 3

/-! ## Machine integers -/

/-- The value of a 32-bit two's-complement `int` holding `x` modulo `2 ^ 32`. -/
def wrap32 (x : Int) : Int := (x + 2 ^ 31) % 2 ^ 32 - 2 ^ 31

/-- The bit pattern of an `int`, as a natural number below `2 ^ 32`. -/
def toU32 (x : Int) : Nat := (x % 2 ^ 32).toNat

/-- C `a | b` on `int`. -/
def bor (a b : Int) : Int := wrap32 (Int.ofNat (toU32 a ||| toU32 b))

/-- C `a & b` on `int`. -/
def band (a b : Int) : Int := wrap32 (Int.ofNat (toU32 a &&& toU32 b))

/-- C `a << k` on `int` (two's complement, as compiled). -/
def shl (a : Int) (k : Nat) : Int := wrap32 (a * 2 ^ k)

/-! ## C library functions -/

def isdigit (c : Char) : Bool := decide (48 ≤ c.toNat) && decide (c.toNat ≤ 57)

def isalpha (c : Char) : Bool :=
  (decide (65 ≤ c.toNat) && decide (c.toNat ≤ 90)) ||
    (decide (97 ≤ c.toNat) && decide (c.toNat ≤ 122))

def isalnum (c : Char) : Bool := isalpha c || isdigit c

/-- C `isspace` in the "C" locale: space, `\t`, `\n`, `\v`, `\f`, `\r`. -/
def isspace (c : Char) : Bool :=
  decide (c.toNat = 32) || (decide (9 ≤ c.toNat) && decide (c.toNat ≤ 13))

/-- The value of a `char` as the (signed) `int` it promotes to. -/
def charVal (c : Char) : Int :=
  if c.toNat < 128 then Int.ofNat c.toNat else Int.ofNat c.toNat - 256

/-- Character `s[i]` of a C string; the terminating NUL at the end. Past the terminator
(`value[2]` of a one-character operand, the only such read of the program) the array
holds what an earlier use left there, which is taken to be NUL. -/
def charAt (s : CString) (i : Nat) : Char := s.getD i (Char.ofNat 0)

/-- `strtok`: skip the leading delimiters; if nothing is left there is no token;
otherwise the token runs up to the next delimiter, which is consumed. The second
component is the string the next call with a NULL first argument scans. -/
def strtok (s delim : CString) : Option CString × CString :=
  match s.dropWhile (fun c => delim.contains c) with
  | [] => (none, [])
  | c :: cs =>
    (some ((c :: cs).takeWhile (fun d => !delim.contains d)),
      ((c :: cs).dropWhile (fun d => !delim.contains d)).drop 1)

/-- The effect of `token[strcspn(token, "\r\t\n")] = 0` on `token`. -/
def cutAtLineEnd (token : CString) : CString :=
  token.takeWhile (fun c => !(['\r', '\t', '\n'].contains c))

/-- The digit loop of `atoi`. -/
def atoiDigits : Int → CString → Int
  | acc, [] => acc
  | acc, c :: cs => if isdigit c then atoiDigits (acc * 10 + (Int.ofNat c.toNat - 48)) cs else acc

/-- The result of `strtol` for a number of exact value `x`: `x` itself within the range of
a 64-bit `long`, `LONG_MAX` above it and `LONG_MIN` below it. -/
def clampLong (x : Int) : Int := max (-2 ^ 63) (min x (2 ^ 63 - 1))

/-- C `atoi`, which the C library computes as `(int) strtol(s, NULL, 10)`: leading white
space, an optional sign, then decimal digits; the `long` result saturates, and its
conversion to `int` keeps the low 32 bits. The C standard leaves `atoi` undefined where the
number does not fit an `int`. -/
def atoi (s : CString) : Int :=
  match s.dropWhile isspace with
  | [] => 0
  | c :: cs =>
    if c = '-' then wrap32 (clampLong (-(atoiDigits 0 cs)))
    else if c = '+' then wrap32 (clampLong (atoiDigits 0 cs))
    else wrap32 (clampLong (atoiDigits 0 (c :: cs)))

/-! ## The line record -/

/-- The record `LineInfo`. The arrays `label_name[31]`, `opcode_name[10]`,
`source_method_value[10]`, `destination_method_value[10]` and `data_string_value[256]` are
texts; `withinCapacity` states that they fit. -/
structure LineInfo where
  label_name : CString
  opcode_name : CString
  source_method : Int
  destination_method : Int
  source_method_value : CString
  destination_method_value : CString
  memory_cells : Int
  memory_value : Int
  opcode_value : Int
  is_data : Bool
  is_string : Bool
  is_entry : Bool
  is_extern : Bool
  data_string_value : CString
  count_op : Int
  flag : Bool
  deriving DecidableEq, Repr

/-- The texts of the record fit the arrays of `LineInfo`, the terminating NUL included.
Every `strcpy` of `processLine` and `parseMethod` into the record copies a text the record
holds on return, the empty text or the name of a directive, so this is the condition under
which none of them overruns its destination. -/
def withinCapacity (l : LineInfo) : Bool :=
  decide (l.label_name.length < MAX_LABEL_LENGTH) &&
    decide (l.opcode_name.length < MAX_OPCODE_LENGTH) &&
    decide (l.source_method_value.length < MAX_METHOD_LENGTH) &&
    decide (l.destination_method_value.length < MAX_METHOD_LENGTH) &&
    decide (l.data_string_value.length < MAX_LINE_LENGTH)

/-! ## First pass (`firstPass.c`) -/

def initializeLineInfo : LineInfo where
  label_name := []
  opcode_name := []
  source_method_value := []
  destination_method_value := []
  data_string_value := []
  source_method := -1
  destination_method := -1
  memory_cells := 0
  memory_value := 100
  opcode_value := -1
  is_data := false
  is_string := false
  is_entry := false
  is_extern := false
  count_op := -1
  flag := false

def getOpcodeValue (opcode_name : CString) : Int :=
  if opcode_name = ['m', 'o', 'v'] then 0
  else if opcode_name = ['c', 'm', 'p'] then 1
  else if opcode_name = ['a', 'd', 'd'] then 2
  else if opcode_name = ['s', 'u', 'b'] then 3
  else if opcode_name = ['l', 'e', 'a'] then 4
  else if opcode_name = ['c', 'l', 'r'] then 5
  else if opcode_name = ['n', 'o', 't'] then 6
  else if opcode_name = ['i', 'n', 'c'] then 7
  else if opcode_name = ['d', 'e', 'c'] then 8
  else if opcode_name = ['j', 'm', 'p'] then 9
  else if opcode_name = ['b', 'n', 'e'] then 10
  else if opcode_name = ['r', 'e', 'd'] then 11
  else if opcode_name = ['p', 'r', 'n'] then 12
  else if opcode_name = ['j', 's', 'r'] then 13
  else if opcode_name = ['r', 't', 's'] then 14
  else if opcode_name = ['s', 't', 'o', 'p'] then 15
  else -1

/-- The loop of `calcData`, `count` being the running count. -/
def calcDataLoop : Int → CString → Int
  | count, [] => count
  | count, c :: str => calcDataLoop (if c = ',' then count + 1 else count) str

def calcData (str : CString) : Int := calcDataLoop 1 str

/-- The loop of `calcString`. -/
def calcStringLoop : Int → CString → Int
  | count, [] => count
  | count, _ :: str => calcStringLoop (count + 1) str

def calcString (str : CString) : Int := calcStringLoop 1 str

def calculateMemoryCells (lineInfo : LineInfo) : Int :=
  if lineInfo.is_data then calcData lineInfo.data_string_value
  else if lineInfo.is_string then calcString lineInfo.data_string_value
  else if (! lineInfo.is_extern) && (! lineInfo.is_entry) then
    if lineInfo.source_method = -1 ∧ lineInfo.destination_method = -1 then 1
    else if lineInfo.source_method = -1 then 2
    else if (lineInfo.destination_method = DIRECT_REGISTER ∨
        lineInfo.destination_method = INDIRECT_REGISTER) ∧
        (lineInfo.source_method = DIRECT_REGISTER ∨
          lineInfo.source_method = INDIRECT_REGISTER) then 2
    else 3
  else 0

def registers : List CString :=
  [['r', '0'], ['r', '1'], ['r', '2'], ['r', '3'], ['r', '4'], ['r', '5'], ['r', '6'],
    ['r', '7']]

/-- The function `badLabel`: `true` stands for the result 1. -/
def badLabel (token : CString) : Bool :=
  if !isalpha (charAt token 0) then true
  else if (token.drop 1).any (fun c => !isalnum c) then true
  else if registers.contains token then true
  else false

/-- The function `parseMethod`: the method and the value it stores. The value is copied
with `strcpy` into an array of `MAX_METHOD_LENGTH` characters and no length is tested: the
copy stays within the array when the text has fewer characters (`withinCapacity`). -/
def parseMethod (method_name : CString) : Int × CString :=
  if charAt method_name 0 = '#' then (0, method_name)
  else if charAt method_name 0 = 'r' then (3, method_name)
  else if charAt method_name 0 = '*' then (2, method_name)
  else (1, method_name)

/-- The `.string` payload: a token that starts and ends with a double quote loses both. -/
def stripQuotes (string_token : CString) : CString :=
  if charAt string_token 0 = '"' ∧ charAt string_token (string_token.length - 1) = '"' then
    (string_token.dropLast).drop 1
  else string_token

/-- The operand part of `processLine`: `operands` is the rest of the line after a valid
opcode. The result is the record on return from `processLine`. -/
def processOperands (lineInfo : LineInfo) (operands : Option CString) : LineInfo :=
  match operands with
  | none => { lineInfo with memory_cells := calculateMemoryCells lineInfo }
  | some operands =>
    let src := strtok operands [' ', ',', ' ']
    let lineInfo1 : LineInfo :=
      match src.1 with
      | some src_operand =>
        { lineInfo with
          source_method := (parseMethod src_operand).1
          source_method_value := (parseMethod src_operand).2 }
      | none => lineInfo
    let dest := strtok src.2 [' ', ',', ' ']
    match dest.1 with
    | some dest_operand =>
      let lineInfo2 : LineInfo :=
        { lineInfo1 with
          destination_method := (parseMethod dest_operand).1
          destination_method_value := (parseMethod dest_operand).2
          count_op := 2 }
      match (strtok dest.2 [' ', ',', ' ']).1 with
      | some _ => { lineInfo2 with flag := true }
      | none => { lineInfo2 with memory_cells := calculateMemoryCells lineInfo2 }
    | none =>
      match src.1 with
      | some src_operand =>
        let lineInfo2 : LineInfo :=
          { lineInfo1 with
            destination_method := (parseMethod src_operand).1
            destination_method_value := (parseMethod src_operand).2
            source_method := -1
            source_method_value := []
            count_op := 1 }
        { lineInfo2 with memory_cells := calculateMemoryCells lineInfo2 }
      | none => { lineInfo1 with memory_cells := calculateMemoryCells lineInfo1 }

/-- The payload of a directive: the record with `data_string_value` set when a token was
found, and with the opcode name cleared. -/
def setPayload (lineInfo : LineInfo) (payload : Option CString) : LineInfo :=
  match payload with
  | some p => { lineInfo with data_string_value := p, opcode_name := [] }
  | none => { lineInfo with opcode_name := [] }

/-- The part of `processLine` from "Process opcode or directive" on: `token` is the
current token, `save` the string `strtok` scans next. -/
def processStatement (lineInfo : LineInfo) (token : Option CString) (save : CString) :
    LineInfo :=
  match token with
  | none => lineInfo
  | some token =>
    let token := cutAtLineEnd token
    let lineInfo1 : LineInfo :=
      { lineInfo with opcode_name := token, opcode_value := getOpcodeValue token }
    if lineInfo1.opcode_value = -1 then
      let lineInfo2 : LineInfo :=
        if token = ['.', 'd', 'a', 't', 'a'] then
          setPayload { lineInfo1 with is_data := true } (strtok save ['\n']).1
        else if token = ['.', 's', 't', 'r', 'i', 'n', 'g'] then
          setPayload { lineInfo1 with is_string := true }
            ((strtok save ['\n']).1.map stripQuotes)
        else if token = ['.', 'e', 'n', 't', 'r', 'y'] then
          setPayload { lineInfo1 with is_entry := true } (strtok save ['\n']).1
        else if token = ['.', 'e', 'x', 't', 'e', 'r', 'n'] then
          setPayload { lineInfo1 with is_extern := true } (strtok save ['\r', '\t', '\n']).1
        else lineInfo1
      { lineInfo2 with memory_cells := calculateMemoryCells lineInfo2 }
    else
      processOperands lineInfo1 (strtok save ['\n']).1

def processLine (line : CString) : LineInfo :=
  let first := strtok line [' ', '\r', '\t', '\n']
  match first.1 with
  | none => processStatement initializeLineInfo none first.2
  | some token =>
    if charAt token (token.length - 1) = ':' then
      let label := token.dropLast
      if badLabel label then { initializeLineInfo with flag := true }
      else
        let next := strtok first.2 [' ', '\t']
        processStatement { initializeLineInfo with label_name := label } next.1 next.2
    else processStatement initializeLineInfo (some token) first.2

/-- The reading loop of `processInputFile`: one record per line, each at the current
address, which then advances by the record's `memory_cells`. -/
def readLines : Int → List CString → List LineInfo
  | _, [] => []
  | current_address, line :: rest =>
    { processLine line with memory_value := current_address } ::
      readLines (current_address + (processLine line).memory_cells) rest

/-- The inner loop of the `.entry` branch: every record labelled `payload` is marked. -/
def markEntry (payload : CString) : List LineInfo → List LineInfo
  | [] => []
  | l :: ls =>
    (if payload = l.label_name then { l with is_entry := true } else l) :: markEntry payload ls

/-- The inner loop of the `.extern` branch. The Boolean is `true` when the loop ended in
the `return` of the entry-and-extern error. -/
def markExtern (payload : CString) : List LineInfo → List LineInfo × Bool
  | [] => ([], false)
  | l :: ls =>
    if payload = l.label_name then
      if l.is_entry then ({ l with flag := true } :: ls, true)
      else ({ l with is_extern := true } :: (markExtern payload ls).1, (markExtern payload ls).2)
    else (l :: (markExtern payload ls).1, (markExtern payload ls).2)

/-- The outer loop `for (k = 0; k < *line_count; k++)` of `processInputFile`, from index
`k`, with `n` iterations left. -/
def resolveLoop : Nat → Nat → List LineInfo → List LineInfo
  | 0, _, lines => lines
  | n + 1, k, lines =>
    match lines.get? k with
    | none => lines
    | some lk =>
      if lk.is_entry && decide (lk.opcode_value = -1) then
        resolveLoop n (k + 1) (markEntry lk.data_string_value lines)
      else if lk.is_extern && decide (lk.opcode_value = -1) then
        if (markExtern lk.data_string_value lines).2 then
          (markExtern lk.data_string_value lines).1
        else resolveLoop n (k + 1) (markExtern lk.data_string_value lines).1
      else resolveLoop n (k + 1) lines

/-- The function `processInputFile`: `file` is the sequence of lines `fgets` delivers. -/
def processInputFile (file : List CString) : List LineInfo :=
  resolveLoop (readLines 100 file).length 0 (readLines 100 file)

/-! ## Second pass (`secondPass.c`) -/

/-- The function `isExtern`: 0 when some record with `is_extern` set and no opcode has
`label` as its payload, 1 otherwise. -/
def isExtern : List LineInfo → CString → Int
  | [], _ => 1
  | l :: ls, label =>
    if l.is_extern = true ∧ l.opcode_value = -1 ∧ label = l.data_string_value then 0
    else isExtern ls label

/-- The function `findLabelMemory`: the address of the first record labelled `label`. -/
def findLabelMemory : List LineInfo → CString → Int
  | [], _ => -1
  | l :: ls, label => if l.label_name = label then l.memory_value else findLabelMemory ls label

/-- The loop of `findLabelAddress`, `word` being the running result. -/
def findLabelAddressLoop (label : CString) : Int → List LineInfo → Int
  | word, [] => word
  | word, l :: ls =>
    findLabelAddressLoop label
      (if l.label_name = label then bor (bor 0 (shl l.memory_value 3)) (shl 1 1) else word) ls

def findLabelAddress (lines : List LineInfo) (label : CString) : Int :=
  if isExtern lines label = 0 then 1 else findLabelAddressLoop label (-1) lines

/-- The function `isGoodLine`: `true` when the line is NOT valid. -/
def isGoodLine (line : LineInfo) : Bool :=
  let opNum := line.opcode_value
  if (opNum = 0 ∨ opNum = 2 ∨ opNum = 3) ∧ line.destination_method = 0 then true
  else if opNum = 4 ∧ (line.source_method ≠ 1 ∨ line.destination_method = 0) then true
  else if ((5 ≤ opNum ∧ opNum ≤ 8) ∨ opNum = 11) ∧
      (line.source_method ≠ -1 ∨ line.destination_method = 0) then true
  else if (opNum = 9 ∨ opNum = 10 ∨ opNum = 13) ∧
      (line.source_method ≠ -1 ∨ line.destination_method = 0 ∨ line.destination_method = 3)
    then true
  else if (opNum = 14 ∨ opNum = 15) ∧
      (line.source_method ≠ -1 ∨ line.destination_method ≠ -1) then true
  else if opNum = 12 ∧ line.source_method ≠ -1 then true
  else false

/-- The state of `generateOutput`: the record table (whose error flags the pass sets), the
image `output`, the next free address `outputIndex`, and the two counters. -/
structure GenState where
  lines : List LineInfo
  output : Nat → Int
  outputIndex : Nat
  ic : Nat
  dc : Nat

/-- The state at the start of `generateOutput`. -/
def initialState (lines : List LineInfo) : GenState :=
  { lines := lines, output := fun _ => 0, outputIndex := MIN_MEM_VAL, ic := 0, dc := 0 }

/-- The statement `if (outputIndex < MAX_LINES) { output[outputIndex++] = w; ic++; }`. -/
def emitCode (st : GenState) (w : Int) : GenState :=
  if st.outputIndex < MAX_LINES then
    { st with
      output := Function.update st.output st.outputIndex w
      outputIndex := st.outputIndex + 1
      ic := st.ic + 1 }
  else st

/-- The statement `if (outputIndex < MAX_LINES) { output[outputIndex++] = w; dc++; }`. -/
def emitData (st : GenState) (w : Int) : GenState :=
  if st.outputIndex < MAX_LINES then
    { st with
      output := Function.update st.output st.outputIndex w
      outputIndex := st.outputIndex + 1
      dc := st.dc + 1 }
  else st

/-- The table with the error flag of record `i` set. -/
def raiseFlag : Nat → List LineInfo → List LineInfo
  | _, [] => []
  | 0, l :: ls => { l with flag := true } :: ls
  | i + 1, l :: ls => l :: raiseFlag i ls

/-- The statement `lines[i].flag = true`. -/
def setFlag (st : GenState) (i : Nat) : GenState :=
  { st with lines := raiseFlag i st.lines }

/-- The text `temp` points to once an optional leading sign of `token` is skipped. -/
def skipSign (token : CString) : CString :=
  match token with
  | [] => []
  | c :: cs => if c = '+' ∨ c = '-' then cs else c :: cs

/-- The `while (token)` loop of the `.data` branch, with `n` iterations left: `token` is
the current token and `save` the string `strtok` scans next. The inner loop over `temp`
sets the error flag at the first character that is not a digit. Every iteration shortens
`save`, so a count above its length never runs out (`dataLoop_total`). -/
def dataLoop : Nat → GenState → Nat → CString → CString → Option GenState
  | 0, _, _, _, _ => none
  | n + 1, st, i, token, save =>
    let st1 := if (skipSign token).all isdigit then st else setFlag st i
    let st2 := emitData st1 (band (atoi token) 0x7FFF)
    match (strtok save [',', '\t', ' ']).1 with
    | none => some st2
    | some next => dataLoop n st2 i next (strtok save [',', '\t', ' ']).2

/-- The `for (c = ...; *c; c++)` loop of the `.string` branch. -/
def stringLoop : GenState → CString → GenState
  | st, [] => st
  | st, c :: cs => stringLoop (emitData st (band (charVal c) 0x7FFF)) cs

/-- The first word of an instruction. -/
def opcodeWord (line : LineInfo) : Int :=
  let word := shl line.opcode_value 11
  let word1 :=
    if line.source_method = IMMEDIATE then bor word (shl 1 7)
    else if line.source_method = DIRECT then bor word (shl 1 8)
    else if line.source_method = INDIRECT_REGISTER then bor word (shl 1 9)
    else if line.source_method = DIRECT_REGISTER then bor word (shl 1 10)
    else word
  let word2 :=
    if line.destination_method = IMMEDIATE then bor word1 (shl 1 3)
    else if line.destination_method = DIRECT then bor word1 (shl 1 4)
    else if line.destination_method = INDIRECT_REGISTER then bor word1 (shl 1 5)
    else if line.destination_method = DIRECT_REGISTER then bor word1 (shl 1 6)
    else word1
  bor word2 (shl 1 2)

/-- The expression `(value[k] - '0') << sh` on a register operand. -/
def regField (value : CString) (k sh : Nat) : Int :=
  shl (charVal (charAt value k) - charVal '0') sh

/-- The statements of the Direct case: look the label up, flag the record when the lookup
yields -1, store the word. -/
def emitDirect (st : GenState) (i : Nat) (label : CString) : GenState :=
  let address := findLabelAddress st.lines label
  emitCode (if address = -1 then setFlag st i else st) address

/-- The word both register operands share. -/
def sharedRegWord (line : LineInfo) : Int :=
  let regWord : Int := 0
  let regWord1 :=
    if line.source_method = INDIRECT_REGISTER then
      bor regWord (regField line.source_method_value 2 6)
    else if line.source_method = DIRECT_REGISTER then
      bor regWord (regField line.source_method_value 1 6)
    else regWord
  let regWord2 :=
    if line.destination_method = INDIRECT_REGISTER then
      bor regWord1 (regField line.destination_method_value 2 3)
    else if line.destination_method = DIRECT_REGISTER then
      bor regWord1 (regField line.destination_method_value 1 3)
    else regWord1
  bor regWord2 (shl 1 2)

/-- The source-operand chain of the instruction branch. -/
def emitSource (st : GenState) (i : Nat) (line : LineInfo) : GenState :=
  if line.source_method = IMMEDIATE then
    emitCode st (bor (shl (atoi (line.source_method_value.drop 1)) 3) (shl 1 2))
  else if line.source_method = DIRECT then
    emitDirect st i line.source_method_value
  else if (line.destination_method = DIRECT_REGISTER ∨
      line.destination_method = INDIRECT_REGISTER) ∧
      (line.source_method = DIRECT_REGISTER ∨ line.source_method = INDIRECT_REGISTER) then
    emitCode st (sharedRegWord line)
  else if line.source_method = INDIRECT_REGISTER then
    emitCode st (bor (bor 0 (regField line.source_method_value 2 6)) (shl 1 2))
  else if line.source_method = DIRECT_REGISTER then
    emitCode st (bor (bor 0 (regField line.source_method_value 1 6)) (shl 1 2))
  else st

/-- The destination-register chain of the instruction branch. -/
def emitDestRegister (st : GenState) (line : LineInfo) : GenState :=
  if line.destination_method = INDIRECT_REGISTER ∧
      (line.source_method ≠ INDIRECT_REGISTER ∧ line.source_method ≠ DIRECT_REGISTER) then
    emitCode st (bor (bor 0 (regField line.destination_method_value 2 3)) (shl 1 2))
  else if line.destination_method = DIRECT_REGISTER ∧
      (line.source_method ≠ INDIRECT_REGISTER ∧ line.source_method ≠ DIRECT_REGISTER) then
    emitCode st (bor (bor 0 (regField line.destination_method_value 1 3)) (shl 1 2))
  else st

/-- The last chain of the instruction branch: an Immediate or Direct destination. -/
def emitDestination (st : GenState) (i : Nat) (line : LineInfo) : GenState :=
  if line.destination_method = IMMEDIATE then
    emitCode st (bor (shl (atoi (line.destination_method_value.drop 1)) 3) (shl 1 2))
  else if line.destination_method = DIRECT then
    emitDirect st i line.destination_method_value
  else st

/-- The instruction branch of the loop body (`line.opcode_value != -1`). -/
def generateInstruction (st : GenState) (i : Nat) (line : LineInfo) : GenState :=
  let st1 := if isGoodLine line then setFlag st i else st
  let st2 := emitCode st1 (opcodeWord line)
  let st3 := emitSource st2 i line
  let st4 := emitDestRegister st3 line
  emitDestination st4 i line

/-- The body of the loop of `generateOutput` for record `i`, `line` being the copy
`lines[i]` taken at the top of the body. -/
def generateLine (st : GenState) (i : Nat) (line : LineInfo) : Option GenState :=
  if line.is_data then
    match (strtok line.data_string_value [',']).1 with
    | none => none
    | some token =>
      dataLoop ((strtok line.data_string_value [',']).2.length + 1) st i (cutAtLineEnd token)
        (strtok line.data_string_value [',']).2
  else if line.is_string then
    some (emitData (stringLoop st line.data_string_value) 0)
  else if line.opcode_value ≠ -1 then
    some (generateInstruction st i line)
  else some st

/-- The loop `for (i = 0; i < numLines; i++)` of `generateOutput`, from index `i`, with
`n` iterations left. -/
def generateLoop : Nat → Nat → GenState → Option GenState
  | 0, _, st => some st
  | n + 1, i, st =>
    match st.lines.get? i with
    | none => some st
    | some line =>
      match generateLine st i line with
      | none => none
      | some st1 => generateLoop n (i + 1) st1

/-- The encoding loop of `generateOutput`: the final table, image and counters, or `none`
when the pass dereferences a NULL token. -/
def generateOutput (lines : List LineInfo) : Option GenState :=
  generateLoop lines.length 0 (initialState lines)

/-- The whole pipeline after macro expansion: first pass, then the encoding loop. -/
def assemble (file : List CString) : Option GenState :=
  generateOutput (processInputFile file)

/-! ## The files of the second pass (`secondPass.c`) -/

/-- The table `operand_counts` of `getOperandCount`: fifteen entries. -/
def operand_counts : List Int := [2, 2, 2, 2, 2, 1, 1, 1, 1, 1, 1, 1, 1, 0, 0]

/-- The function `getOperandCount`: the table entry of the opcode, `none` where the index
is outside the table. No function of the program calls it. -/
def getOperandCount (opcode_value : Int) : Option Int :=
  if 0 ≤ opcode_value then operand_counts.get? opcode_value.toNat else none

/-- The function `isFlag`: whether some record has its error flag set. -/
def isFlag : List LineInfo → Bool
  | [] => false
  | l :: ls => if l.flag = true then true else isFlag ls

/-- The function `makeOb`: the header `ic dc`, then one row per address `k` from 100 up to
`100 + ic + dc` (excluded); the row `(k, w)` stands for the line the code prints with
`%04d %05o`, `w` being `machine[k] & 077777`. -/
def makeOb (machine : Nat → Int) (dc ic : Nat) : (Nat × Nat) × List (Nat × Int) :=
  ((ic, dc), (List.range' MIN_MEM_VAL (ic + dc)).map (fun k => (k, band (machine k) 0o77777)))

/-- The first loop of `makeExt`: whether some record has `is_extern` set. -/
def anyExtern : List LineInfo → Bool
  | [] => false
  | l :: ls => if l.is_extern = true then true else anyExtern ls

/-- The rows record `l` contributes to the extern file: one for its source text and one
for its destination text, each if `isExtern` accepts the text; a row `(s, a)` stands for
the line the code prints with `%s %d`. -/
def extRowsOf (lines : List LineInfo) (l : LineInfo) : List (CString × Int) :=
  (if isExtern lines l.source_method_value = 0 then
      [(l.source_method_value, l.memory_value + 1)]
    else []) ++
  (if isExtern lines l.destination_method_value = 0 then
      (if l.source_method = -1 then [(l.destination_method_value, l.memory_value + 1)]
        else [(l.destination_method_value, l.memory_value + 2)])
    else [])

/-- The writing loop of `makeExt` over the records `ls` of the table `lines`. -/
def extRows (lines : List LineInfo) : List LineInfo → List (CString × Int)
  | [] => []
  | l :: ls => extRowsOf lines l ++ extRows lines ls

/-- The function `makeExt`: no file (`none`) when no record has `is_extern` set, else the
rows of the extern file. -/
def makeExt (lines : List LineInfo) : Option (List (CString × Int)) :=
  if anyExtern lines = true then some (extRows lines lines) else none

/-- The first loop of `makeEnt`: whether some record has `is_entry` set. -/
def anyEntry : List LineInfo → Bool
  | [] => false
  | l :: ls => if l.is_entry = true then true else anyEntry ls

/-- The writing loop of `makeEnt`: a row for every record with a non-empty label and
`is_entry` set. -/
def entRows : List LineInfo → List (CString × Int)
  | [] => []
  | l :: ls =>
    (if l.label_name ≠ [] ∧ l.is_entry = true then [(l.label_name, l.memory_value)] else []) ++
      entRows ls

/-- The function `makeEnt`: no file (`none`) when no record has `is_entry` set, else the
rows of the entry file. -/
def makeEnt (lines : List LineInfo) : Option (List (CString × Int)) :=
  if anyEntry lines = true then some (entRows lines) else none

/-- The object, extern and entry files; an absent file is `none`. -/
structure OutputFiles where
  ob : (Nat × Nat) × List (Nat × Int)
  ext : Option (List (CString × Int))
  ent : Option (List (CString × Int))
  deriving DecidableEq, Repr

/-- The end of `generateOutput`, after the encoding loop and the listing of the image:
the three files are made when `isFlag` finds no flag, and nothing is made otherwise. -/
def writeOutputs (st : GenState) : Option OutputFiles :=
  if isFlag st.lines = false then
    some { ob := makeOb st.output st.dc st.ic, ext := makeExt st.lines, ent := makeEnt st.lines }
  else none

/-! ## The macro expander (`preAss.c`) -/

def MAX_MACROS : Nat := 100

/-- A macro (`Macro`): its name and the lines of its body. -/
structure Macro where
  name : CString
  body : List CString
  deriving DecidableEq, Repr

/-- The copying loop of `trim_whitespace`, from the first character that is not
whitespace on; `in_word` is the variable of that name. The result is the text written
through `dest`. -/
def trimLoop : Bool → CString → CString
  | _, [] => []
  | in_word, c :: src =>
    if isspace c then
      if in_word then ' ' :: trimLoop false src else trimLoop false src
    else c :: trimLoop true src

/-- The function `trim_whitespace`: the string it leaves in `str`. -/
def trim_whitespace (str : CString) : CString :=
  let out := trimLoop false (str.dropWhile isspace)
  if out ≠ [] ∧ isspace (charAt out (out.length - 1)) then out.dropLast else out

/-- The function `remove_blank_lines`: the lines it writes back to the input file. -/
def remove_blank_lines (file : List CString) : List CString :=
  file.filter (fun line =>
    decide (trim_whitespace line ≠ []) && decide (charAt (trim_whitespace line) 0 ≠ '\n'))

/-- The function `add_macro` on the table `macros` (of `macro_count` entries). -/
def add_macro (macros : List Macro) (name : CString) (body : List CString) : List Macro :=
  if macros.length < MAX_MACROS then macros ++ [{ name := name, body := body }] else macros

/-- The function `get_macro`: the first macro of that name. -/
def get_macro : List Macro → CString → Option Macro
  | [], _ => none
  | m :: ms, name => if m.name = name then some m else get_macro ms name

/-- The text the loop over `macro->body` prints: a line feed after every body line but
the last. -/
def bodyText : List CString → CString
  | [] => []
  | [b] => b
  | b :: bs => b ++ '\n' :: bodyText bs

/-- The loop `while (token)` of `process_file`: the text it prints. `n` bounds the number
of iterations; `none` when the bound is reached. -/
def expandLoop (macros : List Macro) : Nat → Bool → Option CString → CString → Option CString
  | 0, _, _, _ => none
  | n + 1, first_token, token, save =>
    match token with
    | none => some []
    | some tok =>
      let printed :=
        match get_macro macros tok with
        | some m => bodyText m.body
        | none => (if first_token then [] else [' ']) ++ tok
      (expandLoop macros n false (strtok save [' ']).1 (strtok save [' ']).2).map
        (fun rest => printed ++ rest)

/-- The conversion `sscanf(line, "macr %[^\n]", current_macro_name)`: the name read, or the
former content `old` when nothing follows `macr`. -/
def scanMacroName (old line : CString) : CString :=
  let rest := ((line.drop 4).dropWhile isspace).takeWhile (fun c => c ≠ '\n')
  if rest = [] then old else rest

/-- The state of `process_file`: the global table `macros`, the local variables
`in_macro_definition` and `current_macro_name`, the first `body_line_count` lines of
`macro_body`, and the text written to the output file. -/
structure ExpandState where
  macros : List Macro
  in_macro_definition : Bool
  current_macro_name : CString
  macro_body : List CString
  out : CString
  deriving DecidableEq, Repr

/-- The body of the loop `while (fgets(...))` of `process_file` for the line `raw`. -/
def processFileLine (s : ExpandState) (raw : CString) : Option ExpandState :=
  let line := trim_whitespace raw
  if charAt line 0 = ';' then some s
  else if s.in_macro_definition then
    if line = ['e', 'n', 'd', 'm', 'a', 'c', 'r'] then
      some { s with
        macros := add_macro s.macros s.current_macro_name s.macro_body
        in_macro_definition := false }
    else some { s with macro_body := s.macro_body ++ [trim_whitespace line] }
  else if line.take 4 = ['m', 'a', 'c', 'r'] then
    some { s with
      current_macro_name := scanMacroName s.current_macro_name line
      in_macro_definition := true
      macro_body := [] }
  else
    (expandLoop s.macros (line.length + 1) true (strtok line [' ']).1
      (strtok line [' ']).2).map (fun text => { s with out := s.out ++ (text ++ ['\n']) })

/-- The loop `while (fgets(...))` of `process_file` over the lines `fgets` delivers. -/
def processFileLoop : ExpandState → List CString → Option ExpandState
  | s, [] => some s
  | s, raw :: rest =>
    match processFileLine s raw with
    | none => none
    | some s1 => processFileLoop s1 rest

/-- The function `process_file`, run with the table `macros`: the text of the output file
and the table it leaves. The name buffer, which C leaves uninitialised, starts empty. -/
def process_file (macros : List Macro) (file : List CString) : Option (CString × List Macro) :=
  (processFileLoop
    { macros := macros, in_macro_definition := false, current_macro_name := [],
      macro_body := [], out := [] } file).map (fun s => (s.out, s.macros))

/-- The function `preAss` on the lines of a source file. -/
def preAss (macros : List Macro) (file : List CString) : Option (CString × List Macro) :=
  process_file macros (remove_blank_lines file)

/-- The macro expansion done by the loop of `main` over its arguments: the expanded text
of each file in turn, the table `macros` being the global one. -/
def expandFiles : List Macro → List (List CString) → Option (List CString)
  | _, [] => some []
  | macros, file :: files =>
    match preAss macros file with
    | none => none
    | some (out, macros1) => (expandFiles macros1 files).map (fun outs => out :: outs)

/-! ## Notions used to state the properties -/

/-- The address and the width of a record. -/
def addrCells (r : LineInfo) : Int × Int := (r.memory_value, r.memory_cells)

/-- The values an addressing-method field takes: absent (-1) or one of the four modes. -/
def IsMode (m : Int) : Prop := m = -1 ∨ m = 0 ∨ m = 1 ∨ m = 2 ∨ m = 3

/-- The addressing method is Direct-Register or Indirect-Register. -/
def IsRegisterClass (m : Int) : Prop := m = DIRECT_REGISTER ∨ m = INDIRECT_REGISTER

/-- The records the second pass encodes as instructions: neither `.data` nor `.string`,
and with an opcode. -/
def IsInstruction (line : LineInfo) : Prop :=
  line.is_data = false ∧ line.is_string = false ∧ line.opcode_value ≠ -1

/-- The source addressing-mode field of an opcode word: one bit among bits 7..10. -/
def sourceBit (m : Int) : Int :=
  if m = 0 then 2 ^ 7 else if m = 1 then 2 ^ 8 else if m = 2 then 2 ^ 9
  else if m = 3 then 2 ^ 10 else 0

/-- The destination addressing-mode field of an opcode word: one bit among bits 3..6. -/
def destBit (m : Int) : Int :=
  if m = 0 then 2 ^ 3 else if m = 1 then 2 ^ 4 else if m = 2 then 2 ^ 5
  else if m = 3 then 2 ^ 6 else 0

/-- The state `st'` extends `st`: the output position has not moved back and every
image cell below the old position is unchanged. -/
def Keeps (st st' : GenState) : Prop :=
  st.outputIndex ≤ st'.outputIndex ∧ ∀ a, a < st.outputIndex → st'.output a = st.output a

/-- Processing record `i` (of which `line` is the copy taken at the top of the loop body)
from state `st`, the second pass stores the word `w` at image address `p`, and no later
iteration of its loop changes that cell. -/
def StoresAt (st : GenState) (i : Nat) (line : LineInfo) (p : Nat) (w : Int) : Prop :=
  ∃ st', generateLine st i line = some st' ∧ st.outputIndex ≤ p ∧ p < st'.outputIndex ∧
    st'.output p = w ∧ ∀ n j fin, generateLoop n j st' = some fin → fin.output p = w

/-- The table with every error flag cleared. -/
def eraseFlags (ls : List LineInfo) : List LineInfo := ls.map (fun l => { l with flag := false })

/-- The state with every error flag of its table cleared. -/
def unflag (st : GenState) : GenState := { st with lines := eraseFlags st.lines }

/-- The instruction words `ws` stored one after the other. -/
def emitWords (st : GenState) (ws : List Int) : GenState := ws.foldl emitCode st

/-- The words the source-operand chain of the instruction branch stores. -/
def sourceWords (lines : List LineInfo) (line : LineInfo) : List Int :=
  if line.source_method = IMMEDIATE then
    [bor (shl (atoi (line.source_method_value.drop 1)) 3) (shl 1 2)]
  else if line.source_method = DIRECT then
    [findLabelAddress lines line.source_method_value]
  else if (line.destination_method = DIRECT_REGISTER ∨
      line.destination_method = INDIRECT_REGISTER) ∧
      (line.source_method = DIRECT_REGISTER ∨ line.source_method = INDIRECT_REGISTER) then
    [sharedRegWord line]
  else if line.source_method = INDIRECT_REGISTER then
    [bor (bor 0 (regField line.source_method_value 2 6)) (shl 1 2)]
  else if line.source_method = DIRECT_REGISTER then
    [bor (bor 0 (regField line.source_method_value 1 6)) (shl 1 2)]
  else []

/-- The words the destination-register chain of the instruction branch stores. -/
def destRegisterWords (line : LineInfo) : List Int :=
  if line.destination_method = INDIRECT_REGISTER ∧
      (line.source_method ≠ INDIRECT_REGISTER ∧ line.source_method ≠ DIRECT_REGISTER) then
    [bor (bor 0 (regField line.destination_method_value 2 3)) (shl 1 2)]
  else if line.destination_method = DIRECT_REGISTER ∧
      (line.source_method ≠ INDIRECT_REGISTER ∧ line.source_method ≠ DIRECT_REGISTER) then
    [bor (bor 0 (regField line.destination_method_value 1 3)) (shl 1 2)]
  else []

/-- The words the last chain of the instruction branch stores. -/
def destinationWords (lines : List LineInfo) (line : LineInfo) : List Int :=
  if line.destination_method = IMMEDIATE then
    [bor (shl (atoi (line.destination_method_value.drop 1)) 3) (shl 1 2)]
  else if line.destination_method = DIRECT then
    [findLabelAddress lines line.destination_method_value]
  else []

/-- The words of an instruction, in the order the second pass stores them. -/
def instructionWords (lines : List LineInfo) (line : LineInfo) : List Int :=
  opcodeWord line :: (sourceWords lines line ++ destRegisterWords line ++
    destinationWords lines line)

/-- The record passes the test by which `isExtern` recognises an `.extern` directive of
payload `label`: `is_extern` set, no opcode, payload equal to `label`. -/
def PassesExternTest (l : LineInfo) (label : CString) : Prop :=
  l.is_extern = true ∧ l.opcode_value = -1 ∧ label = l.data_string_value

/-- The legality table as the specification words it, by mnemonic: whether the triple of
mnemonic, source mode and destination mode violates it (`-1` is the absent operand). -/
def ViolatesLegality (name : CString) (src dst : Int) : Prop :=
  ((name = ['m', 'o', 'v'] ∨ name = ['a', 'd', 'd'] ∨ name = ['s', 'u', 'b']) ∧
      dst = IMMEDIATE) ∨
  (name = ['l', 'e', 'a'] ∧ (src ≠ DIRECT ∨ dst = IMMEDIATE)) ∨
  ((name = ['c', 'l', 'r'] ∨ name = ['n', 'o', 't'] ∨ name = ['i', 'n', 'c'] ∨
      name = ['d', 'e', 'c'] ∨ name = ['r', 'e', 'd']) ∧ (src ≠ -1 ∨ dst = IMMEDIATE)) ∨
  ((name = ['j', 'm', 'p'] ∨ name = ['b', 'n', 'e'] ∨ name = ['j', 's', 'r']) ∧
      (src ≠ -1 ∨ dst = IMMEDIATE ∨ dst = DIRECT_REGISTER)) ∨
  (name = ['p', 'r', 'n'] ∧ src ≠ -1) ∨
  ((name = ['r', 't', 's'] ∨ name = ['s', 't', 'o', 'p']) ∧ (src ≠ -1 ∨ dst ≠ -1))

/-- A record of the final table is the record `l` of the earlier one, or `l` with its
error flag set. -/
def SameButFlag (l l' : LineInfo) : Prop := l' = l ∨ l' = { l with flag := true }

/-- The table `ls'` is the table `ls` with some error flags set and nothing else changed. -/
def FlagsRaised (ls ls' : List LineInfo) : Prop := List.Forall₂ SameButFlag ls ls'

/-- The record of the line `label: stop` when the label is accepted. -/
def labelledStop (label : CString) : LineInfo :=
  { initializeLineInfo with
    label_name := label, opcode_name := ['s', 't', 'o', 'p'], opcode_value := 15,
    memory_cells := 1 }

/-- The names of the four directives. -/
def directives : List CString :=
  [['.', 'd', 'a', 't', 'a'], ['.', 's', 't', 'r', 'i', 'n', 'g'],
    ['.', 'e', 'n', 't', 'r', 'y'], ['.', 'e', 'x', 't', 'e', 'r', 'n']]

/-- The record `processLine` returns for a line that has no label and whose first token
`token` is neither a mnemonic nor a directive. -/
def unknownRecord (token : CString) : LineInfo :=
  { initializeLineInfo with opcode_name := token, memory_cells := 1 }

/-- The number the encoder shifts into a register field: `value[k] - '0'`. -/
def registerNumber (value : CString) (k : Nat) : Int :=
  charVal (charAt value k) - charVal '0'

/-- From `st` to `st'` the pass stored instruction words only: each advance of the output
position is counted in `ic`, `dc` is unchanged, and the position stays within the image. -/
def CodeWords (st st' : GenState) : Prop :=
  st'.dc = st.dc ∧ st'.ic + st.outputIndex = st.ic + st'.outputIndex ∧
    st.outputIndex ≤ st'.outputIndex ∧ (st.outputIndex ≤ MAX_LINES → st'.outputIndex ≤ MAX_LINES)

/-- From `st` to `st'` the pass stored data words only: each advance of the output
position is counted in `dc`, `ic` is unchanged, and the position stays within the image. -/
def DataWords (st st' : GenState) : Prop :=
  st'.ic = st.ic ∧ st'.dc + st.outputIndex = st.dc + st'.outputIndex ∧
    st.outputIndex ≤ st'.outputIndex ∧ (st.outputIndex ≤ MAX_LINES → st'.outputIndex ≤ MAX_LINES)

/-- The numbers of words the loop of `generateOutput` stores, from record `i` on, for
instruction records and for `.data` and `.string` records: for each record the advance of
the output position over its iteration. -/
def emittedCounts : Nat → Nat → GenState → Option (Nat × Nat)
  | 0, _, _ => some (0, 0)
  | n + 1, i, st =>
    match st.lines.get? i with
    | none => some (0, 0)
    | some line =>
      match generateLine st i line with
      | none => none
      | some st1 =>
        (emittedCounts n (i + 1) st1).map (fun c =>
          if line.is_data = true ∨ line.is_string = true then
            (c.1, c.2 + (st1.outputIndex - st.outputIndex))
          else if line.opcode_value ≠ -1 then (c.1 + (st1.outputIndex - st.outputIndex), c.2)
          else c)

/-- The text `s` without the whitespace at its two ends. -/
def trimBlanks (s : CString) : CString :=
  ((s.dropWhile isspace).reverse.dropWhile isspace).reverse

/-- The text `s` without one leading `+` or `-`. -/
def dropSign : CString → CString
  | '+' :: t => t
  | '-' :: t => t
  | s => s

/-- Some comma-separated literal of the payload, once the whitespace around it and an
optional leading sign are removed, has a character that is not a decimal digit. -/
def hasNonNumericLiteral (payload : CString) : Bool :=
  (payload.splitOn ',').any (fun lit => (dropSign (trimBlanks lit)).any (fun c => !isdigit c))

/-- The words of a text: its maximal runs of characters that are not whitespace. -/
def wordsOf (s : CString) : List CString :=
  (s.splitOnP isspace).filter (fun w => decide (w ≠ []))

/-- Words joined by single blanks. -/
def joinWords : List CString → CString
  | [] => []
  | [w] => w
  | w :: ws => w ++ ' ' :: joinWords ws

/-- Whitespace normalization: the whitespace at the two ends removed and every other run
of whitespace replaced by one blank. -/
def normalizeSpaces (s : CString) : CString := joinWords (wordsOf s)

/-- What the copying loop of `trim_whitespace` writes for a text given by its pieces
between whitespace characters, when the loop starts outside a word. -/
def renderPieces : List CString → CString
  | [] => []
  | w :: ws =>
    if w = [] then renderPieces ws
    else w ++ (if ws = [] then [] else ' ' :: renderPieces ws)

/-- The state in which `process_file` starts, with the table `macros`. -/
def expandStart (macros : List Macro) : ExpandState :=
  { macros := macros, in_macro_definition := false, current_macro_name := [],
    macro_body := [], out := [] }

/-- The line is neither a comment nor taken by `process_file` for the start of a macro
definition: once normalized it begins neither with `;` nor with the characters `macr`. -/
def IsPlainLine (raw : CString) : Prop :=
  charAt (normalizeSpaces raw) 0 ≠ ';' ∧ (normalizeSpaces raw).take 4 ≠ ['m', 'a', 'c', 'r']

/-- The text of the lines, each normalized and ended by a line feed. -/
def normalizedText : List CString → CString
  | [] => []
  | raw :: rest => (normalizeSpaces raw ++ ['\n']) ++ normalizedText rest

/-- The part of a record the second pass encodes from: the record without its entry mark
and its error flag. -/
def codeView (l : LineInfo) : LineInfo := { l with is_entry := false, flag := false }

/-- The record `l'` is the record `l` in every field but the error flag, and its flag is
set if the flag of `l` is. -/
def OnlyFlagSet (l l' : LineInfo) : Prop :=
  l'.label_name = l.label_name ∧ l'.opcode_name = l.opcode_name ∧
  l'.opcode_value = l.opcode_value ∧
  l'.source_method = l.source_method ∧ l'.destination_method = l.destination_method ∧
  l'.source_method_value = l.source_method_value ∧
  l'.destination_method_value = l.destination_method_value ∧
  l'.data_string_value = l.data_string_value ∧
  l'.memory_cells = l.memory_cells ∧ l'.memory_value = l.memory_value ∧
  l'.is_data = l.is_data ∧ l'.is_string = l.is_string ∧
  l'.is_entry = l.is_entry ∧ LineInfo.is_extern l' = LineInfo.is_extern l ∧
  l'.count_op = l.count_op ∧ (l.flag = true → l'.flag = true)

/-- The table `ls'` has the records of `ls`, each in its place and changed in its error
flag at most, which is set if it was. -/
def TableKept (ls ls' : List LineInfo) : Prop :=
  ls'.length = ls.length ∧
    ∀ i l, ls.get? i = some l → ∃ l', ls'.get? i = some l' ∧ OnlyFlagSet l l'

/-- The part of a record that the steps of the first pass after `processLine` leave as it
is: the record without its address, its entry and extern marks and its error flag. -/
def encodingView (l : LineInfo) : LineInfo :=
  { l with memory_value := 0, is_entry := false, is_extern := false, flag := false }

/-- The width `calculateMemoryCells` gives an instruction with the addressing methods
`src` and `dst`. -/
def widthOfModes (src dst : Int) : Int :=
  if src = -1 ∧ dst = -1 then 1
  else if src = -1 then 2
  else if (dst = 3 ∨ dst = 2) ∧ (src = 3 ∨ src = 2) then 2
  else 3

/-- The record has the shape of an instruction as `processLine` builds it: neither `.data`
nor `.string`, each addressing method absent or one of the four modes, no source without
a destination, and the width `calculateMemoryCells` gives these methods. -/
def HasInstructionShape (r : LineInfo) : Prop :=
  r.is_data = false ∧ r.is_string = false ∧ IsMode r.source_method ∧
    IsMode r.destination_method ∧ (r.destination_method = -1 → r.source_method = -1) ∧
    r.memory_cells = widthOfModes r.source_method r.destination_method

/-- The character of the decimal digit `n`. -/
def digitChar (n : Nat) : Char := Char.ofNat (48 + n)

/-- The operand text `value`, of method `method`, names register `n`: `rN` for a
Direct-Register operand, `*rN` for an Indirect-Register operand, with `N` in 0..7. -/
def IsRegisterOperand (method : Int) (value : CString) (n : Nat) : Prop :=
  n ≤ 7 ∧ ((method = DIRECT_REGISTER ∧ value = ['r', digitChar n]) ∨
    (method = INDIRECT_REGISTER ∧ value = ['*', 'r', digitChar n]))

/-- The number a string of decimal digits denotes, in positional notation. -/
def decimalValue : CString → Nat
  | [] => 0
  | c :: cs => (c.toNat - 48) * 10 ^ cs.length + decimalValue cs

/-- The text `lit` is a decimal literal of value `v`: an optional sign followed by one or
more decimal digits. -/
def IsDecimalLiteral (lit : CString) (v : Int) : Prop :=
  ∃ ds : CString, ds ≠ [] ∧ (∀ c ∈ ds, isdigit c = true) ∧
    ((lit = ds ∧ v = (decimalValue ds : Int)) ∨
      (lit = '+' :: ds ∧ v = (decimalValue ds : Int)) ∨
      (lit = '-' :: ds ∧ v = -(decimalValue ds : Int)))

/-- The text before the directive: nothing, or a label, a colon and a blank. -/
def labelPrefix : Option CString → CString
  | none => []
  | some l => l ++ [':', ' ']

/-- The line `[label: ]directive payload` with its line feed. -/
def directiveLine (label : Option CString) (directive payload : CString) : CString :=
  labelPrefix label ++ (directive ++ ' ' :: (payload ++ ['\n']))

/-- The text `s` is a run of the characters that separate operands: blanks and commas. -/
def IsSeparators (s : CString) : Prop := ∀ x ∈ s, x = ' ' ∨ x = ','

/-- The text `a` is an operand: not empty and free of blanks, commas and line feeds. -/
def IsOperandText (a : CString) : Prop := a ≠ [] ∧ ∀ x ∈ a, x ≠ ' ' ∧ x ≠ ',' ∧ x ≠ '\n'

/-- The addressing mode of an operand, by its leading character: `#` Immediate, `r`
Direct-Register, `*` Indirect-Register, Direct otherwise. -/
def modeOfOperand : CString → Int
  | '#' :: _ => IMMEDIATE
  | 'r' :: _ => DIRECT_REGISTER
  | '*' :: _ => INDIRECT_REGISTER
  | _ => DIRECT

/-- The line `[label: ]mnemonic operands` with its line feed. -/
def instructionLine (label : Option CString) (mnemonic operands : CString) : CString :=
  directiveLine label mnemonic operands

/-! ## Sample programs -/

/-- The one-line program `stop`. -/
def stopProgram : List CString := [['s', 't', 'o', 'p', '\n']]

/-- The one-line program `mov #5, r3`. -/
def movImmediateProgram : List CString :=
  [['m', 'o', 'v', ' ', '#', '5', ',', ' ', 'r', '3', '\n']]

/-- The one-line program `clr r5`. -/
def clrProgram : List CString := [['c', 'l', 'r', ' ', 'r', '5', '\n']]

/-- The program `jmp LOOP` / `LOOP: stop`. -/
def forwardJumpProgram : List CString :=
  [['j', 'm', 'p', ' ', 'L', 'O', 'O', 'P', '\n'],
    ['L', 'O', 'O', 'P', ':', ' ', 's', 't', 'o', 'p', '\n']]

/-- The program `.extern X` / `X: .string "Y"` / `Y: stop` / `jmp Y`. -/
def externShadowProgram : List CString :=
  [['.', 'e', 'x', 't', 'e', 'r', 'n', ' ', 'X', '\n'],
    ['X', ':', ' ', '.', 's', 't', 'r', 'i', 'n', 'g', ' ', '"', 'Y', '"', '\n'],
    ['Y', ':', ' ', 's', 't', 'o', 'p', '\n'],
    ['j', 'm', 'p', ' ', 'Y', '\n']]

/-- The line `.string "aa...a"` with 234 letters: a record of 235 words. -/
def fillerLine : CString :=
  ['.', 's', 't', 'r', 'i', 'n', 'g', ' ', '"'] ++ List.replicate 234 'a' ++ ['"', '\n']

/-- Seventeen filler lines, which fill the image from address 100 up to address 4094,
followed by the line `mov r1, r2`. -/
def fullImageMovProgram : List CString :=
  List.replicate 17 fillerLine ++ [['m', 'o', 'v', ' ', 'r', '1', ',', ' ', 'r', '2', '\n']]

/-- The one-line program `mov r1`. -/
def movOneOperandProgram : List CString := [['m', 'o', 'v', ' ', 'r', '1', '\n']]

/-- The one-line program `cmp`. -/
def cmpNoOperandProgram : List CString := [['c', 'm', 'p', '\n']]

/-- The one-line program `clr`. -/
def clrNoOperandProgram : List CString := [['c', 'l', 'r', '\n']]

/-- The program `.extern X` / `.entry X` / `X: stop`. -/
def externThenEntryProgram : List CString :=
  [['.', 'e', 'x', 't', 'e', 'r', 'n', ' ', 'X', '\n'],
    ['.', 'e', 'n', 't', 'r', 'y', ' ', 'X', '\n'],
    ['X', ':', ' ', 's', 't', 'o', 'p', '\n']]

/-- The program `.entry X` / `.extern X` / `X: stop`. -/
def entryThenExternProgram : List CString :=
  [['.', 'e', 'n', 't', 'r', 'y', ' ', 'X', '\n'],
    ['.', 'e', 'x', 't', 'e', 'r', 'n', ' ', 'X', '\n'],
    ['X', ':', ' ', 's', 't', 'o', 'p', '\n']]

/-- A label of 31 letters. -/
def label31 : CString := List.replicate 31 'A'

/-- The text `: stop` and a line feed, which follows the label in the lines below. -/
def stopTail : CString := [':', ' ', 's', 't', 'o', 'p', '\n']

/-- The line `r3: stop`. -/
def registerLabelLine : CString := ['r', '3', ':', ' ', 's', 't', 'o', 'p', '\n']

/-- The one-line program `foo`. -/
def unknownProgram : List CString := [['f', 'o', 'o', '\n']]

/-- The one-line program `mov r8, r1`. -/
def registerEightProgram : List CString :=
  [['m', 'o', 'v', ' ', 'r', '8', ',', ' ', 'r', '1', '\n']]

/-- The one-line program `mov *r9, r1`. -/
def indirectNineProgram : List CString :=
  [['m', 'o', 'v', ' ', '*', 'r', '9', ',', ' ', 'r', '1', '\n']]

/-- The one-line program `mov result, r1`. -/
def symbolResultProgram : List CString :=
  [['m', 'o', 'v', ' ', 'r', 'e', 's', 'u', 'l', 't', ',', ' ', 'r', '1', '\n']]

/-- The program `.entry X` / `X: .string "Y"` / `Y: stop`. -/
def entryShadowProgram : List CString :=
  [['.', 'e', 'n', 't', 'r', 'y', ' ', 'X', '\n'],
    ['X', ':', ' ', '.', 's', 't', 'r', 'i', 'n', 'g', ' ', '"', 'Y', '"', '\n'],
    ['Y', ':', ' ', 's', 't', 'o', 'p', '\n']]

/-- The program `.extern result` / `mov result, r1`. -/
def externResultProgram : List CString :=
  [['.', 'e', 'x', 't', 'e', 'r', 'n', ' ', 'r', 'e', 's', 'u', 'l', 't', '\n'],
    ['m', 'o', 'v', ' ', 'r', 'e', 's', 'u', 'l', 't', ',', ' ', 'r', '1', '\n']]

/-- The program `.extern EXT` / `mov EXT, r1`. -/
def externOperandProgram : List CString :=
  [['.', 'e', 'x', 't', 'e', 'r', 'n', ' ', 'E', 'X', 'T', '\n'],
    ['m', 'o', 'v', ' ', 'E', 'X', 'T', ',', ' ', 'r', '1', '\n']]

/-- The record of the line `stop` at address 100. -/
def stopRecord : LineInfo :=
  { initializeLineInfo with
    opcode_name := ['s', 't', 'o', 'p'], opcode_value := 15, memory_cells := 1,
    memory_value := 100 }

/-- The state in which the second pass ends on the table of the program `stop`. -/
def stopFinal : GenState := generateInstruction (initialState [stopRecord]) 0 stopRecord

/-- The program `.extern X` / `X: .string "Y"` / `jmp Y`. -/
def undefinedShadowProgram : List CString :=
  [['.', 'e', 'x', 't', 'e', 'r', 'n', ' ', 'X', '\n'],
    ['X', ':', ' ', '.', 's', 't', 'r', 'i', 'n', 'g', ' ', '"', 'Y', '"', '\n'],
    ['j', 'm', 'p', ' ', 'Y', '\n']]

/-- The one-line program `.data 7 , 3`. -/
def dataBlankProgram : List CString :=
  [['.', 'd', 'a', 't', 'a', ' ', '7', ' ', ',', ' ', '3', '\n']]

/-- The one-line program `.data 7, 3 4`. -/
def dataSplitProgram : List CString :=
  [['.', 'd', 'a', 't', 'a', ' ', '7', ',', ' ', '3', ' ', '4', '\n']]

/-- The one-line program `.data 7, x`. -/
def dataLetterProgram : List CString :=
  [['.', 'd', 'a', 't', 'a', ' ', '7', ',', ' ', 'x', '\n']]

/-- The one-line program `STR: .string "ab`, the closing quote missing. -/
def openStringProgram : List CString :=
  [['S', 'T', 'R', ':', ' ', '.', 's', 't', 'r', 'i', 'n', 'g', ' ', '"', 'a', 'b', '\n']]

/-- The line `mov r1, r2, r3`. -/
def threeOperandLine : CString :=
  instructionLine none ['m', 'o', 'v'] ['r', '1', ',', ' ', 'r', '2', ',', ' ', 'r', '3']

/-- The line `LOOP: jmp END`. -/
def oneOperandLine : CString :=
  instructionLine (some ['L', 'O', 'O', 'P']) ['j', 'm', 'p'] ['E', 'N', 'D']

/-- The line `jmp LABEL67890`, whose operand is a label of ten characters. -/
def longOperandLine : CString :=
  instructionLine none ['j', 'm', 'p'] ['L', 'A', 'B', 'E', 'L', '6', '7', '8', '9', '0']

/-- A label of 23 characters. -/
def longLabel : CString :=
  ['A', 'B', 'C', 'D', 'E', 'F', 'G', 'H', 'I', 'J', 'K', 'L', 'M', 'N', 'O', 'P', 'Q', 'R',
    'S', 'T', 'U', 'V', 'W']

/-- The line `jmp ABCDEFGHIJKLMNOPQRSTUVW`, whose operand is that label. -/
def longJumpLine : CString := instructionLine none ['j', 'm', 'p'] longLabel

/-- The source `macros: .data 1` / `stop`: no line of it begins with the token `macr`. -/
def macrPrefixSource : List CString :=
  [['m', 'a', 'c', 'r', 'o', 's', ':', ' ', '.', 'd', 'a', 't', 'a', ' ', '1', '\n'],
    ['s', 't', 'o', 'p', '\n']]

/-- The source ` mov   r1,` tab ` r2 ` / `stop`. -/
def blanksSource : List CString :=
  [[' ', 'm', 'o', 'v', ' ', ' ', ' ', 'r', '1', ',', '\t', ' ', 'r', '2', ' ', '\n'],
    ['s', 't', 'o', 'p', '\n']]

/-- The source that defines the macro `m` with the body `inc r1` / `dec r2` and then has
the lines `m`, `X: m` and `m stop`. -/
def macroCallSource : List CString :=
  [['m', 'a', 'c', 'r', ' ', 'm', '\n'],
    ['i', 'n', 'c', ' ', 'r', '1', '\n'],
    ['d', 'e', 'c', ' ', 'r', '2', '\n'],
    ['e', 'n', 'd', 'm', 'a', 'c', 'r', '\n'],
    ['m', '\n'],
    ['X', ':', ' ', 'm', '\n'],
    ['m', ' ', 's', 't', 'o', 'p', '\n']]

/-- The source with the line `m`, then the definition of the macro `m` with the body
`stop`, then the line `m` again. -/
def forwardMacroSource : List CString :=
  [['m', '\n'],
    ['m', 'a', 'c', 'r', ' ', 'm', '\n'],
    ['s', 't', 'o', 'p', '\n'],
    ['e', 'n', 'd', 'm', 'a', 'c', 'r', '\n'],
    ['m', '\n']]

/-- The source file that defines the macro `m` with the body `stop` and has no other
line. -/
def macroFileA : List CString :=
  [['m', 'a', 'c', 'r', ' ', 'm', '\n'],
    ['s', 't', 'o', 'p', '\n'],
    ['e', 'n', 'd', 'm', 'a', 'c', 'r', '\n']]

/-- The source file with the single line `m`. -/
def macroFileB : List CString := [['m', '\n']]

/-- The one-line program `jmp NOWHERE`. -/
def undefinedJumpProgram : List CString :=
  [['j', 'm', 'p', ' ', 'N', 'O', 'W', 'H', 'E', 'R', 'E', '\n']]

/-- The text `  mov   r1,` tab ` r2  ` with its line feed. -/
def paddedLine : CString :=
  [' ', ' ', 'm', 'o', 'v', ' ', ' ', ' ', 'r', '1', ',', '\t', ' ', 'r', '2', ' ', ' ', '\n']

/-- The line `macro1: stop`. -/
def macroLabelLine : CString :=
  ['m', 'a', 'c', 'r', 'o', '1', ':', ' ', 's', 't', 'o', 'p', '\n']

/-- The line `macros`. -/
def macrosTokenLine : CString := ['m', 'a', 'c', 'r', 'o', 's', '\n']

/-- The line `macr`, with no name after it. -/
def bareMacrLine : CString := ['m', 'a', 'c', 'r', '\n']

/-- The line `macr m1`. -/
def macrNameLine : CString := ['m', 'a', 'c', 'r', ' ', 'm', '1', '\n']

/-- The source `macro1: stop` / `rts`. -/
def macroLabelSource : List CString := [macroLabelLine, ['r', 't', 's', '\n']]

/-- The line `LOOP: add r1, *r2`. -/
def widthLine : CString :=
  ['L', 'O', 'O', 'P', ':', ' ', 'a', 'd', 'd', ' ', 'r', '1', ',', ' ', '*', 'r', '2', '\n']

/-- The two-line program `mov #5, r2` / `LOOP: add r1, *r2`. -/
def widthProgram : List CString :=
  [['m', 'o', 'v', ' ', '#', '5', ',', ' ', 'r', '2', '\n'], widthLine]

/-- The record of the second line of that program: the record of the line, at the
address 103. -/
def widthRecord : LineInfo := { processLine widthLine with memory_value := 103 }

theorem markEntry_addrCells (p : CString) (ls : List LineInfo) :
    (markEntry p ls).map addrCells = ls.map addrCells := by
  induction ls with
  | nil => rfl
  | cons l ls ih =>
    simp only [markEntry, List.map_cons, ih]
    split <;> rfl

theorem markExtern_addrCells (p : CString) (ls : List LineInfo) :
    (markExtern p ls).1.map addrCells = ls.map addrCells := by
  induction ls with
  | nil => rfl
  | cons l ls ih =>
    simp only [markExtern]
    split
    · split
      · rfl
      · simp only [List.map_cons, ih]; rfl
    · simp only [List.map_cons, ih]

theorem resolveLoop_addrCells (n k : Nat) (ls : List LineInfo) :
    (resolveLoop n k ls).map addrCells = ls.map addrCells := by
  induction n generalizing k ls with
  | zero => rfl
  | succ n ih =>
    simp only [resolveLoop]
    split
    · rfl
    · split
      · rw [ih, markEntry_addrCells]
      · split
        · split
          · rw [markExtern_addrCells]
          · rw [ih, markExtern_addrCells]
        · rw [ih]

theorem processInputFile_addrCells (file : List CString) :
    (processInputFile file).map addrCells = (readLines 100 file).map addrCells :=
  resolveLoop_addrCells _ _ _

theorem readLines_length (a : Int) (file : List CString) :
    (readLines a file).length = file.length := by
  induction file generalizing a with
  | nil => rfl
  | cons l ls ih => simp [readLines, ih]

theorem readLines_head (a : Int) (file : List CString) (p : Int × Int)
    (h : ((readLines a file).map addrCells).head? = some p) : p.1 = a := by
  cases file with
  | nil => simp [readLines] at h
  | cons l ls =>
    simp only [readLines, List.map_cons, List.head?_cons, Option.some.injEq] at h
    rw [← h]; rfl

theorem readLines_step (a : Int) (file : List CString) (k : Nat) (p q : Int × Int)
    (hp : ((readLines a file).map addrCells).get? k = some p)
    (hq : ((readLines a file).map addrCells).get? (k + 1) = some q) : q.1 = p.1 + p.2 := by
  induction file generalizing a k with
  | nil => simp [readLines] at hp
  | cons l ls ih =>
    cases k with
    | zero =>
      simp only [readLines, List.map_cons, List.get?_cons_zero, Option.some.injEq] at hp
      simp only [readLines, List.map_cons, List.get?_cons_succ] at hq
      have h0 := readLines_head _ ls q (by
        rw [← hq]
        cases (List.map addrCells (readLines (a + (processLine l).memory_cells) ls)) <;> rfl)
      rw [h0, ← hp]; rfl
    | succ k =>
      simp only [readLines, List.map_cons, List.get?_cons_succ] at hp hq
      exact ih _ k hp hq

/-- C1. For every sequence of lines, `processInputFile` yields one record per line; the
first record has `memory_value` 100, and the `memory_value` of record `k + 1` is the
`memory_value` of record `k` plus the `memory_cells` of record `k`. -/
theorem processInputFile_addresses (file : List CString) :
    (processInputFile file).length = file.length ∧
    (∀ r, (processInputFile file).head? = some r → r.memory_value = 100) ∧
    (∀ k r r', (processInputFile file).get? k = some r →
      (processInputFile file).get? (k + 1) = some r' →
      r'.memory_value = r.memory_value + r.memory_cells) := by
  have hmap := processInputFile_addrCells file
  refine ⟨?_, ?_, ?_⟩
  · have := congrArg List.length hmap
    simpa [readLines_length] using this
  · intro r hr
    have : ((readLines 100 file).map addrCells).head? = some (addrCells r) := by
      rw [← hmap, List.head?_map, hr]; rfl
    exact readLines_head 100 file _ this
  · intro k r r' hr hr'
    have h1 : ((readLines 100 file).map addrCells).get? k = some (addrCells r) := by
      rw [← hmap, List.get?_eq_getElem?, List.getElem?_map, ← List.get?_eq_getElem?, hr]; rfl
    have h2 : ((readLines 100 file).map addrCells).get? (k + 1) = some (addrCells r') := by
      rw [← hmap, List.get?_eq_getElem?, List.getElem?_map, ← List.get?_eq_getElem?, hr']; rfl
    exact readLines_step 100 file k _ _ h1 h2

/-! ## Machine arithmetic -/

theorem wrap32_of_range (x : Int) (h0 : -2147483648 ≤ x) (h1 : x < 2147483648) : wrap32 x = x := by
  unfold wrap32
  omega

theorem toU32_natCast (n : Nat) (h : n < 4294967296) : toU32 (n : Int) = n := by
  unfold toU32
  omega

theorem bor_natCast (a b : Nat) (ha : a < 2147483648) (hb : b < 2147483648) :
    bor (a : Int) (b : Int) = ((a ||| b : Nat) : Int) := by
  unfold bor
  rw [toU32_natCast a (by omega), toU32_natCast b (by omega)]
  have : a ||| b < 2 ^ 31 := Nat.or_lt_two_pow (by omega) (by omega)
  rw [Int.ofNat_eq_coe, wrap32_of_range] <;> omega

theorem band_mask15 (x : Int) : band x 0x7FFF = x % 32768 := by
  unfold band
  have hm : toU32 0x7FFF = 2 ^ 15 - 1 := by decide
  rw [hm, Nat.and_pow_two_sub_one_eq_mod]
  unfold toU32 wrap32
  simp only [Int.ofNat_eq_coe]
  omega

theorem bor_mul8_four (x : Int) (h0 : -268435456 ≤ x) (h1 : x < 268435456) :
    band (bor (shl x 3) (shl 1 2)) 0x7FFF = (x % 4096) * 8 + 4 := by
  have hs : shl x 3 = x * 8 := by
    unfold shl
    rw [wrap32_of_range] <;> omega
  have h4 : shl 1 2 = 4 := by decide
  rw [hs, h4, band_mask15]
  unfold bor
  have hu : toU32 (x * 8) = 2 ^ 3 * ((x % 536870912).toNat) := by
    unfold toU32
    omega
  have hu4 : toU32 4 = 4 := by decide
  rw [hu, hu4, ← Nat.mul_add_lt_is_or (by decide : 4 < 2 ^ 3)]
  unfold wrap32
  simp only [Int.ofNat_eq_coe]
  omega

theorem bor_zero_field (n sh : Nat) (hn : n ≤ 7) (hsh : sh = 3 ∨ sh = 6) :
    bor (bor 0 (shl n sh)) (shl 1 2) = bor (shl n sh) 4 ∧
      bor (shl (n : Int) sh) 4 = n * 2 ^ sh + 4 := by
  rcases hsh with h | h <;> subst h <;> interval_cases n <;> decide

/-! ## The data loop ends; the loop body fails only on an empty `.data` payload -/

theorem dropWhile_length_le (p : Char → Bool) (s : CString) :
    (s.dropWhile p).length ≤ s.length := by
  induction s with
  | nil => simp
  | cons c cs ih =>
    rw [List.dropWhile_cons]
    split
    · exact Nat.le_succ_of_le ih
    · exact Nat.le_refl _

/-- A token found by `strtok` leaves strictly less to scan. -/
theorem strtok_save_length (s delim tok : CString) (h : (strtok s delim).1 = some tok) :
    (strtok s delim).2.length < s.length := by
  unfold strtok at h ⊢
  have hle := dropWhile_length_le (fun c => delim.contains c) s
  split at h
  · cases h
  · rename_i c cs heq
    rw [heq] at hle
    simp only [List.length_drop]
    have := dropWhile_length_le (fun d => !delim.contains d) (c :: cs)
    simp only [List.length_cons] at hle this ⊢
    omega

/-- The count of the data loop never runs out when it starts above the length of the
text still to scan, as it does in `generateLine`. -/
theorem dataLoop_total (n : Nat) (st : GenState) (i : Nat) (token save : CString)
    (h : save.length < n) : (dataLoop n st i token save).isSome = true := by
  induction n generalizing st token save with
  | zero => exact absurd h (Nat.not_lt_zero _)
  | succ n ih =>
    simp only [dataLoop]
    split
    · rfl
    · rename_i next hnext
      apply ih
      have := strtok_save_length save [',', '\t', ' '] next hnext
      omega

/-- The loop body fails only by the NULL dereference of the `.data` branch: on a data
record whose payload holds no token. -/
theorem generateLine_eq_none_iff (st : GenState) (i : Nat) (line : LineInfo) :
    generateLine st i line = none ↔
      line.is_data = true ∧ (strtok line.data_string_value [',']).1 = none := by
  unfold generateLine
  by_cases hd : line.is_data = true
  · simp only [hd, if_true, true_and]
    split
    · rename_i h
      simp [h]
    · rename_i tok h
      have ht := dataLoop_total ((strtok line.data_string_value [',']).2.length + 1) st i
        (cutAtLineEnd tok) (strtok line.data_string_value [',']).2 (Nat.lt_succ_self _)
      constructor
      · intro hn
        rw [hn] at ht
        exact absurd ht (by decide)
      · intro hn
        rw [h] at hn
        cases hn
  · have hf : line.is_data = false := by simpa using hd
    simp only [hf, Bool.false_eq_true, if_false, false_and, iff_false]
    split_ifs <;> simp

/-! ## The second pass never rewrites a stored word -/

theorem Keeps.refl (st : GenState) : Keeps st st := ⟨Nat.le_refl _, fun _ _ => rfl⟩

theorem Keeps.trans {a b c : GenState} (h1 : Keeps a b) (h2 : Keeps b c) : Keeps a c :=
  ⟨Nat.le_trans h1.1 h2.1, fun x hx => by
    rw [h2.2 x (Nat.lt_of_lt_of_le hx h1.1), h1.2 x hx]⟩

theorem emitCode_keeps (st : GenState) (w : Int) : Keeps st (emitCode st w) := by
  unfold emitCode
  split
  · refine ⟨Nat.le_succ _, fun a ha => ?_⟩
    simp only [Function.update_apply]
    rw [if_neg (Nat.ne_of_lt ha)]
  · exact Keeps.refl st

theorem emitData_keeps (st : GenState) (w : Int) : Keeps st (emitData st w) := by
  unfold emitData
  split
  · refine ⟨Nat.le_succ _, fun a ha => ?_⟩
    simp only [Function.update_apply]
    rw [if_neg (Nat.ne_of_lt ha)]
  · exact Keeps.refl st

theorem setFlag_keeps (st : GenState) (i : Nat) : Keeps st (setFlag st i) :=
  ⟨Nat.le_refl _, fun _ _ => rfl⟩

theorem ite_setFlag_keeps (st : GenState) (i : Nat) (c : Prop) [Decidable c] :
    Keeps st (if c then setFlag st i else st) := by
  split
  · exact setFlag_keeps st i
  · exact Keeps.refl st

theorem dataLoop_keeps (n : Nat) (st : GenState) (i : Nat) (token save : CString)
    (st' : GenState) (h : dataLoop n st i token save = some st') : Keeps st st' := by
  induction n generalizing st token save with
  | zero => simp [dataLoop] at h
  | succ n ih =>
    simp only [dataLoop] at h
    have hk : Keeps st (emitData (if (skipSign token).all isdigit = true then st else setFlag st i)
        (band (atoi token) 0x7FFF)) := by
      refine Keeps.trans ?_ (emitData_keeps _ _)
      split
      · exact Keeps.refl st
      · exact setFlag_keeps st i
    split at h
    · cases h; exact hk
    · exact Keeps.trans hk (ih _ _ _ h)

theorem stringLoop_keeps (st : GenState) (s : CString) : Keeps st (stringLoop st s) := by
  induction s generalizing st with
  | nil => exact Keeps.refl st
  | cons c cs ih => exact Keeps.trans (emitData_keeps _ _) (ih _)

theorem emitDirect_keeps (st : GenState) (i : Nat) (label : CString) :
    Keeps st (emitDirect st i label) := by
  unfold emitDirect
  exact Keeps.trans (ite_setFlag_keeps st i _) (emitCode_keeps _ _)

theorem emitSource_keeps (st : GenState) (i : Nat) (line : LineInfo) :
    Keeps st (emitSource st i line) := by
  unfold emitSource
  split_ifs
  · exact emitCode_keeps _ _
  · exact emitDirect_keeps _ _ _
  · exact emitCode_keeps _ _
  · exact emitCode_keeps _ _
  · exact emitCode_keeps _ _
  · exact Keeps.refl st

theorem emitDestRegister_keeps (st : GenState) (line : LineInfo) :
    Keeps st (emitDestRegister st line) := by
  unfold emitDestRegister
  split_ifs
  · exact emitCode_keeps _ _
  · exact emitCode_keeps _ _
  · exact Keeps.refl st

theorem emitDestination_keeps (st : GenState) (i : Nat) (line : LineInfo) :
    Keeps st (emitDestination st i line) := by
  unfold emitDestination
  split_ifs
  · exact emitCode_keeps _ _
  · exact emitDirect_keeps _ _ _
  · exact Keeps.refl st

theorem generateInstruction_keeps (st : GenState) (i : Nat) (line : LineInfo) :
    Keeps st (generateInstruction st i line) := by
  unfold generateInstruction
  exact Keeps.trans (ite_setFlag_keeps st i _)
    (Keeps.trans (emitCode_keeps _ _)
      (Keeps.trans (emitSource_keeps _ _ _)
        (Keeps.trans (emitDestRegister_keeps _ _) (emitDestination_keeps _ _ _))))

theorem generateLine_keeps (st : GenState) (i : Nat) (line : LineInfo) (st' : GenState)
    (h : generateLine st i line = some st') : Keeps st st' := by
  unfold generateLine at h
  split_ifs at h
  · split at h
    · cases h
    · exact dataLoop_keeps _ _ _ _ _ _ h
  · cases h
    exact Keeps.trans (stringLoop_keeps _ _) (emitData_keeps _ _)
  · cases h; exact generateInstruction_keeps _ _ _
  · cases h; exact Keeps.refl _

theorem generateLoop_keeps (n i : Nat) (st st' : GenState)
    (h : generateLoop n i st = some st') : Keeps st st' := by
  induction n generalizing i st with
  | zero => simp only [generateLoop, Option.some.injEq] at h; rw [← h]; exact Keeps.refl st
  | succ n ih =>
    simp only [generateLoop] at h
    split at h
    · cases h; exact Keeps.refl _
    · split at h
      · cases h
      · rename_i st1 h1
        exact Keeps.trans (generateLine_keeps _ _ _ _ h1) (ih _ _ h)

theorem emitCode_room (st : GenState) (w : Int) (h : st.outputIndex < MAX_LINES) :
    (emitCode st w).outputIndex = st.outputIndex + 1 ∧
    (emitCode st w).output st.outputIndex = w ∧ (emitCode st w).lines = st.lines := by
  unfold emitCode
  rw [if_pos h]
  simp

theorem eraseFlags_raiseFlag (i : Nat) (ls : List LineInfo) :
    eraseFlags (raiseFlag i ls) = eraseFlags ls := by
  induction ls generalizing i with
  | nil => cases i <;> rfl
  | cons l ls ih =>
    cases i with
    | zero => rfl
    | succ i =>
      simp only [raiseFlag, eraseFlags, List.map_cons] at ih ⊢
      rw [ih]

theorem isExtern_eraseFlags (ls : List LineInfo) (label : CString) :
    isExtern (eraseFlags ls) label = isExtern ls label := by
  induction ls with
  | nil => rfl
  | cons l ls ih =>
    simp only [eraseFlags, List.map_cons, isExtern] at ih ⊢
    rw [ih]

theorem findLabelAddressLoop_eraseFlags (label : CString) (w : Int) (ls : List LineInfo) :
    findLabelAddressLoop label w (eraseFlags ls) = findLabelAddressLoop label w ls := by
  induction ls generalizing w with
  | nil => rfl
  | cons l ls ih =>
    simp only [eraseFlags, List.map_cons, findLabelAddressLoop] at ih ⊢
    rw [ih]

theorem findLabelAddress_eraseFlags (ls : List LineInfo) (label : CString) :
    findLabelAddress (eraseFlags ls) label = findLabelAddress ls label := by
  unfold findLabelAddress
  rw [isExtern_eraseFlags, findLabelAddressLoop_eraseFlags]

theorem unflag_setFlag (st : GenState) (i : Nat) : unflag (setFlag st i) = unflag st := by
  simp only [unflag, setFlag, eraseFlags_raiseFlag]

theorem unflag_ite_setFlag (st : GenState) (i : Nat) (c : Prop) [Decidable c] :
    unflag (if c then setFlag st i else st) = unflag st := by
  split
  · exact unflag_setFlag st i
  · rfl

theorem unflag_emitCode (st : GenState) (w : Int) :
    unflag (emitCode st w) = emitCode (unflag st) w := by
  unfold emitCode unflag
  split <;> rfl

theorem unflag_emitWords (st : GenState) (ws : List Int) :
    unflag (emitWords st ws) = emitWords (unflag st) ws := by
  induction ws generalizing st with
  | nil => rfl
  | cons w ws ih =>
    simp only [emitWords, List.foldl_cons] at ih ⊢
    rw [ih, unflag_emitCode]

theorem emitWords_append (st : GenState) (a b : List Int) :
    emitWords st (a ++ b) = emitWords (emitWords st a) b := by
  simp [emitWords, List.foldl_append]

theorem unflag_emitDirect (st : GenState) (i : Nat) (label : CString) :
    unflag (emitDirect st i label) =
      emitCode (unflag st) (findLabelAddress (eraseFlags st.lines) label) := by
  unfold emitDirect
  rw [unflag_emitCode, unflag_ite_setFlag, findLabelAddress_eraseFlags]

theorem unflag_emitSource (st : GenState) (i : Nat) (line : LineInfo) :
    unflag (emitSource st i line) =
      emitWords (unflag st) (sourceWords (eraseFlags st.lines) line) := by
  unfold emitSource sourceWords
  split_ifs <;>
    simp only [unflag_emitCode, unflag_emitDirect, emitWords, List.foldl_cons, List.foldl_nil]

theorem unflag_emitDestRegister (st : GenState) (line : LineInfo) :
    unflag (emitDestRegister st line) = emitWords (unflag st) (destRegisterWords line) := by
  unfold emitDestRegister destRegisterWords
  split_ifs <;> simp only [unflag_emitCode, emitWords, List.foldl_cons, List.foldl_nil]

theorem unflag_emitDestination (st : GenState) (i : Nat) (line : LineInfo) :
    unflag (emitDestination st i line) =
      emitWords (unflag st) (destinationWords (eraseFlags st.lines) line) := by
  unfold emitDestination destinationWords
  split_ifs <;>
    simp only [unflag_emitCode, unflag_emitDirect, emitWords, List.foldl_cons, List.foldl_nil]

theorem emitWords_lines (st : GenState) (ws : List Int) : (emitWords st ws).lines = st.lines := by
  induction ws generalizing st with
  | nil => rfl
  | cons w ws ih =>
    simp only [emitWords, List.foldl_cons] at ih ⊢
    rw [ih]
    unfold emitCode
    split <;> rfl

theorem eraseFlags_emitCode (st : GenState) (w : Int) :
    eraseFlags (emitCode st w).lines = eraseFlags st.lines := by
  unfold emitCode
  split <;> rfl

theorem eraseFlags_ite_setFlag (st : GenState) (i : Nat) (c : Prop) [Decidable c] :
    eraseFlags (if c then setFlag st i else st).lines = eraseFlags st.lines := by
  split
  · exact eraseFlags_raiseFlag i st.lines
  · rfl

theorem eraseFlags_emitSource (st : GenState) (i : Nat) (line : LineInfo) :
    eraseFlags (emitSource st i line).lines = eraseFlags st.lines := by
  have h := congrArg GenState.lines (unflag_emitSource st i line)
  rw [emitWords_lines] at h
  exact h

theorem eraseFlags_emitDestRegister (st : GenState) (line : LineInfo) :
    eraseFlags (emitDestRegister st line).lines = eraseFlags st.lines := by
  have h := congrArg GenState.lines (unflag_emitDestRegister st line)
  rw [emitWords_lines] at h
  exact h

theorem unflag_generateInstruction (st : GenState) (i : Nat) (line : LineInfo) :
    unflag (generateInstruction st i line) =
      emitWords (unflag st) (instructionWords (eraseFlags st.lines) line) := by
  unfold generateInstruction instructionWords
  simp only []
  rw [unflag_emitDestination, unflag_emitDestRegister, unflag_emitSource, unflag_emitCode,
    unflag_ite_setFlag, eraseFlags_emitDestRegister, eraseFlags_emitSource,
    eraseFlags_emitCode, eraseFlags_ite_setFlag, ← emitWords_append, ← emitWords_append,
    List.append_assoc]
  rfl

theorem emitWords_output (st : GenState) (ws : List Int) (k : Nat) (w : Int)
    (hk : ws.get? k = some w) (h : st.outputIndex + k < MAX_LINES) :
    (emitWords st ws).output (st.outputIndex + k) = w := by
  induction ws generalizing st k with
  | nil => simp at hk
  | cons a ws ih =>
    have hlt : st.outputIndex < MAX_LINES := by omega
    have hs := emitCode_room st a hlt
    simp only [emitWords, List.foldl_cons] at ih ⊢
    cases k with
    | zero =>
      simp only [List.get?_cons_zero, Option.some.injEq] at hk
      have hkeep : Keeps (emitCode st a) (List.foldl emitCode (emitCode st a) ws) := by
        clear ih hs hk
        generalize emitCode st a = s
        induction ws generalizing s with
        | nil => exact Keeps.refl _
        | cons b ws ih2 => exact Keeps.trans (emitCode_keeps _ _) (ih2 _)
      rw [Nat.add_zero, hkeep.2 _ (by rw [hs.1]; omega), hs.2.1, hk]
    | succ k =>
      simp only [List.get?_cons_succ] at hk
      have := ih (emitCode st a) k hk (by rw [hs.1]; omega)
      rw [hs.1] at this
      rw [← this]
      congr 1
      omega

theorem emitWords_outputIndex_eq (st : GenState) (ws : List Int) :
    (emitWords st ws).outputIndex =
      max st.outputIndex (min (st.outputIndex + ws.length) MAX_LINES) := by
  induction ws generalizing st with
  | nil => simp [emitWords]
  | cons w ws ih =>
    simp only [emitWords, List.foldl_cons, List.length_cons] at ih ⊢
    rw [ih]
    unfold emitCode
    split
    · simp only []
      omega
    · omega

/-- The image, position and counters of an instruction's encoding are those of storing
its words one after the other. -/
theorem generateInstruction_image (st : GenState) (i : Nat) (line : LineInfo) :
    (generateInstruction st i line).output =
        (emitWords st (instructionWords st.lines line)).output ∧
      (generateInstruction st i line).outputIndex =
        (emitWords st (instructionWords st.lines line)).outputIndex := by
  have h := unflag_generateInstruction st i line
  have h2 := unflag_emitWords st (instructionWords (eraseFlags st.lines) line)
  rw [← h2] at h
  have hw : instructionWords (eraseFlags st.lines) line = instructionWords st.lines line := by
    unfold instructionWords sourceWords destinationWords
    simp only [findLabelAddress_eraseFlags]
  rw [hw] at h
  have h1 : (unflag (generateInstruction st i line)).output =
      (unflag (emitWords st (instructionWords st.lines line))).output := by rw [h]
  have h3 : (unflag (generateInstruction st i line)).outputIndex =
      (unflag (emitWords st (instructionWords st.lines line))).outputIndex := by rw [h]
  exact ⟨h1, h3⟩

theorem generateLine_instruction (st : GenState) (i : Nat) (line : LineInfo)
    (hd : line.is_data = false) (hs : line.is_string = false) (ho : line.opcode_value ≠ -1) :
    generateLine st i line = some (generateInstruction st i line) := by
  unfold generateLine
  simp [hd, hs, ho]

theorem instruction_storesAt (st : GenState) (i : Nat) (line : LineInfo) (k : Nat) (w : Int)
    (hi : IsInstruction line)
    (hk : (instructionWords st.lines line).get? k = some w)
    (hroom : st.outputIndex + k < MAX_LINES) :
    StoresAt st i line (st.outputIndex + k) w := by
  obtain ⟨hd, hs, ho⟩ := hi
  have him := generateInstruction_image st i line
  have hlen : k < (instructionWords st.lines line).length := by
    rw [List.get?_eq_getElem?] at hk
    exact (List.getElem?_eq_some_iff.mp hk).1
  have hidx : st.outputIndex + k < (generateInstruction st i line).outputIndex := by
    rw [him.2, emitWords_outputIndex_eq]
    omega
  have hout : (generateInstruction st i line).output (st.outputIndex + k) = w := by
    rw [him.1]
    exact emitWords_output st _ k w hk hroom
  refine ⟨_, generateLine_instruction st i line hd hs ho, Nat.le_add_right _ _, hidx, hout, ?_⟩
  intro n j fin hfin
  rw [(generateLoop_keeps n j _ fin hfin).2 _ hidx, hout]

theorem instruction_outputIndex (st : GenState) (i : Nat) (line : LineInfo)
    (hi : IsInstruction line) :
    ∃ st', generateLine st i line = some st' ∧
      st'.outputIndex = max st.outputIndex
        (min (st.outputIndex + (instructionWords st.lines line).length) MAX_LINES) := by
  obtain ⟨hd, hs, ho⟩ := hi
  refine ⟨_, generateLine_instruction st i line hd hs ho, ?_⟩
  rw [(generateInstruction_image st i line).2, emitWords_outputIndex_eq]

theorem instructionWords_head (lines : List LineInfo) (line : LineInfo) :
    (instructionWords lines line).get? 0 = some (opcodeWord line) := rfl

theorem instructionWords_source (lines : List LineInfo) (line : LineInfo) (w : Int)
    (h : sourceWords lines line = [w]) : (instructionWords lines line).get? 1 = some w := by
  unfold instructionWords
  rw [h]
  rfl

theorem sourceWords_absent (lines : List LineInfo) (line : LineInfo)
    (h : line.source_method = -1) : sourceWords lines line = [] := by
  unfold sourceWords
  simp [h, IMMEDIATE, DIRECT, INDIRECT_REGISTER, DIRECT_REGISTER]

theorem sourceWords_present (lines : List LineInfo) (line : LineInfo)
    (h : IsMode line.source_method) (hn : line.source_method ≠ -1) :
    ∃ w, sourceWords lines line = [w] := by
  unfold sourceWords
  simp only [IMMEDIATE, DIRECT, INDIRECT_REGISTER, DIRECT_REGISTER]
  rcases h with h | h | h | h | h
  · exact absurd h hn
  · simp [h]
  · simp [h]
  · rw [h]; simp only [if_neg (by decide : ¬ ((2 : Int) = 0)), if_neg (by decide : ¬ ((2 : Int) = 1))]
    split_ifs <;> simp
  · rw [h]; simp only [if_neg (by decide : ¬ ((3 : Int) = 0)), if_neg (by decide : ¬ ((3 : Int) = 1))]
    split_ifs <;> simp_all

/-- The word at the place of the destination operand: right after the opcode word when
the source is absent, one further when a source word comes first. -/
theorem instructionWords_destination (lines : List LineInfo) (line : LineInfo) (w : Int)
    (hm : IsMode line.source_method)
    (h : destRegisterWords line ++ destinationWords lines line = [w]) :
    (instructionWords lines line).get? (if line.source_method = -1 then 1 else 2) = some w := by
  unfold instructionWords
  rw [List.append_assoc, h]
  by_cases hs : line.source_method = -1
  · rw [if_pos hs, sourceWords_absent lines line hs]
    rfl
  · obtain ⟨x, hx⟩ := sourceWords_present lines line hm hs
    rw [if_neg hs, hx]
    rfl

/-! ## The opcode word (C2) -/

theorem opcodeWord_eq (line : LineInfo) (ho : 0 ≤ line.opcode_value)
    (ho' : line.opcode_value ≤ 15) (hs : IsMode line.source_method)
    (hd : IsMode line.destination_method) :
    opcodeWord line = line.opcode_value * 2 ^ 11 + sourceBit line.source_method +
      destBit line.destination_method + 4 := by
  unfold opcodeWord
  generalize line.opcode_value = o at *
  generalize line.source_method = s at *
  generalize line.destination_method = d at *
  interval_cases o <;> rcases hs with h | h | h | h | h <;> rcases hd with h' | h' | h' | h' | h' <;>
    subst h <;> subst h' <;> decide

/-- C2. When the second pass processes an instruction record (opcode value 0..15), the
first word it stores for the record (it stores one whenever the image is not full), at
the current output position, is `o * 2 ^ 11 + S + D + 4`, `S` and `D` being the one-hot
codes of the source and destination modes (0 when absent); the one-line program `stop`
yields the word octal 74004 at address 100 with IC = 1 and DC = 0. -/
theorem opcode_word_first_emitted :
    (∀ (st : GenState) (i : Nat) (line : LineInfo),
      line.is_data = false → line.is_string = false →
      0 ≤ line.opcode_value → line.opcode_value ≤ 15 →
      IsMode line.source_method → IsMode line.destination_method →
      st.outputIndex < MAX_LINES →
      StoresAt st i line st.outputIndex
        (line.opcode_value * 2 ^ 11 + sourceBit line.source_method +
          destBit line.destination_method + 4)) ∧
    (assemble stopProgram).map (fun st => (st.output 100, st.outputIndex, st.ic, st.dc)) =
      some (0o74004, 101, 1, 0) := by
  refine ⟨?_, by decide⟩
  intro st i line hd hs ho ho' hsm hdm hroom
  have hi : IsInstruction line := ⟨hd, hs, by omega⟩
  have h := instruction_storesAt st i line 0 (opcodeWord line) hi
    (instructionWords_head _ _) (by omega)
  rw [opcodeWord_eq line ho ho' hsm hdm] at h
  exact h

theorem opcode_word_first_emitted_witness :
    StoresAt (initialState []) 0 { initializeLineInfo with opcode_value := 15 } 100
      (15 * 2 ^ 11 + 0 + 0 + 4) :=
  opcode_word_first_emitted.1 (initialState []) 0 { initializeLineInfo with opcode_value := 15 }
    rfl rfl (by decide) (by decide) (Or.inl rfl) (Or.inl rfl) (by decide)

/-! ## The width of an instruction (C7) -/

theorem calculateMemoryCells_modes (lineInfo : LineInfo)
    (hd : lineInfo.is_data = false) (hs : lineInfo.is_string = false)
    (he : lineInfo.is_entry = false) (hx : lineInfo.is_extern = false) :
    calculateMemoryCells lineInfo =
      if lineInfo.source_method = -1 ∧ lineInfo.destination_method = -1 then 1
      else if lineInfo.source_method = -1 then 2
      else if (lineInfo.destination_method = 3 ∨ lineInfo.destination_method = 2) ∧
          (lineInfo.source_method = 3 ∨ lineInfo.source_method = 2) then 2
      else 3 := by
  unfold calculateMemoryCells
  simp only [hd, hs, he, hx, DIRECT_REGISTER, INDIRECT_REGISTER, Bool.false_eq_true, if_false,
    Bool.not_false, Bool.and_self, if_true]

/-- C7. For a record that is neither data, string, entry nor extern, `calculateMemoryCells`
returns 1, 2 or 3, and the value depends on the two addressing methods only: 1 when both
operands are absent, 2 when the source is absent and the destination present, 2 when both
are register-class, 3 in every other case. -/
theorem calculateMemoryCells_instruction (lineInfo : LineInfo)
    (hd : lineInfo.is_data = false) (hs : lineInfo.is_string = false)
    (he : lineInfo.is_entry = false) (hx : lineInfo.is_extern = false) :
    (calculateMemoryCells lineInfo = 1 ∨ calculateMemoryCells lineInfo = 2 ∨
      calculateMemoryCells lineInfo = 3) ∧
    (lineInfo.source_method = -1 → lineInfo.destination_method = -1 →
      calculateMemoryCells lineInfo = 1) ∧
    (lineInfo.source_method = -1 → lineInfo.destination_method ≠ -1 →
      calculateMemoryCells lineInfo = 2) ∧
    (lineInfo.source_method ≠ -1 → lineInfo.destination_method ≠ -1 →
      IsRegisterClass lineInfo.source_method → IsRegisterClass lineInfo.destination_method →
      calculateMemoryCells lineInfo = 2) ∧
    (lineInfo.source_method ≠ -1 →
      ¬ (IsRegisterClass lineInfo.source_method ∧
        IsRegisterClass lineInfo.destination_method) →
      calculateMemoryCells lineInfo = 3) ∧
    (∀ other : LineInfo, other.is_data = false → other.is_string = false →
      other.is_entry = false → other.is_extern = false →
      other.source_method = lineInfo.source_method →
      other.destination_method = lineInfo.destination_method →
      calculateMemoryCells other = calculateMemoryCells lineInfo) := by
  have hn := calculateMemoryCells_modes lineInfo hd hs he hx
  unfold IsRegisterClass
  simp only [DIRECT_REGISTER, INDIRECT_REGISTER]
  refine ⟨?_, ?_, ?_, ?_, ?_, ?_⟩
  · rw [hn]; split_ifs <;> simp
  · intro h1 h2; rw [hn]; simp [h1, h2]
  · intro h1 h2; rw [hn]; simp [h1, h2]
  · intro h1 h2 h3 h4
    rw [hn]
    rcases h3 with h3 | h3 <;> rcases h4 with h4 | h4 <;> simp [h3, h4]
  · intro h1 h2
    rw [hn, if_neg (fun h => h1 h.1), if_neg h1, if_neg (fun h => h2 ⟨h.2, h.1⟩)]
  · intro other od os oe ox hsrc hdst
    rw [hn, calculateMemoryCells_modes other od os oe ox, hsrc, hdst]

theorem calculateMemoryCells_instruction_witness :
    calculateMemoryCells
      { initializeLineInfo with source_method := 3, destination_method := 2 } = 2 :=
  (calculateMemoryCells_instruction
    { initializeLineInfo with source_method := 3, destination_method := 2 }
    rfl rfl rfl rfl).2.2.2.1 (by decide) (by decide) (Or.inl rfl) (Or.inr rfl)

/-! ## Register operands (C9, C10) -/

theorem charVal_digitChar (n : Nat) (hn : n ≤ 7) :
    charVal (digitChar n) - charVal '0' = (n : Int) := by
  interval_cases n <;> decide

theorem regField_direct (n sh : Nat) (hn : n ≤ 7) :
    regField ['r', digitChar n] 1 sh = shl n sh := by
  show shl (charVal (digitChar n) - charVal '0') sh = shl n sh
  rw [charVal_digitChar n hn]

theorem regField_indirect (n sh : Nat) (hn : n ≤ 7) :
    regField ['*', 'r', digitChar n] 2 sh = shl n sh := by
  show shl (charVal (digitChar n) - charVal '0') sh = shl n sh
  rw [charVal_digitChar n hn]

theorem sourceWords_register (lines : List LineInfo) (line : LineInfo) (n : Nat)
    (hr : IsRegisterOperand line.source_method line.source_method_value n)
    (hd : line.destination_method = -1 ∨ line.destination_method = IMMEDIATE ∨
      line.destination_method = DIRECT) :
    sourceWords lines line = [bor (bor 0 (shl n 6)) (shl 1 2)] := by
  obtain ⟨hn, h | h⟩ := hr
  · have hf : regField line.source_method_value 1 6 = shl n 6 := by
      rw [h.2]; exact regField_direct n 6 hn
    unfold sourceWords
    rw [hf]
    simp only [DIRECT_REGISTER, INDIRECT_REGISTER, IMMEDIATE, DIRECT] at h hd ⊢
    rcases hd with hd | hd | hd <;> simp [h.1, hd]
  · have hf : regField line.source_method_value 2 6 = shl n 6 := by
      rw [h.2]; exact regField_indirect n 6 hn
    unfold sourceWords
    rw [hf]
    simp only [DIRECT_REGISTER, INDIRECT_REGISTER, IMMEDIATE, DIRECT] at h hd ⊢
    rcases hd with hd | hd | hd <;> simp [h.1, hd]

theorem destRegisterWords_register (line : LineInfo) (n : Nat)
    (hr : IsRegisterOperand line.destination_method line.destination_method_value n)
    (hs : line.source_method = -1 ∨ line.source_method = IMMEDIATE ∨
      line.source_method = DIRECT) :
    destRegisterWords line = [bor (bor 0 (shl n 3)) (shl 1 2)] := by
  obtain ⟨hn, h | h⟩ := hr
  · have hf : regField line.destination_method_value 1 3 = shl n 3 := by
      rw [h.2]; exact regField_direct n 3 hn
    unfold destRegisterWords
    rw [hf]
    simp only [DIRECT_REGISTER, INDIRECT_REGISTER, IMMEDIATE, DIRECT] at h hs ⊢
    rcases hs with hs | hs | hs <;> simp [h.1, hs]
  · have hf : regField line.destination_method_value 2 3 = shl n 3 := by
      rw [h.2]; exact regField_indirect n 3 hn
    unfold destRegisterWords
    rw [hf]
    simp only [DIRECT_REGISTER, INDIRECT_REGISTER, IMMEDIATE, DIRECT] at h hs ⊢
    rcases hs with hs | hs | hs <;> simp [h.1, hs]

/-- C10. In an instruction record with exactly one register-class operand, of register
number `n` in 0..7, the other operand being absent, Immediate or Direct, the word the
second pass stores for the register operand (it stores one whenever the address of that
word lies in the image) is `(n << 6) | 4` when the register is the source and
`(n << 3) | 4` when it is the destination: with the source absent and a register
destination, the number goes to bits 5..3. -/
theorem single_register_operand_word (st : GenState) (i : Nat) (line : LineInfo) (n : Nat)
    (hi : IsInstruction line) :
    (IsRegisterOperand line.source_method line.source_method_value n →
      (line.destination_method = -1 ∨ line.destination_method = IMMEDIATE ∨
        line.destination_method = DIRECT) →
      st.outputIndex + 1 < MAX_LINES →
      StoresAt st i line (st.outputIndex + 1) (bor (shl n 6) 4)) ∧
    (IsRegisterOperand line.destination_method line.destination_method_value n →
      (line.source_method = -1 ∨ line.source_method = IMMEDIATE ∨
        line.source_method = DIRECT) →
      st.outputIndex + (if line.source_method = -1 then 1 else 2) < MAX_LINES →
      StoresAt st i line (st.outputIndex + (if line.source_method = -1 then 1 else 2))
        (bor (shl n 3) 4)) ∧
    (n ≤ 7 → bor (shl (n : Int) 6) 4 = n * 2 ^ 6 + 4 ∧ bor (shl (n : Int) 3) 4 = n * 2 ^ 3 + 4)
    := by
  refine ⟨?_, ?_, ?_⟩
  · intro hr hd hroom
    have hw := sourceWords_register st.lines line n hr hd
    rw [(bor_zero_field n 6 hr.1 (Or.inr rfl)).1] at hw
    exact instruction_storesAt st i line 1 _ hi (instructionWords_source _ _ _ hw) hroom
  · intro hr hs hroom
    have hw := destRegisterWords_register line n hr hs
    rw [(bor_zero_field n 3 hr.1 (Or.inl rfl)).1] at hw
    have hdw : destinationWords st.lines line = [] := by
      unfold destinationWords
      obtain ⟨_, h | h⟩ := hr <;>
        simp [h.1, IMMEDIATE, DIRECT, INDIRECT_REGISTER, DIRECT_REGISTER]
    have hm : IsMode line.source_method := by
      rcases hs with h | h | h
      · exact Or.inl h
      · exact Or.inr (Or.inl h)
      · exact Or.inr (Or.inr (Or.inl h))
    exact instruction_storesAt st i line _ _ hi
      (instructionWords_destination _ _ _ hm (by rw [hw, hdw]; rfl)) hroom
  · intro hn
    exact ⟨(bor_zero_field n 6 hn (Or.inr rfl)).2, (bor_zero_field n 3 hn (Or.inl rfl)).2⟩

theorem single_register_operand_word_witness :
    StoresAt (initialState (processInputFile clrProgram)) 0
      { initializeLineInfo with
        opcode_value := 5, destination_method := 3, destination_method_value := ['r', '5'] }
      101 (bor (shl 5 3) 4) :=
  (single_register_operand_word (initialState (processInputFile clrProgram)) 0
    { initializeLineInfo with
      opcode_value := 5, destination_method := 3, destination_method_value := ['r', '5'] }
    5 ⟨rfl, rfl, by decide⟩).2.1
    ⟨by decide, Or.inl ⟨rfl, rfl⟩⟩ (Or.inl rfl) (by decide)

theorem instructionWords_shared (lines : List LineInfo) (line : LineInfo) (S D : Nat)
    (hs : IsRegisterOperand line.source_method line.source_method_value S)
    (hd : IsRegisterOperand line.destination_method line.destination_method_value D) :
    instructionWords lines line =
      [opcodeWord line, bor (bor (shl S 6) (shl D 3)) 4] := by
  have hw : sharedRegWord line = bor (bor (shl S 6) (shl D 3)) 4 := by
    have hS := hs.1
    have hD := hd.1
    obtain ⟨_, h | h⟩ := hs <;> obtain ⟨_, h' | h'⟩ := hd <;>
      simp only [DIRECT_REGISTER, INDIRECT_REGISTER] at h h' <;>
      · unfold sharedRegWord
        simp only [h.1, h'.1, h.2, h'.2, DIRECT_REGISTER, INDIRECT_REGISTER,
          regField_direct _ _ hS, regField_direct _ _ hD, regField_indirect _ _ hS,
          regField_indirect _ _ hD]
        interval_cases S <;> interval_cases D <;> decide
  unfold instructionWords sourceWords destRegisterWords destinationWords
  rw [hw]
  obtain ⟨_, h | h⟩ := hs <;> obtain ⟨_, h' | h'⟩ := hd <;>
    simp [h.1, h'.1, IMMEDIATE, DIRECT, INDIRECT_REGISTER, DIRECT_REGISTER]

/-- C9 (amended). In an instruction record whose source names register `S` and whose
destination names register `D` (each as `rN` or `*rN`, `N` in 0..7), processed while the
image has room for two more words, the second pass stores exactly two words: the opcode
word and one operand word, equal to `(S << 6) | (D << 3) | 4`. -/
theorem shared_register_word (st : GenState) (i : Nat) (line : LineInfo) (S D : Nat)
    (hi : IsInstruction line)
    (hs : IsRegisterOperand line.source_method line.source_method_value S)
    (hd : IsRegisterOperand line.destination_method line.destination_method_value D)
    (hroom : st.outputIndex + 2 ≤ MAX_LINES) :
    (∃ st', generateLine st i line = some st' ∧ st'.outputIndex = st.outputIndex + 2) ∧
    StoresAt st i line st.outputIndex (opcodeWord line) ∧
    StoresAt st i line (st.outputIndex + 1) (bor (bor (shl S 6) (shl D 3)) 4) ∧
    bor (bor (shl (S : Int) 6) (shl (D : Int) 3)) 4 = S * 2 ^ 6 + D * 2 ^ 3 + 4 := by
  have hw := instructionWords_shared st.lines line S D hs hd
  refine ⟨?_, ?_, ?_, ?_⟩
  · obtain ⟨st', h1, h2⟩ := instruction_outputIndex st i line hi
    refine ⟨st', h1, ?_⟩
    rw [h2, hw]
    simp only [List.length_cons, List.length_nil]
    omega
  · exact instruction_storesAt st i line 0 _ hi (by rw [hw]; rfl) (by omega)
  · exact instruction_storesAt st i line 1 _ hi (by rw [hw]; rfl) (by omega)
  · have hS := hs.1
    have hD := hd.1
    interval_cases S <;> interval_cases D <;> decide

theorem shared_register_word_witness :
    StoresAt (initialState []) 0
      { initializeLineInfo with
        opcode_value := 0, source_method := 2, source_method_value := ['*', 'r', '1'],
        destination_method := 3, destination_method_value := ['r', '2'] }
      101 (bor (bor (shl 1 6) (shl 2 3)) 4) :=
  (shared_register_word (initialState []) 0
    { initializeLineInfo with
      opcode_value := 0, source_method := 2, source_method_value := ['*', 'r', '1'],
      destination_method := 3, destination_method_value := ['r', '2'] }
    1 2 ⟨rfl, rfl, by decide⟩ ⟨by decide, Or.inr ⟨rfl, rfl⟩⟩ ⟨by decide, Or.inl ⟨rfl, rfl⟩⟩
    (by decide)).2.2.1

/-- C9 (counterexample). In the program of seventeen 235-word `.string` lines followed by
`mov r1, r2`, the last record (opcode 0, source `r1`, destination `r2`, no error flag) is
reached with the output position at 4095, and the pass ends with the position at 4096 and
IC = 1: only the opcode word is stored for it, and no operand word. -/
theorem shared_register_word_dropped_when_full :
    (processInputFile fullImageMovProgram).length = 18 ∧
    (processInputFile fullImageMovProgram).get? 17 =
      some { initializeLineInfo with
        opcode_name := ['m', 'o', 'v'], opcode_value := 0, count_op := 2,
        source_method := 3, source_method_value := ['r', '1'],
        destination_method := 3, destination_method_value := ['r', '2'],
        memory_cells := 2, memory_value := 4095 } ∧
    (generateLoop 17 0 (initialState (processInputFile fullImageMovProgram))).map
        (fun st => (st.outputIndex, st.ic)) = some (4095, 0) ∧
    (generateOutput (processInputFile fullImageMovProgram)).map
        (fun st => (st.outputIndex, st.ic, st.output 4095)) = some (4096, 1, 2 ^ 10 + 2 ^ 6 + 4) := by
  refine ⟨?_, ?_, ?_, ?_⟩
  · decide!
  · decide!
  · decide!
  · decide!

/-! ## Immediate operands (C8) -/

theorem atoiDigits_eq (acc : Int) (ds : CString) (h : ∀ c ∈ ds, isdigit c = true) :
    atoiDigits acc ds = acc * 10 ^ ds.length + (decimalValue ds : Int) := by
  induction ds generalizing acc with
  | nil => simp [atoiDigits, decimalValue]
  | cons c cs ih =>
    have hc : isdigit c = true := h c (List.mem_cons_self _ _)
    have hcs : ∀ x ∈ cs, isdigit x = true := fun x hx => h x (List.mem_cons_of_mem _ hx)
    have h48 : 48 ≤ c.toNat := by
      simp only [isdigit, Bool.and_eq_true, decide_eq_true_eq] at hc
      exact hc.1
    simp only [atoiDigits, hc, if_true, decimalValue, List.length_cons]
    rw [ih _ hcs]
    simp only [Int.ofNat_eq_coe]
    push_cast [Nat.cast_sub h48]
    ring

theorem isspace_of_isdigit (c : Char) (h : isdigit c = true) : isspace c = false := by
  simp only [isdigit, Bool.and_eq_true, decide_eq_true_eq] at h
  simp only [isspace, Bool.or_eq_false_iff, decide_eq_false_iff_not, Bool.and_eq_false_iff]
  omega

theorem ne_sign_of_isdigit (c : Char) (h : isdigit c = true) : c ≠ '-' ∧ c ≠ '+' := by
  constructor <;> (intro hc; subst hc; revert h; decide)

theorem clampLong_of_range (x : Int) (h0 : -9223372036854775808 ≤ x)
    (h1 : x < 9223372036854775808) : clampLong x = x := by
  unfold clampLong
  omega

/-- On a decimal literal in the range of a `long`, `atoi` yields the value of the literal
reduced to 32 bits. -/
theorem atoi_literal (lit : CString) (v : Int) (h : IsDecimalLiteral lit v)
    (hlo : -9223372036854775808 ≤ v) (hhi : v < 9223372036854775808) :
    atoi lit = wrap32 v := by
  obtain ⟨ds, hne, hds, h | h | h⟩ := h
  · obtain ⟨rfl, rfl⟩ := h
    cases lit with
    | nil => exact absurd rfl hne
    | cons c cs =>
      have hc := hds c (List.mem_cons_self _ _)
      have hsp := isspace_of_isdigit c hc
      have hsg := ne_sign_of_isdigit c hc
      unfold atoi
      simp only [List.dropWhile_cons, hsp, Bool.false_eq_true, if_false, hsg.1, hsg.2]
      rw [atoiDigits_eq 0 (c :: cs) hds, zero_mul, zero_add, clampLong_of_range _ hlo hhi]
  · obtain ⟨rfl, rfl⟩ := h
    unfold atoi
    have hsp : isspace '+' = false := by decide
    simp only [List.dropWhile_cons, hsp, Bool.false_eq_true, if_false]
    rw [if_pos trivial, atoiDigits_eq 0 ds hds, zero_mul, zero_add,
      clampLong_of_range _ hlo hhi, if_neg (by decide)]
  · obtain ⟨rfl, rfl⟩ := h
    unfold atoi
    have hsp : isspace '-' = false := by decide
    simp only [List.dropWhile_cons, hsp, Bool.false_eq_true, if_false]
    rw [if_pos trivial, atoiDigits_eq 0 ds hds, zero_mul, zero_add,
      clampLong_of_range _ hlo hhi]

theorem immediate_word (lit : CString) (v : Int) (h : IsDecimalLiteral lit v)
    (hlo : -2048 ≤ v) (hhi : v ≤ 2047) :
    band (bor (shl (atoi (('#' :: lit).drop 1)) 3) (shl 1 2)) 0x7FFF =
      bor (shl (v % 2 ^ 12) 3) 4 ∧ bor (shl (v % 2 ^ 12) 3) 4 = (v % 2 ^ 12) * 8 + 4 := by
  have ha : atoi (('#' :: lit).drop 1) = v := by
    rw [List.drop_one, List.tail_cons, atoi_literal lit v h (by omega) (by omega),
      wrap32_of_range] <;> omega
  rw [ha, bor_mul8_four v (by omega) (by omega)]
  have hr : bor (shl (v % 2 ^ 12) 3) 4 = (v % 2 ^ 12) * 8 + 4 := by
    have h0 : 0 ≤ v % 2 ^ 12 := Int.emod_nonneg _ (by norm_num)
    have h1 : v % 2 ^ 12 < 2 ^ 12 := Int.emod_lt_of_pos _ (by norm_num)
    obtain ⟨m, hm⟩ := Int.eq_ofNat_of_zero_le h0
    rw [hm] at h1 ⊢
    have hm' : m < 4096 := by omega
    have hs : shl (m : Int) 3 = ((2 ^ 3 * m : Nat) : Int) := by
      unfold shl
      rw [wrap32_of_range] <;> push_cast <;> omega
    rw [hs, show (4 : Int) = ((4 : Nat) : Int) from rfl, bor_natCast _ _ (by omega) (by omega),
      ← Nat.mul_add_lt_is_or (by decide : 4 < 2 ^ 3)]
    push_cast
    omega
  exact ⟨by rw [hr]; norm_num, hr⟩

/-- C8. For an Immediate operand `#v`, `v` a decimal literal in -2048..2047, the operand
word the second pass stores (after the opcode word for a source, after the source word if
any for a destination; it stores one whenever the address of that word lies in the image)
equals, once masked to 15 bits, `((v mod 2 ^ 12) << 3) | 4`; for `mov #5, r3` the source
word is `(5 << 3) | 4` and the destination word `(3 << 3) | 4`. -/
theorem immediate_operand_word :
    (∀ (st : GenState) (i : Nat) (line : LineInfo) (lit : CString) (v : Int),
      IsInstruction line → IsDecimalLiteral lit v → -2048 ≤ v → v ≤ 2047 →
      (line.source_method = IMMEDIATE → line.source_method_value = '#' :: lit →
        st.outputIndex + 1 < MAX_LINES →
        ∃ w, StoresAt st i line (st.outputIndex + 1) w ∧
          band w 0x7FFF = bor (shl (v % 2 ^ 12) 3) 4) ∧
      (line.destination_method = IMMEDIATE → line.destination_method_value = '#' :: lit →
        IsMode line.source_method →
        st.outputIndex + (if line.source_method = -1 then 1 else 2) < MAX_LINES →
        ∃ w, StoresAt st i line
            (st.outputIndex + (if line.source_method = -1 then 1 else 2)) w ∧
          band w 0x7FFF = bor (shl (v % 2 ^ 12) 3) 4)) ∧
    (∀ v : Int, -2048 ≤ v → v ≤ 2047 →
      bor (shl (v % 2 ^ 12) 3) 4 = (v % 2 ^ 12) * 2 ^ 3 + 4) ∧
    (assemble movImmediateProgram).map (fun st => (st.output 101, st.output 102)) =
      some (bor (shl 5 3) 4, bor (shl 3 3) 4) := by
  refine ⟨?_, ?_, by decide⟩
  · intro st i line lit v hi hlit hlo hhi
    refine ⟨?_, ?_⟩
    · intro hm hv hroom
      have hw : sourceWords st.lines line =
          [bor (shl (atoi (('#' :: lit).drop 1)) 3) (shl 1 2)] := by
        unfold sourceWords
        rw [if_pos hm, hv]
      exact ⟨_, instruction_storesAt st i line 1 _ hi (instructionWords_source _ _ _ hw) hroom,
        (immediate_word lit v hlit hlo hhi).1⟩
    · intro hm hv hsm hroom
      have hw : destinationWords st.lines line =
          [bor (shl (atoi (('#' :: lit).drop 1)) 3) (shl 1 2)] := by
        unfold destinationWords
        rw [if_pos hm, hv]
      have hr : destRegisterWords line = [] := by
        unfold destRegisterWords
        simp only [IMMEDIATE, INDIRECT_REGISTER, DIRECT_REGISTER] at hm ⊢
        simp [hm]
      exact ⟨_, instruction_storesAt st i line _ _ hi
        (instructionWords_destination _ _ _ hsm (by rw [hw, hr]; rfl)) hroom,
        (immediate_word lit v hlit hlo hhi).1⟩
  · intro v hlo hhi
    have h0 : 0 ≤ v % 2 ^ 12 := Int.emod_nonneg _ (by norm_num)
    have h1 : v % 2 ^ 12 < 2 ^ 12 := Int.emod_lt_of_pos _ (by norm_num)
    obtain ⟨m, hm⟩ := Int.eq_ofNat_of_zero_le h0
    rw [hm] at h1 ⊢
    have hs : shl (m : Int) 3 = ((2 ^ 3 * m : Nat) : Int) := by
      unfold shl
      rw [wrap32_of_range] <;> push_cast <;> omega
    rw [hs, show (4 : Int) = ((4 : Nat) : Int) from rfl, bor_natCast _ _ (by omega) (by omega),
      ← Nat.mul_add_lt_is_or (by decide : 4 < 2 ^ 3)]
    push_cast
    omega

theorem immediate_operand_word_witness :
    ∃ w, StoresAt (initialState []) 0
        { initializeLineInfo with
          opcode_value := 0, source_method := 0, source_method_value := ['#', '-', '3'],
          destination_method := 3, destination_method_value := ['r', '3'] } 101 w ∧
      band w 0x7FFF = bor (shl ((-3) % 2 ^ 12) 3) 4 :=
  (immediate_operand_word.1 (initialState []) 0
    { initializeLineInfo with
      opcode_value := 0, source_method := 0, source_method_value := ['#', '-', '3'],
      destination_method := 3, destination_method_value := ['r', '3'] }
    ['-', '3'] (-3) ⟨rfl, rfl, by decide⟩
    ⟨['3'], by simp, by decide, Or.inr (Or.inr ⟨rfl, rfl⟩)⟩ (by decide) (by decide)).1
    rfl rfl (by decide)

/-! ## Label lookup (C3, C4) -/

theorem isExtern_eq_zero_iff (lines : List LineInfo) (label : CString) :
    isExtern lines label = 0 ↔ ∃ l ∈ lines, PassesExternTest l label := by
  induction lines with
  | nil => simp [isExtern]
  | cons l ls ih =>
    unfold isExtern
    by_cases h : l.is_extern = true ∧ l.opcode_value = -1 ∧ label = l.data_string_value
    · rw [if_pos h]
      exact ⟨fun _ => ⟨l, List.mem_cons_self _ _, h⟩, fun _ => rfl⟩
    · rw [if_neg h, ih]
      constructor
      · rintro ⟨x, hx, hp⟩
        exact ⟨x, List.mem_cons_of_mem _ hx, hp⟩
      · rintro ⟨x, hx, hp⟩
        rcases List.mem_cons.mp hx with rfl | hx
        · exact absurd hp h
        · exact ⟨x, hx, hp⟩

theorem findLabelAddressLoop_append (label : CString) (w : Int) (a b : List LineInfo) :
    findLabelAddressLoop label w (a ++ b) =
      findLabelAddressLoop label (findLabelAddressLoop label w a) b := by
  induction a generalizing w with
  | nil => rfl
  | cons l ls ih =>
    rw [List.cons_append]
    simp only [findLabelAddressLoop]
    exact ih _

theorem findLabelAddressLoop_absent (label : CString) (w : Int) (ls : List LineInfo)
    (h : ∀ l ∈ ls, l.label_name ≠ label) : findLabelAddressLoop label w ls = w := by
  induction ls generalizing w with
  | nil => rfl
  | cons l ls ih =>
    simp only [findLabelAddressLoop, if_neg (h l (List.mem_cons_self _ _))]
    exact ih w (fun x hx => h x (List.mem_cons_of_mem _ hx))

/-- Where no record passes the extern test for `label`, `findLabelAddress` encodes the
address of the last record labelled `label`, and yields -1 when there is none. -/
theorem findLabelAddress_not_extern (lines : List LineInfo) (label : CString)
    (hx : ∀ l ∈ lines, ¬ PassesExternTest l label) :
    (∀ pre r post, lines = pre ++ r :: post → r.label_name = label →
      (∀ l ∈ post, l.label_name ≠ label) →
      findLabelAddress lines label = bor (bor 0 (shl r.memory_value 3)) (shl 1 1)) ∧
    ((∀ l ∈ lines, l.label_name ≠ label) → findLabelAddress lines label = -1) := by
  have hne : isExtern lines label ≠ 0 := by
    intro h0
    obtain ⟨l, hl, hp⟩ := (isExtern_eq_zero_iff lines label).mp h0
    exact hx l hl hp
  constructor
  · intro pre r post hlines hr hpost
    unfold findLabelAddress
    rw [if_neg hne, hlines, findLabelAddressLoop_append]
    simp only [findLabelAddressLoop, if_pos hr]
    exact findLabelAddressLoop_absent label _ post hpost
  · intro hnone
    unfold findLabelAddress
    rw [if_neg hne]
    exact findLabelAddressLoop_absent label _ lines hnone

/-- C3 (the code at the failing input). In the table of `.extern X` / `X: .string "Y"` /
`Y: stop` / `jmp Y` the only `.extern` directive has payload `X`, and `Y` is the label of
exactly one record, at address 102; yet `findLabelAddress` returns 1 for `Y`, not
`(102 << 3) | 2`: `isExtern` takes the `.string` record, marked extern through its label
`X`, for an `.extern` directive of payload `Y`. The forward reference of `jmp LOOP` /
`LOOP: stop` is resolved as the claim says. -/
theorem findLabelAddress_local_label_as_external :
    processInputFile externShadowProgram =
      [{ initializeLineInfo with
          is_extern := true, data_string_value := ['X'], memory_value := 100 },
        { initializeLineInfo with
          label_name := ['X'], is_string := true, is_extern := true,
          data_string_value := ['Y'], memory_cells := 2, memory_value := 100 },
        { initializeLineInfo with
          label_name := ['Y'], opcode_name := ['s', 't', 'o', 'p'], opcode_value := 15,
          is_extern := true, memory_cells := 1, memory_value := 102 },
        { initializeLineInfo with
          opcode_name := ['j', 'm', 'p'], opcode_value := 9, destination_method := 1,
          destination_method_value := ['Y'], count_op := 1, memory_cells := 2,
          memory_value := 103 }] ∧
    findLabelAddress (processInputFile externShadowProgram) ['Y'] = 1 ∧
    findLabelMemory (processInputFile externShadowProgram) ['Y'] = 102 ∧
    bor (shl 102 3) 2 = 818 ∧
    (assemble forwardJumpProgram).map (fun st => st.output 101) = some (bor (shl 102 3) 2) := by
  refine ⟨?_, ?_, ?_, ?_, ?_⟩ <;> decide

/-- C4 (the code at the failing input). Assembling `.extern X` / `X: .string "Y"` /
`Y: stop` / `jmp Y` raises no error flag, and the operand word of `jmp Y`, at address 104,
is 1: its A/R/E field is External although no `.extern` directive declares `Y`, which is
the label of the record at address 102. -/
theorem local_label_operand_marked_external :
    (assemble externShadowProgram).map
        (fun st => (st.output 104, band (st.output 104) 7, st.outputIndex,
          st.lines.map (fun l => l.flag))) =
      some (1, 1, 105, [false, false, false, false]) ∧
    (processInputFile externShadowProgram).map
        (fun l => (l.opcode_name, l.opcode_value, l.is_string, l.data_string_value)) =
      [([], -1, false, ['X']), ([], -1, true, ['Y']),
        (['s', 't', 'o', 'p'], 15, false, []), (['j', 'm', 'p'], 9, false, [])] := by
  refine ⟨?_, ?_⟩ <;> decide

/-! ## The tokenizer on directive lines -/

theorem strtok_token (tok rest : CString) (c : Char) (delim : CString) (hne : tok ≠ [])
    (htok : ∀ x ∈ tok, delim.contains x = false) (hc : delim.contains c = true) :
    strtok (tok ++ c :: rest) delim = (some tok, rest) := by
  cases tok with
  | nil => exact absurd rfl hne
  | cons a t =>
    have ha : delim.contains a = false := htok a (List.mem_cons_self _ _)
    have hp : ∀ x ∈ a :: t, (fun d => !delim.contains d) x = true := by
      intro x hx
      simp only [htok x hx, Bool.not_false]
    unfold strtok
    rw [List.cons_append, List.dropWhile_cons_of_neg
      (by show ¬ (delim.contains a = true); rw [ha]; exact Bool.false_ne_true)]
    simp only []
    rw [← List.cons_append, List.takeWhile_append_of_pos hp, List.dropWhile_append_of_pos hp,
      List.takeWhile_cons_of_neg (by show ¬ ((!delim.contains c) = true); rw [hc]; decide),
      List.dropWhile_cons_of_neg (by show ¬ ((!delim.contains c) = true); rw [hc]; decide)]
    simp

theorem strtok_last (tok : CString) (delim : CString) (hne : tok ≠ [])
    (htok : ∀ x ∈ tok, delim.contains x = false) :
    strtok tok delim = (some tok, []) := by
  cases tok with
  | nil => exact absurd rfl hne
  | cons a t =>
    have ha : delim.contains a = false := htok a (List.mem_cons_self _ _)
    have hp : ∀ x ∈ a :: t, (fun d => !delim.contains d) x = true := by
      intro x hx
      simp only [htok x hx, Bool.not_false]
    unfold strtok
    rw [List.dropWhile_cons_of_neg
      (by show ¬ (delim.contains a = true); rw [ha]; exact Bool.false_ne_true)]
    simp only []
    rw [List.takeWhile_eq_self_iff.mpr hp, List.dropWhile_eq_nil_iff.mpr hp]
    rfl

theorem contains_false_of_ne (delim : CString) (c : Char) (h : ∀ d ∈ delim, c ≠ d) :
    delim.contains c = false := by
  induction delim with
  | nil => rfl
  | cons d ds ih =>
    simp only [List.contains_cons, Bool.or_eq_false_iff, beq_eq_false_iff_ne, ne_eq]
    exact ⟨h d (List.mem_cons_self _ _), ih (fun x hx => h x (List.mem_cons_of_mem _ hx))⟩

theorem alnum_not_blank (c : Char) (h : isalnum c = true) :
    [' ', '\r', '\t', '\n'].contains c = false ∧ c ≠ ':' := by
  refine ⟨contains_false_of_ne _ _ ?_, ?_⟩
  · intro d hd hcd
    subst hcd
    simp only [List.mem_cons, List.mem_singleton, List.not_mem_nil, or_false] at hd
    rcases hd with rfl | rfl | rfl | rfl <;> revert h <;> decide
  · intro hc
    subst hc
    revert h
    decide

theorem label_chars (l : CString) (h : badLabel l = false) :
    l ≠ [] ∧ ∀ c ∈ l, isalnum c = true := by
  unfold badLabel at h
  cases l with
  | nil => revert h; decide
  | cons a t =>
    refine ⟨List.cons_ne_nil _ _, ?_⟩
    have ha : isalpha a = true := by
      by_contra hn
      simp only [Bool.not_eq_true] at hn
      simp [charAt, hn] at h
    simp only [charAt, List.getD_cons_zero, ha, Bool.not_true, Bool.false_eq_true, if_false,
      List.drop_succ_cons, List.drop_zero] at h
    have ht : t.any (fun c => !isalnum c) = false := by
      by_contra hn
      simp only [Bool.not_eq_false] at hn
      simp [hn] at h
    intro c hc
    rcases List.mem_cons.mp hc with rfl | hc
    · simp [isalnum, ha]
    · have := List.any_eq_false.mp ht c hc
      simpa using this

theorem charAt_concat_last (l : CString) (c : Char) :
    charAt (l ++ [c]) ((l ++ [c]).length - 1) = c := by
  unfold charAt
  simp [List.getD_eq_getElem?_getD]

theorem contains_false_mono (big small : CString) (c : Char)
    (hsub : ∀ d ∈ small, d ∈ big) (h : big.contains c = false) : small.contains c = false := by
  apply contains_false_of_ne
  intro d hd hcd
  subst hcd
  have : big.contains c = true := List.contains_iff_exists_mem_beq.mpr ⟨c, hsub c hd, by simp⟩
  rw [h] at this
  exact Bool.false_ne_true this

theorem processLine_directiveLine (label : Option CString) (d payload : CString)
    (hl : ∀ l, label = some l → badLabel l = false) (hd : d ≠ [])
    (hdc : ∀ x ∈ d, [' ', '\r', '\t', '\n'].contains x = false)
    (hlast : charAt d (d.length - 1) ≠ ':') :
    processLine (directiveLine label d payload) =
      processStatement { initializeLineInfo with label_name := label.getD [] } (some d)
        (payload ++ ['\n']) := by
  cases label with
  | none =>
    have h := strtok_token d (payload ++ ['\n']) ' ' [' ', '\r', '\t', '\n'] hd hdc (by decide)
    unfold processLine directiveLine labelPrefix
    simp only [List.nil_append, h, if_neg hlast]
    rfl
  | some l =>
    have hb := hl l rfl
    obtain ⟨hne, hal⟩ := label_chars l hb
    have htok : ∀ x ∈ l ++ [':'], [' ', '\r', '\t', '\n'].contains x = false := by
      intro x hx
      rcases List.mem_append.mp hx with hx | hx
      · exact (alnum_not_blank x (hal x hx)).1
      · simp only [List.mem_singleton] at hx
        subst hx
        decide
    have h1 := strtok_token (l ++ [':']) (d ++ ' ' :: (payload ++ ['\n'])) ' '
      [' ', '\r', '\t', '\n'] (by simp) htok (by decide)
    have hdc2 : ∀ x ∈ d, [' ', '\t'].contains x = false := fun x hx =>
      contains_false_mono [' ', '\r', '\t', '\n'] [' ', '\t'] x (by decide) (hdc x hx)
    have h2 := strtok_token d (payload ++ ['\n']) ' ' [' ', '\t'] hd hdc2 (by decide)
    have hline : directiveLine (some l) d payload =
        (l ++ [':']) ++ ' ' :: (d ++ ' ' :: (payload ++ ['\n'])) := by
      unfold directiveLine labelPrefix
      simp
    unfold processLine
    simp only [hline, h1, charAt_concat_last, if_true, List.dropLast_concat, hb, h2,
      Bool.false_eq_true, if_false, Option.getD_some]

theorem calcStringLoop_eq (n : Int) (s : CString) : calcStringLoop n s = n + s.length := by
  induction s generalizing n with
  | nil => simp [calcStringLoop]
  | cons c cs ih =>
    simp only [calcStringLoop, ih, List.length_cons]
    push_cast
    ring

/-- Beyond the range of a `long` the number saturates: the literals `99999999999999999990`
and `-99999999999999999990` give the `int` values -1 and 0, that is the words 32767 and 0,
not the words 32758 and 10 of their values. -/
theorem atoi_saturates :
    atoi ['9', '9', '9', '9', '9', '9', '9', '9', '9', '9', '9', '9', '9', '9', '9', '9', '9',
        '9', '9', '0'] = -1 ∧
    atoi ['-', '9', '9', '9', '9', '9', '9', '9', '9', '9', '9', '9', '9', '9', '9', '9', '9',
        '9', '9', '9', '0'] = 0 ∧
    band (-1) 0x7FFF = 32767 ∧ band 0 0x7FFF = 0 ∧
    (99999999999999999990 : Int) % 32768 = 32758 ∧
    (-99999999999999999990 : Int) % 32768 = 10 := by
  refine ⟨by decide!, by decide!, by decide!, by decide!, by decide, by decide⟩

theorem sameButFlag_refl (l : LineInfo) : SameButFlag l l := Or.inl rfl

theorem sameButFlag_trans {a b c : LineInfo} (h1 : SameButFlag a b) (h2 : SameButFlag b c) :
    SameButFlag a c := by
  rcases h1 with rfl | rfl
  · exact h2
  · rcases h2 with rfl | rfl
    · exact Or.inr rfl
    · exact Or.inr rfl

theorem sameButFlag_flag {a b : LineInfo} (h : SameButFlag a b) (hf : a.flag = true) :
    b.flag = true := by
  rcases h with rfl | rfl
  · exact hf
  · rfl

theorem flagsRaised_refl (ls : List LineInfo) : FlagsRaised ls ls := by
  induction ls with
  | nil => exact List.Forall₂.nil
  | cons l ls ih => exact List.Forall₂.cons (sameButFlag_refl l) ih

theorem flagsRaised_trans {a b c : List LineInfo} (h1 : FlagsRaised a b)
    (h2 : FlagsRaised b c) : FlagsRaised a c := by
  induction h1 generalizing c with
  | nil => cases h2; exact List.Forall₂.nil
  | cons h hs ih =>
    cases h2 with
    | cons g gs => exact List.Forall₂.cons (sameButFlag_trans h g) (ih gs)

theorem flagsRaised_get {ls ls' : List LineInfo} (h : FlagsRaised ls ls') (i : Nat)
    (l : LineInfo) (hl : ls.get? i = some l) :
    ∃ l', ls'.get? i = some l' ∧ SameButFlag l l' := by
  induction h generalizing i with
  | nil => simp at hl
  | cons h hs ih =>
    cases i with
    | zero =>
      simp only [List.get?_cons_zero, Option.some.injEq] at hl
      subst hl
      exact ⟨_, rfl, h⟩
    | succ i => exact ih i hl

theorem flagsRaised_length {ls ls' : List LineInfo} (h : FlagsRaised ls ls') :
    ls'.length = ls.length := by
  induction h with
  | nil => rfl
  | cons _ _ ih => simp [ih]

theorem raiseFlag_raised (i : Nat) (ls : List LineInfo) : FlagsRaised ls (raiseFlag i ls) := by
  induction ls generalizing i with
  | nil => cases i <;> exact List.Forall₂.nil
  | cons l ls ih =>
    cases i with
    | zero => exact List.Forall₂.cons (Or.inr rfl) (flagsRaised_refl ls)
    | succ i => exact List.Forall₂.cons (sameButFlag_refl l) (ih i)

theorem raiseFlag_get (i : Nat) (ls : List LineInfo) (l : LineInfo)
    (hl : ls.get? i = some l) : (raiseFlag i ls).get? i = some { l with flag := true } := by
  induction ls generalizing i with
  | nil => simp at hl
  | cons a ls ih =>
    cases i with
    | zero =>
      simp only [List.get?_cons_zero, Option.some.injEq] at hl
      subst hl
      rfl
    | succ i => exact ih i hl

theorem emitCode_lines (st : GenState) (w : Int) : (emitCode st w).lines = st.lines := by
  unfold emitCode
  split_ifs <;> rfl

theorem emitData_lines (st : GenState) (w : Int) : (emitData st w).lines = st.lines := by
  unfold emitData
  split_ifs <;> rfl

theorem emitCode_raised (st : GenState) (w : Int) : FlagsRaised st.lines (emitCode st w).lines := by
  rw [emitCode_lines]
  exact flagsRaised_refl _

theorem emitData_raised (st : GenState) (w : Int) : FlagsRaised st.lines (emitData st w).lines := by
  rw [emitData_lines]
  exact flagsRaised_refl _

theorem setFlag_raised (st : GenState) (i : Nat) : FlagsRaised st.lines (setFlag st i).lines :=
  raiseFlag_raised i st.lines

theorem ite_setFlag_raised (st : GenState) (i : Nat) (c : Prop) [Decidable c] :
    FlagsRaised st.lines (if c then setFlag st i else st).lines := by
  split_ifs
  · exact setFlag_raised st i
  · exact flagsRaised_refl _

theorem ite_keep_setFlag_raised (st : GenState) (i : Nat) (c : Prop) [Decidable c] :
    FlagsRaised st.lines (if c then st else setFlag st i).lines := by
  split_ifs
  · exact flagsRaised_refl _
  · exact setFlag_raised st i

theorem emitDirect_raised (st : GenState) (i : Nat) (label : CString) :
    FlagsRaised st.lines (emitDirect st i label).lines := by
  unfold emitDirect
  exact flagsRaised_trans (ite_setFlag_raised st i _) (emitCode_raised _ _)

theorem emitSource_raised (st : GenState) (i : Nat) (line : LineInfo) :
    FlagsRaised st.lines (emitSource st i line).lines := by
  unfold emitSource
  split_ifs
  · exact emitCode_raised _ _
  · exact emitDirect_raised _ _ _
  · exact emitCode_raised _ _
  · exact emitCode_raised _ _
  · exact emitCode_raised _ _
  · exact flagsRaised_refl _

theorem emitDestRegister_raised (st : GenState) (line : LineInfo) :
    FlagsRaised st.lines (emitDestRegister st line).lines := by
  unfold emitDestRegister
  split_ifs
  · exact emitCode_raised _ _
  · exact emitCode_raised _ _
  · exact flagsRaised_refl _

theorem emitDestination_raised (st : GenState) (i : Nat) (line : LineInfo) :
    FlagsRaised st.lines (emitDestination st i line).lines := by
  unfold emitDestination
  split_ifs
  · exact emitCode_raised _ _
  · exact emitDirect_raised _ _ _
  · exact flagsRaised_refl _

theorem generateInstruction_raised (st : GenState) (i : Nat) (line : LineInfo) :
    FlagsRaised st.lines (generateInstruction st i line).lines := by
  unfold generateInstruction
  exact flagsRaised_trans (flagsRaised_trans (flagsRaised_trans (flagsRaised_trans
    (ite_setFlag_raised st i _) (emitCode_raised _ _)) (emitSource_raised _ _ _))
    (emitDestRegister_raised _ _)) (emitDestination_raised _ _ _)

theorem dataLoop_raised (n : Nat) (st : GenState) (i : Nat) (token save : CString)
    (st' : GenState) (h : dataLoop n st i token save = some st') :
    FlagsRaised st.lines st'.lines := by
  induction n generalizing st token save with
  | zero => simp [dataLoop] at h
  | succ n ih =>
    have h0 : FlagsRaised st.lines
        (emitData (if (skipSign token).all isdigit then st else setFlag st i)
          (band (atoi token) 0x7FFF)).lines :=
      flagsRaised_trans (ite_keep_setFlag_raised st i _) (emitData_raised _ _)
    unfold dataLoop at h
    simp only at h
    split at h
    · cases h
      exact h0
    · exact flagsRaised_trans h0 (ih _ _ _ h)

theorem stringLoop_lines (st : GenState) (s : CString) : (stringLoop st s).lines = st.lines := by
  induction s generalizing st with
  | nil => rfl
  | cons c cs ih => rw [stringLoop, ih, emitData_lines]

theorem generateLine_raised (st : GenState) (i : Nat) (line : LineInfo) (st' : GenState)
    (h : generateLine st i line = some st') : FlagsRaised st.lines st'.lines := by
  unfold generateLine at h
  split_ifs at h
  · split at h
    · cases h
    · exact dataLoop_raised _ _ _ _ _ _ h
  · cases h
    rw [emitData_lines, stringLoop_lines]
    exact flagsRaised_refl _
  · cases h
    exact generateInstruction_raised _ _ _
  · cases h
    exact flagsRaised_refl _

theorem generateLoop_raised (n i : Nat) (st st' : GenState)
    (h : generateLoop n i st = some st') : FlagsRaised st.lines st'.lines := by
  induction n generalizing i st with
  | zero =>
    simp only [generateLoop, Option.some.injEq] at h
    subst h
    exact flagsRaised_refl _
  | succ n ih =>
    unfold generateLoop at h
    split at h
    · cases h
      exact flagsRaised_refl _
    · split at h
      · cases h
      · rename_i line _ st1 h1
        exact flagsRaised_trans (generateLine_raised _ _ _ _ h1) (ih _ _ h)

theorem generateOutput_raised (lines : List LineInfo) (st : GenState)
    (h : generateOutput lines = some st) : FlagsRaised lines st.lines :=
  generateLoop_raised _ _ _ _ h

theorem isFlag_eq_true_iff (ls : List LineInfo) :
    isFlag ls = true ↔ ∃ l ∈ ls, l.flag = true := by
  induction ls with
  | nil => simp [isFlag]
  | cons l ls ih =>
    unfold isFlag
    by_cases hl : l.flag = true
    · simp [hl]
    · simp [hl, ih]

theorem isFlag_eq_false_iff (ls : List LineInfo) :
    isFlag ls = false ↔ ∀ l ∈ ls, l.flag = false := by
  rw [← Bool.not_eq_true, isFlag_eq_true_iff]
  simp

/-! ## The legality table (C11) -/

theorem getOpcodeValue_cases (name : CString) :
    (name = ['m', 'o', 'v'] ∧ getOpcodeValue name = 0) ∨
    (name = ['c', 'm', 'p'] ∧ getOpcodeValue name = 1) ∨
    (name = ['a', 'd', 'd'] ∧ getOpcodeValue name = 2) ∨
    (name = ['s', 'u', 'b'] ∧ getOpcodeValue name = 3) ∨
    (name = ['l', 'e', 'a'] ∧ getOpcodeValue name = 4) ∨
    (name = ['c', 'l', 'r'] ∧ getOpcodeValue name = 5) ∨
    (name = ['n', 'o', 't'] ∧ getOpcodeValue name = 6) ∨
    (name = ['i', 'n', 'c'] ∧ getOpcodeValue name = 7) ∨
    (name = ['d', 'e', 'c'] ∧ getOpcodeValue name = 8) ∨
    (name = ['j', 'm', 'p'] ∧ getOpcodeValue name = 9) ∨
    (name = ['b', 'n', 'e'] ∧ getOpcodeValue name = 10) ∨
    (name = ['r', 'e', 'd'] ∧ getOpcodeValue name = 11) ∨
    (name = ['p', 'r', 'n'] ∧ getOpcodeValue name = 12) ∨
    (name = ['j', 's', 'r'] ∧ getOpcodeValue name = 13) ∨
    (name = ['r', 't', 's'] ∧ getOpcodeValue name = 14) ∨
    (name = ['s', 't', 'o', 'p'] ∧ getOpcodeValue name = 15) ∨
    getOpcodeValue name = -1 := by
  by_cases h0 : name = ['m', 'o', 'v']
  · exact Or.inl ⟨h0, by rw [h0]; rfl⟩
  by_cases h1 : name = ['c', 'm', 'p']
  · exact Or.inr (Or.inl ⟨h1, by rw [h1]; rfl⟩)
  by_cases h2 : name = ['a', 'd', 'd']
  · exact Or.inr (Or.inr (Or.inl ⟨h2, by rw [h2]; rfl⟩))
  by_cases h3 : name = ['s', 'u', 'b']
  · exact Or.inr (Or.inr (Or.inr (Or.inl ⟨h3, by rw [h3]; rfl⟩)))
  by_cases h4 : name = ['l', 'e', 'a']
  · exact Or.inr (Or.inr (Or.inr (Or.inr (Or.inl ⟨h4, by rw [h4]; rfl⟩))))
  by_cases h5 : name = ['c', 'l', 'r']
  · exact Or.inr (Or.inr (Or.inr (Or.inr (Or.inr (Or.inl ⟨h5, by rw [h5]; rfl⟩)))))
  by_cases h6 : name = ['n', 'o', 't']
  · exact Or.inr (Or.inr (Or.inr (Or.inr (Or.inr (Or.inr (Or.inl ⟨h6, by rw [h6]; rfl⟩))))))
  by_cases h7 : name = ['i', 'n', 'c']
  · exact Or.inr (Or.inr (Or.inr (Or.inr (Or.inr (Or.inr (Or.inr
      (Or.inl ⟨h7, by rw [h7]; rfl⟩)))))))
  by_cases h8 : name = ['d', 'e', 'c']
  · exact Or.inr (Or.inr (Or.inr (Or.inr (Or.inr (Or.inr (Or.inr (Or.inr
      (Or.inl ⟨h8, by rw [h8]; rfl⟩))))))))
  by_cases h9 : name = ['j', 'm', 'p']
  · exact Or.inr (Or.inr (Or.inr (Or.inr (Or.inr (Or.inr (Or.inr (Or.inr (Or.inr
      (Or.inl ⟨h9, by rw [h9]; rfl⟩)))))))))
  by_cases h10 : name = ['b', 'n', 'e']
  · exact Or.inr (Or.inr (Or.inr (Or.inr (Or.inr (Or.inr (Or.inr (Or.inr (Or.inr (Or.inr
      (Or.inl ⟨h10, by rw [h10]; rfl⟩))))))))))
  by_cases h11 : name = ['r', 'e', 'd']
  · exact Or.inr (Or.inr (Or.inr (Or.inr (Or.inr (Or.inr (Or.inr (Or.inr (Or.inr (Or.inr
      (Or.inr (Or.inl ⟨h11, by rw [h11]; rfl⟩)))))))))))
  by_cases h12 : name = ['p', 'r', 'n']
  · exact Or.inr (Or.inr (Or.inr (Or.inr (Or.inr (Or.inr (Or.inr (Or.inr (Or.inr (Or.inr
      (Or.inr (Or.inr (Or.inl ⟨h12, by rw [h12]; rfl⟩))))))))))))
  by_cases h13 : name = ['j', 's', 'r']
  · exact Or.inr (Or.inr (Or.inr (Or.inr (Or.inr (Or.inr (Or.inr (Or.inr (Or.inr (Or.inr
      (Or.inr (Or.inr (Or.inr (Or.inl ⟨h13, by rw [h13]; rfl⟩)))))))))))))
  by_cases h14 : name = ['r', 't', 's']
  · exact Or.inr (Or.inr (Or.inr (Or.inr (Or.inr (Or.inr (Or.inr (Or.inr (Or.inr (Or.inr
      (Or.inr (Or.inr (Or.inr (Or.inr (Or.inl ⟨h14, by rw [h14]; rfl⟩))))))))))))))
  by_cases h15 : name = ['s', 't', 'o', 'p']
  · exact Or.inr (Or.inr (Or.inr (Or.inr (Or.inr (Or.inr (Or.inr (Or.inr (Or.inr (Or.inr
      (Or.inr (Or.inr (Or.inr (Or.inr (Or.inr (Or.inl ⟨h15, by rw [h15]; rfl⟩)))))))))))))))
  · refine Or.inr (Or.inr (Or.inr (Or.inr (Or.inr (Or.inr (Or.inr (Or.inr (Or.inr (Or.inr
      (Or.inr (Or.inr (Or.inr (Or.inr (Or.inr (Or.inr ?_)))))))))))))))
    unfold getOpcodeValue
    simp only [h0, h1, h2, h3, h4, h5, h6, h7, h8, h9, h10, h11, h12, h13, h14, h15, if_false]

theorem isGoodLine_iff (line : LineInfo) (name : CString)
    (hn : getOpcodeValue name = line.opcode_value) (ho : line.opcode_value ≠ -1) :
    isGoodLine line = true ↔
      ViolatesLegality name line.source_method line.destination_method := by
  unfold isGoodLine ViolatesLegality IMMEDIATE DIRECT DIRECT_REGISTER
  rcases getOpcodeValue_cases name with
    ⟨rfl, h⟩ | ⟨rfl, h⟩ | ⟨rfl, h⟩ | ⟨rfl, h⟩ | ⟨rfl, h⟩ | ⟨rfl, h⟩ | ⟨rfl, h⟩ | ⟨rfl, h⟩ |
    ⟨rfl, h⟩ | ⟨rfl, h⟩ | ⟨rfl, h⟩ | ⟨rfl, h⟩ | ⟨rfl, h⟩ | ⟨rfl, h⟩ | ⟨rfl, h⟩ | ⟨rfl, h⟩ | h
  all_goals first
    | exact absurd (hn.symm.trans h) ho
    | (rw [h] at hn; simp [← hn])

theorem isGoodLine_flag_set (st : GenState) (i : Nat) (line l : LineInfo)
    (hg : isGoodLine line = true) (hl : st.lines.get? i = some l) :
    ∃ l', (generateInstruction st i line).lines.get? i = some l' ∧ l'.flag = true := by
  have h1 : (setFlag st i).lines.get? i = some { l with flag := true } :=
    raiseFlag_get i st.lines l hl
  have h2 : FlagsRaised (setFlag st i).lines (generateInstruction st i line).lines := by
    unfold generateInstruction
    simp only [hg, if_true]
    exact flagsRaised_trans (flagsRaised_trans (flagsRaised_trans (emitCode_raised _ _)
      (emitSource_raised _ _ _)) (emitDestRegister_raised _ _)) (emitDestination_raised _ _ _)
  obtain ⟨l', h3, h4⟩ := flagsRaised_get h2 i _ h1
  exact ⟨l', h3, sameButFlag_flag h4 rfl⟩

/-- C11: for an instruction record whose opcode is that of the mnemonic `name`,
`isGoodLine` returns true exactly when the mnemonic and the two addressing modes violate
the legality table (`ViolatesLegality`, written from the table); the loop body then sets
the error flag of the record, which stays set to the end of the pass. In particular `rts`
and `stop` with an operand and `lea` with a source that is not Direct are reported. -/
theorem isGoodLine_legality_table :
    (∀ (line : LineInfo) (name : CString), IsInstruction line →
      getOpcodeValue name = line.opcode_value →
      (isGoodLine line = true ↔
        ViolatesLegality name line.source_method line.destination_method)) ∧
    (∀ (st : GenState) (i : Nat) (line l : LineInfo), IsInstruction line →
      isGoodLine line = true → st.lines.get? i = some l →
      ∃ st', generateLine st i line = some st' ∧
        (∃ l', st'.lines.get? i = some l' ∧ l'.flag = true) ∧
        ∀ n j fin, generateLoop n j st' = some fin →
          ∃ l', fin.lines.get? i = some l' ∧ l'.flag = true) ∧
    (∀ line : LineInfo, line.opcode_value = 14 ∨ line.opcode_value = 15 →
      line.source_method ≠ -1 ∨ line.destination_method ≠ -1 → isGoodLine line = true) ∧
    (∀ line : LineInfo, line.opcode_value = 4 → line.source_method ≠ DIRECT →
      isGoodLine line = true) := by
  refine ⟨fun line name hi hn => isGoodLine_iff line name hn hi.2.2, ?_, ?_, ?_⟩
  · intro st i line l hi hg hl
    refine ⟨_, generateLine_instruction st i line hi.1 hi.2.1 hi.2.2,
      isGoodLine_flag_set st i line l hg hl, ?_⟩
    intro n j fin hfin
    obtain ⟨l', h1, h2⟩ := isGoodLine_flag_set st i line l hg hl
    obtain ⟨l'', h3, h4⟩ := flagsRaised_get (generateLoop_raised n j _ fin hfin) i l' h1
    exact ⟨l'', h3, sameButFlag_flag h4 h2⟩
  · intro line ho hm
    unfold isGoodLine
    rcases ho with ho | ho <;> simp [ho, hm]
  · intro line ho hm
    unfold isGoodLine
    unfold DIRECT at hm
    simp [ho, hm]

/-! ## Operand counts (C12) -/

/-- C12: the programs `mov r1`, `cmp` and `clr` have one operand, none and none, where the
table of `getOperandCount` has 2, 2 and 1; the first pass leaves each record unflagged
(`count_op` is 1, and -1 where no operand was read), the second pass sets no flag either,
stores the words of the instruction and makes the object file. -/
theorem wrong_operand_count_not_flagged :
    (getOperandCount 0 = some 2 ∧ getOperandCount 1 = some 2 ∧ getOperandCount 5 = some 1) ∧
    ((processInputFile movOneOperandProgram).map
        (fun l => (l.opcode_value, l.count_op, l.flag)) = [(0, 1, false)] ∧
      (assemble movOneOperandProgram).map
        (fun st => (st.lines.map (fun l => l.flag), (writeOutputs st).map (fun f => f.ob))) =
        some ([false], some ((2, 0), [(100, 68), (101, 12)]))) ∧
    ((processInputFile cmpNoOperandProgram).map
        (fun l => (l.opcode_value, l.count_op, l.flag)) = [(1, -1, false)] ∧
      (assemble cmpNoOperandProgram).map
        (fun st => (st.lines.map (fun l => l.flag), (writeOutputs st).map (fun f => f.ob))) =
        some ([false], some ((1, 0), [(100, 2052)]))) ∧
    ((processInputFile clrNoOperandProgram).map
        (fun l => (l.opcode_value, l.count_op, l.flag)) = [(5, -1, false)] ∧
      (assemble clrNoOperandProgram).map
        (fun st => (st.lines.map (fun l => l.flag), (writeOutputs st).map (fun f => f.ob))) =
        some ([false], some ((1, 0), [(100, 10244)]))) := by
  refine ⟨by decide, ⟨by decide!, by decide!⟩, ⟨by decide!, by decide!⟩, ⟨by decide!, by decide!⟩⟩

/-! ## The files are made when no record is flagged (C13) -/

theorem anyExtern_eq_true_iff (ls : List LineInfo) :
    anyExtern ls = true ↔ ∃ l ∈ ls, l.is_extern = true := by
  induction ls with
  | nil => simp [anyExtern]
  | cons l ls ih =>
    unfold anyExtern
    by_cases hl : l.is_extern = true
    · simp [hl]
    · simp [hl, ih]

theorem anyEntry_eq_true_iff (ls : List LineInfo) :
    anyEntry ls = true ↔ ∃ l ∈ ls, l.is_entry = true := by
  induction ls with
  | nil => simp [anyEntry]
  | cons l ls ih =>
    unfold anyEntry
    by_cases hl : l.is_entry = true
    · simp [hl]
    · simp [hl, ih]

theorem flag_kept (lines : List LineInfo) (st : GenState)
    (h : generateOutput lines = some st) (hf : ∃ l ∈ lines, l.flag = true) :
    isFlag st.lines = true := by
  obtain ⟨l, hl, hflag⟩ := hf
  obtain ⟨i, hi⟩ := List.get?_of_mem hl
  obtain ⟨l', h1, h2⟩ := flagsRaised_get (generateOutput_raised lines st h) i l hi
  exact (isFlag_eq_true_iff _).mpr ⟨l', List.get?_mem h1, sameButFlag_flag h2 hflag⟩

/-- C13: once the encoding loop of `generateOutput` has finished in state `st`, the
function goes on to make the object, extern and entry outputs (`makeOb`, `makeExt`,
`makeEnt`) exactly when `isFlag` returns false, that is when no record of the table has
its error flag set; when a record is flagged, by the first pass (the flag is then still
set) or by the second, none of the three is made. -/
theorem files_made_iff_no_flag (lines : List LineInfo) (st : GenState)
    (h : generateOutput lines = some st) :
    (isFlag st.lines = false ↔ ∀ l ∈ st.lines, l.flag = false) ∧
    ((writeOutputs st).isSome = true ↔ isFlag st.lines = false) ∧
    (isFlag st.lines = false →
      writeOutputs st =
        some { ob := makeOb st.output st.dc st.ic, ext := makeExt st.lines,
               ent := makeEnt st.lines }) ∧
    ((∃ l ∈ lines, l.flag = true) → writeOutputs st = none) ∧
    ((∃ l ∈ st.lines, l.flag = true) → writeOutputs st = none) := by
  refine ⟨isFlag_eq_false_iff _, ?_, ?_, ?_, ?_⟩
  · unfold writeOutputs
    split_ifs with hf <;> simp [hf]
  · intro hf
    unfold writeOutputs
    rw [if_pos hf]
  · intro hf
    have := flag_kept lines st h hf
    unfold writeOutputs
    simp [this]
  · intro hf
    have := (isFlag_eq_true_iff _).mpr hf
    unfold writeOutputs
    simp [this]

/-- C13 at the program `stop`, which leaves no record flagged: the outputs are made. -/
theorem files_made_iff_no_flag_witness :
    generateOutput [stopRecord] = some stopFinal ∧ isFlag stopFinal.lines = false ∧
      ((writeOutputs stopFinal).isSome = true ↔ isFlag stopFinal.lines = false) ∧
      (writeOutputs stopFinal).isSome = true :=
  ⟨by rfl, by decide!, (files_made_iff_no_flag [stopRecord] stopFinal (by rfl)).2.1,
    (files_made_iff_no_flag [stopRecord] stopFinal (by rfl)).2.1.mpr (by decide!)⟩

/-! ## A label named by `.entry` and by `.extern` (C14) -/

/-- C14: in the program `.extern X` / `.entry X` / `X: stop` the record labelled `X` ends
the first pass with `is_entry` and `is_extern` both set and its flag unset; the second pass
sets no flag and makes the three files, the entry file listing `X 100`. With the two
directives in the other order the record is flagged and no file is made. -/
theorem entry_after_extern_not_flagged :
    (processInputFile externThenEntryProgram).map
        (fun l => (l.label_name, l.is_entry, l.is_extern, l.flag)) =
      [([], false, true, false), ([], true, false, false), (['X'], true, true, false)] ∧
    (assemble externThenEntryProgram).map
        (fun st => (st.lines.map (fun l => l.flag), writeOutputs st)) =
      some ([false, false, false],
        some { ob := ((1, 0), [(100, 30724)]), ext := some [], ent := some [(['X'], 100)] }) ∧
    (processInputFile entryThenExternProgram).map
        (fun l => (l.label_name, l.is_entry, l.is_extern, l.flag)) =
      [([], true, false, false), ([], false, true, false), (['X'], true, false, true)] ∧
    (assemble entryThenExternProgram).map
        (fun st => writeOutputs st) = some none := by
  refine ⟨by decide!, by decide!, by decide!, by decide!⟩

/-! ## Labels (C15, C16) -/

theorem processLine_label_token (line label rest : CString)
    (h : strtok line [' ', '\r', '\t', '\n'] = (some (label ++ [':']), rest)) :
    processLine line =
      if badLabel label then { initializeLineInfo with flag := true }
      else processStatement { initializeLineInfo with label_name := label }
        (strtok rest [' ', '\t']).1 (strtok rest [' ', '\t']).2 := by
  unfold processLine
  simp only [h, charAt_concat_last, if_true, List.dropLast_concat]

theorem processOperands_label_name (lineInfo : LineInfo) (operands : Option CString) :
    (processOperands lineInfo operands).label_name = lineInfo.label_name := by
  unfold processOperands
  cases operands with
  | none => rfl
  | some operands =>
    simp only
    cases (strtok operands [' ', ',', ' ']).1 <;>
      cases (strtok (strtok operands [' ', ',', ' ']).2 [' ', ',', ' ']).1 <;>
      simp only <;> try rfl
    all_goals
      cases (strtok (strtok (strtok operands [' ', ',', ' ']).2 [' ', ',', ' ']).2
        [' ', ',', ' ']).1 <;> rfl

theorem setPayload_label_name (lineInfo : LineInfo) (payload : Option CString) :
    (setPayload lineInfo payload).label_name = lineInfo.label_name := by
  cases payload <;> rfl

theorem processStatement_label_name (lineInfo : LineInfo) (token : Option CString)
    (save : CString) : (processStatement lineInfo token save).label_name = lineInfo.label_name := by
  unfold processStatement
  cases token with
  | none => rfl
  | some token =>
    simp only
    split_ifs <;> simp only [setPayload_label_name, processOperands_label_name]

theorem strtok_label_line (label rest : CString) (h : badLabel label = false) :
    strtok (label ++ ':' :: ' ' :: rest) [' ', '\r', '\t', '\n'] = (some (label ++ [':']), rest) := by
  obtain ⟨hne, hal⟩ := label_chars label h
  have htok : ∀ x ∈ label ++ [':'], [' ', '\r', '\t', '\n'].contains x = false := by
    intro x hx
    rcases List.mem_append.mp hx with hx | hx
    · exact (alnum_not_blank x (hal x hx)).1
    · simp only [List.mem_singleton] at hx
      subst hx
      decide
  have h1 := strtok_token (label ++ [':']) rest ' ' [' ', '\r', '\t', '\n'] (by simp) htok
    (by decide)
  simpa using h1

theorem processLine_labelled_stop (label : CString) (h : badLabel label = false) :
    processLine (label ++ stopTail) = labelledStop label := by
  have h1 := strtok_label_line label ['s', 't', 'o', 'p', '\n'] h
  have h2 := processLine_label_token (label ++ stopTail) label ['s', 't', 'o', 'p', '\n'] h1
  rw [h2, h]
  rfl

/-- C15: `processLine` has no test of the length of a label. A label that `badLabel`
passes is stored, without the error flag, whatever its length: so is one of 30 characters,
and for the label of 31 letters too the only test, `badLabel`, passes and the record comes
back with its flag unset (the copy of the label is taken here to store the whole text,
where the C field holds 30 characters and the terminator). -/
theorem label_length_not_checked :
    (∀ label : CString, badLabel label = false →
      processLine (label ++ stopTail) = labelledStop label) ∧
    (∀ label : CString, (labelledStop label).label_name = label ∧
      (labelledStop label).flag = false) ∧
    (label31.length = 31 ∧ badLabel label31 = false ∧
      (processLine (label31 ++ stopTail)).flag = false) := by
  refine ⟨processLine_labelled_stop, fun label => ⟨rfl, rfl⟩, by decide, by decide, ?_⟩
  rw [processLine_labelled_stop label31 (by decide)]
  rfl

theorem registers_contains_iff (label : CString) :
    registers.contains label = true ↔ ∃ n : Nat, n ≤ 7 ∧ label = ['r', digitChar n] := by
  show List.elem label registers = true ↔ _
  rw [List.elem_iff]
  constructor
  · intro h
    simp only [registers, List.mem_cons, List.mem_singleton, List.not_mem_nil, or_false] at h
    rcases h with h | h | h | h | h | h | h | h
    · exact ⟨0, by decide, by rw [h]; rfl⟩
    · exact ⟨1, by decide, by rw [h]; rfl⟩
    · exact ⟨2, by decide, by rw [h]; rfl⟩
    · exact ⟨3, by decide, by rw [h]; rfl⟩
    · exact ⟨4, by decide, by rw [h]; rfl⟩
    · exact ⟨5, by decide, by rw [h]; rfl⟩
    · exact ⟨6, by decide, by rw [h]; rfl⟩
    · exact ⟨7, by decide, by rw [h]; rfl⟩
  · rintro ⟨n, hn, rfl⟩
    interval_cases n <;> decide

theorem badLabel_iff (label : CString) :
    badLabel label = true ↔
      ((¬ ∃ c rest, label = c :: rest ∧ isalpha c = true) ∨
        (∃ c ∈ label.drop 1, isalnum c = false) ∨
        (∃ n : Nat, n ≤ 7 ∧ label = ['r', digitChar n])) := by
  rw [← registers_contains_iff]
  cases label with
  | nil => exact iff_of_true (by decide) (Or.inl (by simp))
  | cons a t =>
    have ha : charAt (a :: t) 0 = a := rfl
    have hany : (t.any (fun c => !isalnum c)) = true ↔ ∃ c ∈ t, isalnum c = false := by
      simp [List.any_eq_true]
    unfold badLabel
    rw [ha]
    simp only [List.drop_succ_cons, List.drop_zero]
    split_ifs with c1 c2 c3
    · refine iff_of_true rfl (Or.inl ?_)
      rintro ⟨c, rest, hc, halpha⟩
      cases hc
      rw [halpha] at c1
      exact Bool.false_ne_true c1
    · exact iff_of_true rfl (Or.inr (Or.inl (hany.mp c2)))
    · exact iff_of_true rfl (Or.inr (Or.inr c3))
    · refine iff_of_false not_false ?_
      rintro (h | h | h)
      · exact h ⟨a, t, rfl, by simpa using c1⟩
      · exact c2 (hany.mpr h)
      · exact c3 h

/-- C16: for a label text of at most 30 characters, `badLabel` returns 1 exactly when the
text does not begin with a letter, or a character after the first is neither a letter nor
a digit, or the text is one of `r0` .. `r7`; and on every line whose first token is the
text followed by a colon, `processLine` returns a record with the error flag set and the
label empty exactly when `badLabel` returns 1; when `badLabel` returns 0 the record bears
the label. -/
theorem badLabel_characterised (label : CString) (_hlen : label.length ≤ 30) :
    (badLabel label = true ↔
      ((¬ ∃ c rest, label = c :: rest ∧ isalpha c = true) ∨
        (∃ c ∈ label.drop 1, isalnum c = false) ∨
        (∃ n : Nat, n ≤ 7 ∧ label = ['r', digitChar n]))) ∧
    (∀ line rest : CString,
      strtok line [' ', '\r', '\t', '\n'] = (some (label ++ [':']), rest) →
      (((processLine line).flag = true ∧ (processLine line).label_name = []) ↔
          badLabel label = true) ∧
        (badLabel label = false → (processLine line).label_name = label ∧ label ≠ [])) := by
  refine ⟨badLabel_iff label, ?_⟩
  intro line rest h
  rw [processLine_label_token line label rest h]
  by_cases hb : badLabel label = true
  · rw [if_pos hb]
    refine ⟨iff_of_true ⟨rfl, rfl⟩ hb, fun hf => ?_⟩
    rw [hb] at hf
    exact absurd hf (by decide)
  · rw [if_neg hb]
    have hb' : badLabel label = false := by simpa using hb
    have hname : (processStatement { initializeLineInfo with label_name := label }
        (strtok rest [' ', '\t']).1 (strtok rest [' ', '\t']).2).label_name = label :=
      processStatement_label_name _ _ _
    refine ⟨iff_of_false ?_ hb, fun _ => ⟨hname, (label_chars label hb').1⟩⟩
    rintro ⟨_, hempty⟩
    rw [hname] at hempty
    exact (label_chars label hb').1 hempty

theorem badLabel_characterised_witness :
    ['r', '3'].length ≤ 30 ∧
    (((processLine registerLabelLine).flag = true ∧
        (processLine registerLabelLine).label_name = []) ↔ badLabel ['r', '3'] = true) :=
  ⟨by decide, ((badLabel_characterised ['r', '3'] (by decide)).2 registerLabelLine
    ['s', 't', 'o', 'p', '\n'] (by decide)).1⟩

/-! ## A first token that is neither a mnemonic nor a directive (C17) -/

theorem cutAtLineEnd_token (tok : CString)
    (h : ∀ x ∈ tok, [' ', '\r', '\t', '\n'].contains x = false) : cutAtLineEnd tok = tok := by
  unfold cutAtLineEnd
  apply List.takeWhile_eq_self_iff.mpr
  intro c hc
  have := contains_false_mono [' ', '\r', '\t', '\n'] ['\r', '\t', '\n'] c (by decide) (h c hc)
  simp only [this, Bool.not_false]

theorem processLine_unknown (tok rest : CString) (c : Char) (hne : tok ≠ [])
    (hchars : ∀ x ∈ tok, [' ', '\r', '\t', '\n'].contains x = false)
    (hc : [' ', '\r', '\t', '\n'].contains c = true)
    (hlast : charAt tok (tok.length - 1) ≠ ':') (hop : getOpcodeValue tok = -1)
    (hdir : tok ∉ directives) :
    processLine (tok ++ c :: rest) = unknownRecord tok := by
  have h := strtok_token tok rest c [' ', '\r', '\t', '\n'] hne hchars hc
  simp only [directives, List.mem_cons, List.mem_singleton, List.not_mem_nil, or_false,
    not_or] at hdir
  obtain ⟨h1, h2, h3, h4⟩ := hdir
  unfold processLine
  simp only [h, if_neg hlast]
  unfold processStatement
  simp only [cutAtLineEnd_token tok hchars, hop, if_true, if_neg h1, if_neg h2, if_neg h3,
    if_neg h4]
  rfl

/-- C17: `processLine` sets no flag for a first token that is neither a mnemonic nor a
directive: the record it returns for such a line without a label is the fresh record with
the token as opcode name and a width of one cell. So it is for the line `foo`; the second
pass then stores no word for the record, sets no flag and makes the object file. -/
theorem unknown_instruction_not_flagged :
    (∀ (tok rest : CString) (c : Char), tok ≠ [] →
      (∀ x ∈ tok, [' ', '\r', '\t', '\n'].contains x = false) →
      [' ', '\r', '\t', '\n'].contains c = true →
      charAt tok (tok.length - 1) ≠ ':' → getOpcodeValue tok = -1 → tok ∉ directives →
      processLine (tok ++ c :: rest) = unknownRecord tok ∧ (unknownRecord tok).flag = false) ∧
    processLine ['f', 'o', 'o', '\n'] = unknownRecord ['f', 'o', 'o'] ∧
    (assemble unknownProgram).map (fun st => (st.lines.map (fun l => l.flag), writeOutputs st)) =
      some ([false], some { ob := ((0, 0), []), ext := none, ent := none }) := by
  refine ⟨?_, by decide!, by decide!⟩
  intro tok rest c hne hchars hc hlast hop hdir
  exact ⟨processLine_unknown tok rest c hne hchars hc hlast hop hdir, rfl⟩

/-! ## Register operands out of range (C18) -/

/-- C18: the programs `mov r8, r1`, `mov *r9, r1` and `mov result, r1` each give a record
with a register-class source that both passes leave unflagged; the number the encoder
shifts into the source register field is 8, 9 and 53 (the letter `e` less the digit `0`),
and the operand word stored at address 101 is 524, 588 and 3404, with bits set above the
three bits of the field: 524 is 8 * 64 + 1 * 8 + 4. -/
theorem register_number_not_checked :
    ((processInputFile registerEightProgram).map
        (fun l => (l.source_method, registerNumber l.source_method_value 1)) = [(3, 8)] ∧
      (assemble registerEightProgram).map
        (fun st => (st.lines.map (fun l => l.flag), st.output 101)) = some ([false], 524)) ∧
    ((processInputFile indirectNineProgram).map
        (fun l => (l.source_method, registerNumber l.source_method_value 2)) = [(2, 9)] ∧
      (assemble indirectNineProgram).map
        (fun st => (st.lines.map (fun l => l.flag), st.output 101)) = some ([false], 588)) ∧
    ((processInputFile symbolResultProgram).map
        (fun l => (l.source_method, registerNumber l.source_method_value 1)) = [(3, 53)] ∧
      (assemble symbolResultProgram).map
        (fun st => (st.lines.map (fun l => l.flag), st.output 101)) = some ([false], 3404)) ∧
    (∀ (value : CString) (k sh : Nat), regField value k sh = shl (registerNumber value k) sh) := by
  refine ⟨⟨by decide!, by decide!⟩, ⟨by decide!, by decide!⟩, ⟨by decide!, by decide!⟩,
    fun _ _ _ => rfl⟩

/-! ## Marks of `.entry` and `.extern` (C19) -/

/-- C19: in the program `.entry X` / `X: .string "Y"` / `Y: stop` the only `.entry` line
names `X`, yet the first pass leaves the record labelled `Y` with `is_entry` set: the
record `X`, once marked, passes the test of the marking loop for an `.entry` line and its
payload `Y` is marked in turn. No flag is set, and the entry file lists `X 100` and
`Y 102`. -/
theorem payload_of_marked_record_marked :
    (processInputFile entryShadowProgram).map
        (fun l => (l.label_name, l.data_string_value, l.is_entry, l.is_extern)) =
      [([], ['X'], true, false), (['X'], ['Y'], true, false), (['Y'], [], true, false)] ∧
    (assemble entryShadowProgram).map
        (fun st => (st.lines.map (fun l => l.flag), writeOutputs st)) =
      some ([false, false, false],
        some { ob := ((1, 2), [(100, 89), (101, 0), (102, 30724)]), ext := none,
               ent := some [(['X'], 100), (['Y'], 102)] }) := by
  refine ⟨by decide!, by decide!⟩

/-! ## The extern file (C20) -/

/-- C20: in the program `.extern result` / `mov result, r1` the first pass classes the
operand `result` as Direct-Register, and the second pass stores at address 101 the word the
two registers share, 3404 (second row of the object file), with no flag; `makeExt`, which
compares operand texts without looking at the addressing method, lists `result 101`. For
`.extern EXT` / `mov EXT, r1` the word at address 101 is 1 and the extern file is
`EXT 101`. -/
theorem extern_file_lists_register_operand :
    (processInputFile externResultProgram).map
        (fun l => (l.source_method, l.source_method_value, l.memory_value)) =
      [(-1, [], 100), (3, ['r', 'e', 's', 'u', 'l', 't'], 100)] ∧
    (assemble externResultProgram).map
        (fun st => (st.lines.map (fun l => l.flag), writeOutputs st)) =
      some ([false, false],
        some { ob := ((2, 0), [(100, 1092), (101, 3404)]),
               ext := some [(['r', 'e', 's', 'u', 'l', 't'], 101)], ent := none }) ∧
    (assemble externOperandProgram).map
        (fun st => (st.lines.map (fun l => l.flag), writeOutputs st)) =
      some ([false, false],
        some { ob := ((3, 0), [(100, 324), (101, 1), (102, 12)]),
               ext := some [(['E', 'X', 'T'], 101)], ent := none }) := by
  refine ⟨by decide!, by decide!, by decide!⟩

/-! ## The object file (C21) -/

theorem codeWords_refl (st : GenState) : CodeWords st st := ⟨rfl, rfl, Nat.le_refl _, id⟩

theorem codeWords_trans {a b c : GenState} (h1 : CodeWords a b) (h2 : CodeWords b c) :
    CodeWords a c := by
  obtain ⟨h11, h12, h13, h14⟩ := h1
  obtain ⟨h21, h22, h23, h24⟩ := h2
  exact ⟨by omega, by omega, by omega, fun h => h24 (h14 h)⟩

theorem dataWords_refl (st : GenState) : DataWords st st := ⟨rfl, rfl, Nat.le_refl _, id⟩

theorem dataWords_trans {a b c : GenState} (h1 : DataWords a b) (h2 : DataWords b c) :
    DataWords a c := by
  obtain ⟨h11, h12, h13, h14⟩ := h1
  obtain ⟨h21, h22, h23, h24⟩ := h2
  exact ⟨by omega, by omega, by omega, fun h => h24 (h14 h)⟩

theorem emitCode_codeWords (st : GenState) (w : Int) : CodeWords st (emitCode st w) := by
  unfold emitCode
  split_ifs with h
  · refine ⟨rfl, ?_, ?_, ?_⟩
    · show st.ic + 1 + st.outputIndex = st.ic + (st.outputIndex + 1)
      omega
    · show st.outputIndex ≤ st.outputIndex + 1
      omega
    · intro _
      show st.outputIndex + 1 ≤ MAX_LINES
      omega
  · exact codeWords_refl st

theorem emitData_dataWords (st : GenState) (w : Int) : DataWords st (emitData st w) := by
  unfold emitData
  split_ifs with h
  · refine ⟨rfl, ?_, ?_, ?_⟩
    · show st.dc + 1 + st.outputIndex = st.dc + (st.outputIndex + 1)
      omega
    · show st.outputIndex ≤ st.outputIndex + 1
      omega
    · intro _
      show st.outputIndex + 1 ≤ MAX_LINES
      omega
  · exact dataWords_refl st

theorem ite_setFlag_codeWords (st : GenState) (i : Nat) (c : Prop) [Decidable c] :
    CodeWords st (if c then setFlag st i else st) := by
  split_ifs
  · exact ⟨rfl, rfl, Nat.le_refl _, id⟩
  · exact codeWords_refl st

theorem emitDirect_codeWords (st : GenState) (i : Nat) (label : CString) :
    CodeWords st (emitDirect st i label) := by
  unfold emitDirect
  exact codeWords_trans (ite_setFlag_codeWords st i _) (emitCode_codeWords _ _)

theorem emitSource_codeWords (st : GenState) (i : Nat) (line : LineInfo) :
    CodeWords st (emitSource st i line) := by
  unfold emitSource
  split_ifs
  · exact emitCode_codeWords _ _
  · exact emitDirect_codeWords _ _ _
  · exact emitCode_codeWords _ _
  · exact emitCode_codeWords _ _
  · exact emitCode_codeWords _ _
  · exact codeWords_refl _

theorem emitDestRegister_codeWords (st : GenState) (line : LineInfo) :
    CodeWords st (emitDestRegister st line) := by
  unfold emitDestRegister
  split_ifs
  · exact emitCode_codeWords _ _
  · exact emitCode_codeWords _ _
  · exact codeWords_refl _

theorem emitDestination_codeWords (st : GenState) (i : Nat) (line : LineInfo) :
    CodeWords st (emitDestination st i line) := by
  unfold emitDestination
  split_ifs
  · exact emitCode_codeWords _ _
  · exact emitDirect_codeWords _ _ _
  · exact codeWords_refl _

theorem generateInstruction_codeWords (st : GenState) (i : Nat) (line : LineInfo) :
    CodeWords st (generateInstruction st i line) := by
  unfold generateInstruction
  exact codeWords_trans (codeWords_trans (codeWords_trans (codeWords_trans
    (ite_setFlag_codeWords st i _) (emitCode_codeWords _ _)) (emitSource_codeWords _ _ _))
    (emitDestRegister_codeWords _ _)) (emitDestination_codeWords _ _ _)

theorem dataLoop_dataWords (n : Nat) (st : GenState) (i : Nat) (token save : CString)
    (st' : GenState) (h : dataLoop n st i token save = some st') : DataWords st st' := by
  induction n generalizing st token save with
  | zero => simp [dataLoop] at h
  | succ n ih =>
    have h0 : DataWords st
        (emitData (if (skipSign token).all isdigit then st else setFlag st i)
          (band (atoi token) 0x7FFF)) := by
      refine dataWords_trans ?_ (emitData_dataWords _ _)
      split_ifs
      · exact dataWords_refl st
      · exact ⟨rfl, rfl, Nat.le_refl _, id⟩
    unfold dataLoop at h
    simp only at h
    split at h
    · cases h
      exact h0
    · exact dataWords_trans h0 (ih _ _ _ h)

theorem stringLoop_dataWords (st : GenState) (s : CString) : DataWords st (stringLoop st s) := by
  induction s generalizing st with
  | nil => exact dataWords_refl st
  | cons c cs ih =>
    rw [stringLoop]
    exact dataWords_trans (emitData_dataWords _ _) (ih _)

/-- The iteration for a record stores data words for a `.data` or `.string` record,
instruction words for an instruction record, and nothing for any other record. -/
theorem generateLine_words (st : GenState) (i : Nat) (line : LineInfo) (st' : GenState)
    (h : generateLine st i line = some st') :
    (line.is_data = true ∨ line.is_string = true → DataWords st st') ∧
    (¬ (line.is_data = true ∨ line.is_string = true) → line.opcode_value ≠ -1 →
      CodeWords st st') ∧
    (¬ (line.is_data = true ∨ line.is_string = true) → line.opcode_value = -1 → st' = st) := by
  unfold generateLine at h
  split_ifs at h with hd hs ho
  · split at h
    · cases h
    · refine ⟨fun _ => dataLoop_dataWords _ _ _ _ _ _ h, fun hn => ?_, fun hn => ?_⟩ <;>
        exact absurd (Or.inl hd) hn
  · cases h
    refine ⟨fun _ => dataWords_trans (stringLoop_dataWords _ _) (emitData_dataWords _ _),
      fun hn => ?_, fun hn => ?_⟩ <;> exact absurd (Or.inr hs) hn
  · cases h
    refine ⟨fun hds => ?_, fun _ _ => generateInstruction_codeWords _ _ _,
      fun _ h1 => absurd h1 ho⟩
    rcases hds with h1 | h1
    · exact absurd h1 hd
    · exact absurd h1 hs
  · cases h
    refine ⟨fun hds => ?_, fun _ h1 => ?_, fun _ _ => rfl⟩
    · rcases hds with h1 | h1
      · exact absurd h1 hd
      · exact absurd h1 hs
    · exact absurd h1 (by simpa using ho)

theorem generateLoop_counts (n i : Nat) (st fin : GenState)
    (h : generateLoop n i st = some fin) :
    emittedCounts n i st = some (fin.ic - st.ic, fin.dc - st.dc) ∧ st.ic ≤ fin.ic ∧
      st.dc ≤ fin.dc ∧ fin.ic + fin.dc + st.outputIndex = st.ic + st.dc + fin.outputIndex ∧
      (st.outputIndex ≤ MAX_LINES → fin.outputIndex ≤ MAX_LINES) := by
  induction n generalizing i st with
  | zero =>
    simp only [generateLoop, Option.some.injEq] at h
    subst h
    simp [emittedCounts]
  | succ n ih =>
    unfold generateLoop at h
    unfold emittedCounts
    split at h
    · rename_i hget
      cases h
      simp only [hget]
      simp
    · rename_i line hget
      split at h
      · cases h
      · rename_i st1 h1
        obtain ⟨hc, hic, hdc, hsum, hmax⟩ := ih _ _ h
        obtain ⟨hdata, hcode, hnone⟩ := generateLine_words st i line st1 h1
        simp only [hget, h1, hc, Option.map_some']
        by_cases hds : line.is_data = true ∨ line.is_string = true
        · obtain ⟨e1, e2, e3, e4⟩ := hdata hds
          rw [if_pos hds]
          refine ⟨?_, by omega, by omega, by omega, fun hm => hmax (e4 hm)⟩
          congr 1
          refine Prod.ext ?_ ?_
          · show fin.ic - st1.ic = fin.ic - st.ic
            omega
          · show fin.dc - st1.dc + (st1.outputIndex - st.outputIndex) = fin.dc - st.dc
            omega
        · rw [if_neg hds]
          by_cases ho : line.opcode_value = -1
          · have := hnone hds ho
            subst this
            rw [if_neg (by simpa using ho)]
            exact ⟨rfl, hic, hdc, hsum, hmax⟩
          · obtain ⟨e1, e2, e3, e4⟩ := hcode hds ho
            rw [if_pos ho]
            refine ⟨?_, by omega, by omega, by omega, fun hm => hmax (e4 hm)⟩
            congr 1
            refine Prod.ext ?_ ?_
            · show fin.ic - st1.ic + (st1.outputIndex - st.outputIndex) = fin.ic - st.ic
              omega
            · show fin.dc - st1.dc = fin.dc - st.dc
              omega

theorem makeOb_rows (machine : Nat → Int) (dc ic : Nat) :
    (makeOb machine dc ic).2.length = ic + dc ∧
    (∀ j, j < ic + dc →
      (makeOb machine dc ic).2.get? j = some (100 + j, band (machine (100 + j)) 0x7FFF)) ∧
    (∀ a w, (a, w) ∈ (makeOb machine dc ic).2 →
      100 ≤ a ∧ a < 100 + ic + dc ∧ w = band (machine a) 0x7FFF) := by
  unfold makeOb MIN_MEM_VAL
  refine ⟨by simp, ?_, ?_⟩
  · intro j hj
    rw [List.get?_eq_getElem?, List.getElem?_map, List.getElem?_range' _ _ hj]
    simp
  · intro a w hmem
    simp only [List.mem_map, List.mem_range', Prod.mk.injEq] at hmem
    obtain ⟨k, ⟨i, hi, hk⟩, hka, hkw⟩ := hmem
    subst hka
    refine ⟨by omega, by omega, hkw.symm⟩

/-- C21: when the encoding loop has finished in state `st` with no record flagged, the
object file is made; its header is `ic dc`, which are the numbers of words the loop stored
for instruction records and for `.data` and `.string` records; it has `ic + dc` rows, row
`j` pairing the address `100 + j` with the image word at that address masked to 15 bits;
every address listed is at least 100 and below 4096 (four decimal digits) and every word
listed is between 0 and `2 ^ 15 - 1` (five octal digits). -/
theorem object_file_listing (lines : List LineInfo) (st : GenState)
    (h : generateOutput lines = some st) (hf : isFlag st.lines = false) :
    ∃ f, writeOutputs st = some f ∧ f.ob.1 = (st.ic, st.dc) ∧
      emittedCounts lines.length 0 (initialState lines) = some (st.ic, st.dc) ∧
      f.ob.2.length = st.ic + st.dc ∧
      (∀ j, j < st.ic + st.dc →
        f.ob.2.get? j = some (100 + j, band (st.output (100 + j)) 0x7FFF)) ∧
      (∀ a w, (a, w) ∈ f.ob.2 →
        100 ≤ a ∧ a < 4096 ∧ a < 10 ^ 4 ∧ 0 ≤ w ∧ w < 2 ^ 15 ∧ w < 8 ^ 5) := by
  obtain ⟨hc, _, _, hsum, hmax⟩ := generateLoop_counts _ _ _ _ h
  have hsum' : st.ic + st.dc + 100 = st.outputIndex := by
    simpa [initialState, MIN_MEM_VAL] using hsum
  have hmax' : st.outputIndex ≤ 4096 := by
    have := hmax (by simp [initialState, MIN_MEM_VAL, MAX_LINES])
    simpa [MAX_LINES] using this
  obtain ⟨r1, r2, r3⟩ := makeOb_rows st.output st.dc st.ic
  refine ⟨{ ob := makeOb st.output st.dc st.ic, ext := makeExt st.lines,
            ent := makeEnt st.lines }, ?_, rfl, ?_, r1, r2, ?_⟩
  · unfold writeOutputs
    rw [if_pos hf]
  · simpa [initialState] using hc
  · intro a w hmem
    obtain ⟨h1, h2, h3⟩ := r3 a w hmem
    have hw : w = st.output a % 32768 := by rw [h3, band_mask15]
    refine ⟨h1, by omega, by omega, ?_, ?_, ?_⟩ <;> omega

theorem object_file_listing_witness :
    generateOutput [stopRecord] = some stopFinal ∧ isFlag stopFinal.lines = false ∧
      ∃ f, writeOutputs stopFinal = some f ∧ f.ob.1 = (stopFinal.ic, stopFinal.dc) ∧
        f.ob.2.length = stopFinal.ic + stopFinal.dc :=
  ⟨by rfl, by decide!,
    (object_file_listing [stopRecord] stopFinal (by rfl) (by decide!)).imp
      (fun _ hf => ⟨hf.1, hf.2.1, hf.2.2.2.1⟩)⟩

/-! ## A Direct operand that names no label (C23) -/

theorem flagsRaised_eraseFlags {ls ls' : List LineInfo} (h : FlagsRaised ls ls') :
    eraseFlags ls' = eraseFlags ls := by
  induction h with
  | nil => rfl
  | cons h _ ih =>
    simp only [eraseFlags, List.map_cons] at ih ⊢
    rw [ih]
    rcases h with rfl | rfl <;> rfl

theorem flagsRaised_findLabelAddress {ls ls' : List LineInfo} (h : FlagsRaised ls ls')
    (label : CString) : findLabelAddress ls' label = findLabelAddress ls label := by
  rw [← findLabelAddress_eraseFlags ls', ← findLabelAddress_eraseFlags ls,
    flagsRaised_eraseFlags h]

theorem emitDirect_flag_set (base : List LineInfo) (st : GenState) (i : Nat) (l : LineInfo)
    (sym : CString) (hb : FlagsRaised base st.lines) (hl : base.get? i = some l)
    (hnone : findLabelAddress base sym = -1) :
    ∃ l', (emitDirect st i sym).lines.get? i = some l' ∧ l'.flag = true := by
  obtain ⟨l1, h1, _⟩ := flagsRaised_get hb i l hl
  have h2 : findLabelAddress st.lines sym = -1 := by
    rw [flagsRaised_findLabelAddress hb, hnone]
  unfold emitDirect
  simp only [h2, if_true]
  rw [emitCode_lines]
  exact ⟨_, raiseFlag_get i st.lines l1 h1, rfl⟩

theorem unresolved_direct_flag_set (st : GenState) (i : Nat) (line l : LineInfo)
    (sym : CString) (hl : st.lines.get? i = some l)
    (hop : (line.source_method = DIRECT ∧ line.source_method_value = sym) ∨
      (line.destination_method = DIRECT ∧ line.destination_method_value = sym))
    (hnone : findLabelAddress st.lines sym = -1) :
    ∃ l', (generateInstruction st i line).lines.get? i = some l' ∧ l'.flag = true := by
  have r2 : FlagsRaised st.lines
      (emitCode (if isGoodLine line then setFlag st i else st) (opcodeWord line)).lines :=
    flagsRaised_trans (ite_setFlag_raised st i _) (emitCode_raised _ _)
  unfold generateInstruction
  simp only
  rcases hop with ⟨hm, hv⟩ | ⟨hm, hv⟩
  · have h3 : ∃ l', (emitSource (emitCode (if isGoodLine line then setFlag st i else st)
        (opcodeWord line)) i line).lines.get? i = some l' ∧ l'.flag = true := by
      unfold emitSource
      rw [if_neg (by rw [hm]; decide), if_pos hm, hv]
      exact emitDirect_flag_set st.lines _ i l sym r2 hl hnone
    obtain ⟨l3, h4, h5⟩ := h3
    obtain ⟨l5, h6, h7⟩ := flagsRaised_get (flagsRaised_trans (emitDestRegister_raised _ line)
      (emitDestination_raised _ i line)) i l3 h4
    exact ⟨l5, h6, sameButFlag_flag h7 h5⟩
  · have r4 : FlagsRaised st.lines (emitDestRegister (emitSource (emitCode
        (if isGoodLine line then setFlag st i else st) (opcodeWord line)) i line) line).lines :=
      flagsRaised_trans (flagsRaised_trans r2 (emitSource_raised _ _ _))
        (emitDestRegister_raised _ _)
    unfold emitDestination
    rw [if_neg (by rw [hm]; decide), if_pos hm, hv]
    exact emitDirect_flag_set st.lines _ i l sym r4 hl hnone

/-- C23: where `findLabelAddress` finds neither a record that passes the extern test for
the symbol of a Direct operand nor a record labelled with it, the iteration sets the flag
of the record, the flag is still set when the loop ends and no file is made. But the
extern test is also passed by a `.string` record marked through its label: in the program
`.extern X` / `X: .string "Y"` / `jmp Y` the symbol `Y` is the label of no record and the
payload of no `.extern` line, yet no flag is set and the three files are made. -/
theorem undefined_symbol_taken_as_external :
    (∀ (st : GenState) (i : Nat) (line l : LineInfo) (sym : CString), IsInstruction line →
      st.lines.get? i = some l →
      ((line.source_method = DIRECT ∧ line.source_method_value = sym) ∨
        (line.destination_method = DIRECT ∧ line.destination_method_value = sym)) →
      (∀ r ∈ st.lines, r.label_name ≠ sym) → (∀ r ∈ st.lines, ¬ PassesExternTest r sym) →
      ∃ st', generateLine st i line = some st' ∧
        ∀ n j fin, generateLoop n j st' = some fin →
          (∃ l', fin.lines.get? i = some l' ∧ l'.flag = true) ∧ writeOutputs fin = none) ∧
    (processInputFile undefinedShadowProgram).map
        (fun l => (l.label_name, l.opcode_value, l.is_data, l.is_string, l.is_extern)) =
      [([], -1, false, false, true), (['X'], -1, false, true, true),
        ([], 9, false, false, false)] ∧
    (processInputFile undefinedShadowProgram).map
        (fun l => (l.data_string_value, l.destination_method, l.destination_method_value)) =
      [(['X'], -1, []), (['Y'], -1, []), ([], 1, ['Y'])] ∧
    (assemble undefinedShadowProgram).map
        (fun st => (st.lines.map (fun l => l.flag), writeOutputs st)) =
      some ([false, false, false],
        some { ob := ((2, 2), [(100, 89), (101, 0), (102, 18452), (103, 1)]),
               ext := some [(['Y'], 103)], ent := none }) := by
  refine ⟨?_, by decide!, by decide!, by decide!⟩
  intro st i line l sym hi hl hop hlab hext
  have hnone := ( findLabelAddress_not_extern st.lines sym hext).2 hlab
  refine ⟨_, generateLine_instruction st i line hi.1 hi.2.1 hi.2.2, ?_⟩
  intro n j fin hfin
  obtain ⟨l1, h1, h2⟩ := unresolved_direct_flag_set st i line l sym hl hop hnone
  obtain ⟨l2, h3, h4⟩ := flagsRaised_get (generateLoop_raised n j _ fin hfin) i l1 h1
  have hflag : isFlag fin.lines = true :=
    (isFlag_eq_true_iff _).mpr ⟨l2, List.get?_mem h3, sameButFlag_flag h4 h2⟩
  refine ⟨⟨l2, h3, sameButFlag_flag h4 h2⟩, ?_⟩
  unfold writeOutputs
  simp [hflag]

/-! ## Literals of a `.data` record (C24) -/

/-- C24: the payload `7 , 3` has the literals 7 and 3, yet the second pass flags the
record (its first token, cut at the comma only, is `7` followed by a blank) and no file
is made; the payload `7, 3 4` has the literal `3 4`, with a blank inside, yet the second
pass sets no flag (after the first token it also cuts at blanks) and stores the three
words 7, 3, 4 for a record of width two. The payload `7, x` is flagged as claimed. -/
theorem data_flag_depends_on_blanks :
    ((processInputFile dataBlankProgram).map
        (fun l => (l.is_data, l.data_string_value, hasNonNumericLiteral l.data_string_value,
          l.flag)) = [(true, ['7', ' ', ',', ' ', '3'], false, false)] ∧
      (assemble dataBlankProgram).map
        (fun st => (st.lines.map (fun l => l.flag), st.output 100, st.output 101,
          writeOutputs st)) = some ([true], 7, 3, none)) ∧
    ((processInputFile dataSplitProgram).map
        (fun l => (l.is_data, l.data_string_value, hasNonNumericLiteral l.data_string_value,
          l.memory_cells)) = [(true, ['7', ',', ' ', '3', ' ', '4'], true, 2)] ∧
      (assemble dataSplitProgram).map
        (fun st => (st.lines.map (fun l => l.flag), writeOutputs st)) =
        some ([false],
          some { ob := ((0, 3), [(100, 7), (101, 3), (102, 4)]), ext := none, ent := none })) ∧
    ((processInputFile dataLetterProgram).map
        (fun l => (l.is_data, l.data_string_value, hasNonNumericLiteral l.data_string_value)) =
        [(true, ['7', ',', ' ', 'x'], true)] ∧
      (assemble dataLetterProgram).map (fun st => st.lines.map (fun l => l.flag)) =
        some [true]) := by
  refine ⟨⟨by decide!, by decide!⟩, ⟨by decide!, by decide!⟩, ⟨by decide!, by decide!⟩⟩

/-! ## A `.string` payload without its closing quote (C25) -/

theorem stripQuotes_open (content : CString) (c : Char) (hc : c ≠ '"') :
    stripQuotes ('"' :: (content ++ [c])) = '"' :: (content ++ [c]) := by
  unfold stripQuotes
  have h1 : charAt ('"' :: (content ++ [c])) (('"' :: (content ++ [c])).length - 1) = c := by
    have := charAt_concat_last ('"' :: content) c
    simpa using this
  rw [if_neg]
  rw [h1]
  exact fun h => hc h.2

theorem processLine_open_string (label : Option CString) (content : CString) (c : Char)
    (hl : ∀ l, label = some l → badLabel l = false) (hn : ∀ x ∈ content ++ [c], x ≠ '\n')
    (hc : c ≠ '"') :
    processLine (directiveLine label ['.', 's', 't', 'r', 'i', 'n', 'g']
        ('"' :: (content ++ [c]))) =
      { initializeLineInfo with
        label_name := label.getD [], is_string := true,
        data_string_value := '"' :: (content ++ [c]),
        memory_cells := content.length + 3 } := by
  rw [processLine_directiveLine label _ _ hl (by simp) (by decide) (by decide)]
  have hp : ∀ x ∈ '"' :: (content ++ [c]), ['\n'].contains x = false := by
    intro x hx
    apply contains_false_of_ne
    intro d hd hxd
    simp only [List.mem_singleton] at hd
    subst hd
    subst hxd
    rcases List.mem_cons.mp hx with h | h
    · exact absurd h (by decide)
    · exact hn _ h rfl
  have hs := strtok_token ('"' :: (content ++ [c])) [] '\n' ['\n'] (by simp) hp (by decide)
  unfold processStatement
  simp only [hs]
  have hcut : cutAtLineEnd ['.', 's', 't', 'r', 'i', 'n', 'g'] =
      ['.', 's', 't', 'r', 'i', 'n', 'g'] := by decide
  have hop : getOpcodeValue ['.', 's', 't', 'r', 'i', 'n', 'g'] = -1 := by decide
  simp only [hcut, hop, if_true, Option.map_some', stripQuotes_open content c hc, setPayload]
  simp [calculateMemoryCells, initializeLineInfo, calcString, calcStringLoop_eq]
  ring

/-- C25: `processLine` sets no flag for a `.string` payload that begins with a double
quote and does not end with one: the payload is stored as it stands, opening quote
included, in a record of one cell per character and one more. So it is for the line
`STR: .string "ab`; the second pass then stores the four words 34, 97, 98, 0, sets no
flag and makes the object file. -/
theorem missing_quote_not_flagged :
    (∀ (label : Option CString) (content : CString) (c : Char),
      (∀ l, label = some l → badLabel l = false) → (∀ x ∈ content ++ [c], x ≠ '\n') →
      c ≠ '"' →
      (processLine (directiveLine label ['.', 's', 't', 'r', 'i', 'n', 'g']
        ('"' :: (content ++ [c])))).data_string_value = '"' :: (content ++ [c]) ∧
      (processLine (directiveLine label ['.', 's', 't', 'r', 'i', 'n', 'g']
        ('"' :: (content ++ [c])))).flag = false) ∧
    (processInputFile openStringProgram).map
        (fun l => (l.label_name, l.is_string, l.data_string_value, l.memory_cells, l.flag)) =
      [(['S', 'T', 'R'], true, ['"', 'a', 'b'], 4, false)] ∧
    (assemble openStringProgram).map
        (fun st => (st.lines.map (fun l => l.flag), writeOutputs st)) =
      some ([false],
        some { ob := ((0, 4), [(100, 34), (101, 97), (102, 98), (103, 0)]), ext := none,
               ent := none }) := by
  refine ⟨?_, by decide!, by decide!⟩
  intro label content c hl hn hc
  rw [processLine_open_string label content c hl hn hc]
  exact ⟨rfl, rfl⟩

/-! ## The operands of an instruction line (C26, C27) -/

theorem strtok_skip (s0 s delim : CString) (h : ∀ x ∈ s0, delim.contains x = true) :
    strtok (s0 ++ s) delim = strtok s delim := by
  unfold strtok
  rw [List.dropWhile_append_of_pos]
  intro a ha
  exact h a ha

theorem strtok_none (s delim : CString) (h : ∀ x ∈ s, delim.contains x = true) :
    strtok s delim = (none, []) := by
  unfold strtok
  have : s.dropWhile (fun c => delim.contains c) = [] := by
    rw [List.dropWhile_eq_nil_iff]
    exact h
  rw [this]

theorem strtok_some (s0 rest delim : CString) (c : Char)
    (h : ∀ x ∈ s0, delim.contains x = true) (hc : delim.contains c = false) :
    ∃ t, (strtok (s0 ++ c :: rest) delim).1 = some t := by
  rw [strtok_skip s0 _ delim h]
  unfold strtok
  rw [List.dropWhile_cons_of_neg (by rw [hc]; exact Bool.false_ne_true)]
  exact ⟨_, rfl⟩

theorem separators_contains (s : CString) (h : IsSeparators s) :
    ∀ x ∈ s, [' ', ',', ' '].contains x = true := by
  intro x hx
  rcases h x hx with rfl | rfl <;> decide

theorem operand_contains (a : CString) (h : IsOperandText a) :
    ∀ x ∈ a, [' ', ',', ' '].contains x = false := by
  intro x hx
  obtain ⟨h1, h2, _⟩ := h.2 x hx
  apply contains_false_of_ne
  intro d hd
  simp only [List.mem_cons, List.mem_singleton, List.not_mem_nil, or_false] at hd
  rcases hd with rfl | rfl | rfl <;> assumption

/-- The first operand token of `s0 ++ a ++ s1`: the token is `a`, and what is left
yields a further token exactly when `s1` has a character that is not a separator. -/
theorem strtok_operand (s0 a s1 : CString) (h0 : IsSeparators s0) (ha : IsOperandText a)
    (h1 : s1 = [] ∨ ∃ d t, s1 = d :: t ∧ (d = ' ' ∨ d = ',')) :
    strtok (s0 ++ (a ++ s1)) [' ', ',', ' '] = (some a, s1.drop 1) := by
  rw [strtok_skip s0 _ _ (separators_contains s0 h0)]
  rcases h1 with rfl | ⟨d, t, rfl, hd⟩
  · rw [List.append_nil]
    exact strtok_last a _ ha.1 (operand_contains a ha)
  · exact strtok_token a t d _ ha.1 (operand_contains a ha)
      (by rcases hd with rfl | rfl <;> decide)

theorem mnemonic_chars (m : CString) (h : getOpcodeValue m ≠ -1) :
    m ≠ [] ∧ (∀ x ∈ m, [' ', '\r', '\t', '\n'].contains x = false) ∧
      charAt m (m.length - 1) ≠ ':' ∧ cutAtLineEnd m = m := by
  rcases getOpcodeValue_cases m with
    ⟨rfl, _⟩ | ⟨rfl, _⟩ | ⟨rfl, _⟩ | ⟨rfl, _⟩ | ⟨rfl, _⟩ | ⟨rfl, _⟩ | ⟨rfl, _⟩ | ⟨rfl, _⟩ |
    ⟨rfl, _⟩ | ⟨rfl, _⟩ | ⟨rfl, _⟩ | ⟨rfl, _⟩ | ⟨rfl, _⟩ | ⟨rfl, _⟩ | ⟨rfl, _⟩ | ⟨rfl, _⟩ | h1
  all_goals first
    | exact absurd h1 h
    | exact ⟨by decide, by decide, by decide, by decide⟩

/-- The record of an instruction line is the result of the operand part of `processLine`
on the text between the mnemonic and the line feed. -/
theorem processLine_instructionLine (label : Option CString) (m operands : CString)
    (hl : ∀ l, label = some l → badLabel l = false) (hm : getOpcodeValue m ≠ -1)
    (hne : operands ≠ []) (hn : ∀ x ∈ operands, x ≠ '\n') :
    processLine (instructionLine label m operands) =
      processOperands
        { initializeLineInfo with
          label_name := label.getD [], opcode_name := m, opcode_value := getOpcodeValue m }
        (some operands) := by
  obtain ⟨m1, m2, m3, m4⟩ := mnemonic_chars m hm
  unfold instructionLine
  rw [processLine_directiveLine label m operands hl m1 m2 m3]
  have hp : ∀ x ∈ operands, ['\n'].contains x = false := by
    intro x hx
    apply contains_false_of_ne
    intro d hd hxd
    simp only [List.mem_singleton] at hd
    subst hd
    exact hn x hx hxd
  have hs := strtok_token operands [] '\n' ['\n'] hne hp (by decide)
  unfold processStatement
  simp only [m4, hs, if_neg hm]

theorem parseMethod_eq (a : CString) : parseMethod a = (modeOfOperand a, a) := by
  unfold parseMethod
  cases a with
  | nil => rfl
  | cons c t =>
    have hc : charAt (c :: t) 0 = c := rfl
    rw [hc]
    by_cases h1 : c = '#'
    · subst h1; rfl
    by_cases h2 : c = 'r'
    · subst h2; rfl
    by_cases h3 : c = '*'
    · subst h3; rfl
    rw [if_neg h1, if_neg h2, if_neg h3]
    unfold modeOfOperand
    split
    · rename_i heq; cases heq; exact absurd rfl h1
    · rename_i heq; cases heq; exact absurd rfl h2
    · rename_i heq; cases heq; exact absurd rfl h3
    · rfl

theorem modeOfOperand_ne (a : CString) : modeOfOperand a ≠ -1 := by
  unfold modeOfOperand
  split <;> decide

theorem separators_tail (s : CString) (h : IsSeparators s) : IsSeparators (s.drop 1) :=
  fun x hx => h x (List.mem_of_mem_drop hx)

theorem processOperands_one (lineInfo : LineInfo) (s0 a s1 : CString)
    (h0 : IsSeparators s0) (ha : IsOperandText a) (h1 : IsSeparators s1) :
    processOperands lineInfo (some (s0 ++ (a ++ s1))) =
      { lineInfo with
        destination_method := modeOfOperand a, destination_method_value := a,
        source_method := -1, source_method_value := [], count_op := 1,
        memory_cells := calculateMemoryCells
          { lineInfo with
            destination_method := modeOfOperand a, destination_method_value := a,
            source_method := -1, source_method_value := [], count_op := 1 } } := by
  have hs1 : s1 = [] ∨ ∃ d t, s1 = d :: t ∧ (d = ' ' ∨ d = ',') := by
    cases s1 with
    | nil => exact Or.inl rfl
    | cons d t => exact Or.inr ⟨d, t, rfl, h1 d (List.mem_cons_self _ _)⟩
  have e1 := strtok_operand s0 a s1 h0 ha hs1
  have e2 : strtok (s1.drop 1) [' ', ',', ' '] = (none, []) :=
    strtok_none _ _ (separators_contains _ (separators_tail s1 h1))
  unfold processOperands
  simp only [e1, e2, parseMethod_eq]

theorem processOperands_three (lineInfo : LineInfo) (s0 a s1 b s2 rest : CString) (c : Char)
    (h0 : IsSeparators s0) (ha : IsOperandText a) (h1 : IsSeparators s1) (h1ne : s1 ≠ [])
    (hb : IsOperandText b) (h2 : IsSeparators s2) (h2ne : s2 ≠ [])
    (hc : c ≠ ' ' ∧ c ≠ ',') :
    (processOperands lineInfo
      (some (s0 ++ (a ++ (s1 ++ (b ++ (s2 ++ c :: rest))))))).flag = true := by
  obtain ⟨d1, t1, rfl⟩ := List.exists_cons_of_ne_nil h1ne
  obtain ⟨d2, t2, rfl⟩ := List.exists_cons_of_ne_nil h2ne
  have e1 := strtok_operand s0 a ((d1 :: t1) ++ (b ++ ((d2 :: t2) ++ c :: rest))) h0 ha
    (Or.inr ⟨d1, _, rfl, h1 d1 (List.mem_cons_self _ _)⟩)
  have ht1 : IsSeparators t1 := fun x hx => h1 x (List.mem_cons_of_mem _ hx)
  have ht2 : IsSeparators t2 := fun x hx => h2 x (List.mem_cons_of_mem _ hx)
  have e2 := strtok_operand t1 b ((d2 :: t2) ++ c :: rest) ht1 hb
    (Or.inr ⟨d2, _, rfl, h2 d2 (List.mem_cons_self _ _)⟩)
  have hcc : [' ', ',', ' '].contains c = false := by
    apply contains_false_of_ne
    intro d hd
    simp only [List.mem_cons, List.mem_singleton, List.not_mem_nil, or_false] at hd
    rcases hd with rfl | rfl | rfl
    · exact hc.1
    · exact hc.2
    · exact hc.1
  obtain ⟨t, e3⟩ := strtok_some t2 rest [' ', ',', ' '] c (separators_contains t2 ht2) hcc
  simp only [List.cons_append, List.drop_succ_cons, List.drop_zero] at e1 e2
  unfold processOperands
  simp only [List.cons_append, e1, e2, e3]

/-- C26: on an instruction line whose operand text holds three operands or more, that is
two operands, each followed by blanks or commas, and then a further character that is
neither, `processLine` returns the record with its error flag set. -/
theorem three_operands_flagged (label : Option CString) (m s0 a s1 b s2 rest : CString)
    (c : Char) (hl : ∀ l, label = some l → badLabel l = false)
    (hm : getOpcodeValue m ≠ -1) (h0 : IsSeparators s0) (ha : IsOperandText a)
    (h1 : IsSeparators s1) (h1ne : s1 ≠ []) (hb : IsOperandText b) (h2 : IsSeparators s2)
    (h2ne : s2 ≠ []) (hc : c ≠ ' ' ∧ c ≠ ',' ∧ c ≠ '\n') (hrest : ∀ x ∈ rest, x ≠ '\n') :
    (processLine (instructionLine label m
      (s0 ++ (a ++ (s1 ++ (b ++ (s2 ++ c :: rest))))))).flag = true := by
  have hsep : ∀ s : CString, IsSeparators s → ∀ x ∈ s, x ≠ '\n' := by
    intro s hs x hx
    rcases hs x hx with rfl | rfl <;> decide
  rw [processLine_instructionLine label m _ hl hm]
  · exact processOperands_three _ s0 a s1 b s2 rest c h0 ha h1 h1ne hb h2 h2ne ⟨hc.1, hc.2.1⟩
  · obtain ⟨x, t, hx⟩ := List.exists_cons_of_ne_nil ha.1
    simp [hx]
  · intro x hx
    simp only [List.mem_append, List.mem_cons] at hx
    rcases hx with hx | hx | hx | hx | hx | hx | hx
    · exact hsep s0 h0 x hx
    · exact (ha.2 x hx).2.2
    · exact hsep s1 h1 x hx
    · exact (hb.2 x hx).2.2
    · exact hsep s2 h2 x hx
    · rw [hx]; exact hc.2.2
    · exact hrest x hx

theorem three_operands_flagged_witness :
    (processLine threeOperandLine).flag = true :=
  three_operands_flagged none ['m', 'o', 'v'] [] ['r', '1'] [',', ' '] ['r', '2'] [',', ' ']
    ['3'] 'r' (by simp) (by decide) (by intro x hx; simp at hx)
    ⟨by decide, by decide⟩ (by intro x hx; simp at hx; rcases hx with rfl | rfl <;> simp)
    (by decide) ⟨by decide, by decide⟩
    (by intro x hx; simp at hx; rcases hx with rfl | rfl <;> simp)
    (by decide) (by decide) (by decide)

/-- The record of an instruction line with exactly one operand `a`, in the embedding. -/
theorem processLine_one_operand (label : Option CString) (m s0 a s1 : CString)
    (hl : ∀ l, label = some l → badLabel l = false) (hm : getOpcodeValue m ≠ -1)
    (h0 : IsSeparators s0) (ha : IsOperandText a) (h1 : IsSeparators s1) :
    processLine (instructionLine label m (s0 ++ (a ++ s1))) =
      { initializeLineInfo with
        label_name := label.getD [], opcode_name := m, opcode_value := getOpcodeValue m,
        destination_method := modeOfOperand a, destination_method_value := a,
        source_method := -1, source_method_value := [], count_op := 1,
        memory_cells := 2 } := by
  have hsep : ∀ s : CString, IsSeparators s → ∀ x ∈ s, x ≠ '\n' := by
    intro s hs x hx
    rcases hs x hx with rfl | rfl <;> decide
  rw [processLine_instructionLine label m _ hl hm, processOperands_one _ s0 a s1 h0 ha h1]
  · have hcells : calculateMemoryCells
        { initializeLineInfo with
          label_name := label.getD [], opcode_name := m, opcode_value := getOpcodeValue m,
          destination_method := modeOfOperand a, destination_method_value := a,
          source_method := -1, source_method_value := [], count_op := 1 } = 2 := by
      simp [calculateMemoryCells, initializeLineInfo, modeOfOperand_ne]
    rw [hcells]
  · obtain ⟨x, t, hx⟩ := List.exists_cons_of_ne_nil ha.1
    simp [hx]
  · intro x hx
    simp only [List.mem_append] at hx
    rcases hx with hx | hx | hx
    · exact hsep s0 h0 x hx
    · exact (ha.2 x hx).2.2
    · exact hsep s1 h1 x hx

theorem mnemonic_length (m : CString) (h : getOpcodeValue m ≠ -1) :
    m.length < MAX_OPCODE_LENGTH := by
  rcases getOpcodeValue_cases m with
    ⟨rfl, _⟩ | ⟨rfl, _⟩ | ⟨rfl, _⟩ | ⟨rfl, _⟩ | ⟨rfl, _⟩ | ⟨rfl, _⟩ | ⟨rfl, _⟩ | ⟨rfl, _⟩ |
    ⟨rfl, _⟩ | ⟨rfl, _⟩ | ⟨rfl, _⟩ | ⟨rfl, _⟩ | ⟨rfl, _⟩ | ⟨rfl, _⟩ | ⟨rfl, _⟩ | ⟨rfl, _⟩ | h1
  all_goals first
    | decide
    | exact absurd h1 h

/-- C27: on an instruction line with exactly one operand `a` of at most nine characters,
blanks or commas before and after it or not, the label if any of at most thirty,
`processLine` stores `a` as the destination, with the addressing mode of its leading
character, leaves the source absent (mode -1, empty text) and sets the operand count to 1;
the record has no flag and a width of two cells, and its texts fit their arrays. So it is
for `LOOP: jmp END`. But `parseMethod` copies the operand with `strcpy` into an array of
`MAX_METHOD_LENGTH` characters and tests no length: on the line `jmp LABEL67890` the
operand, a legal label, has ten characters and, with its terminating NUL, does not fit
`destination_method_value`. -/
theorem one_operand_is_destination :
    (∀ (label : Option CString) (m s0 a s1 : CString),
      (∀ l, label = some l → badLabel l = false ∧ l.length < MAX_LABEL_LENGTH) →
      getOpcodeValue m ≠ -1 → IsSeparators s0 → IsOperandText a →
      a.length < MAX_METHOD_LENGTH → IsSeparators s1 →
      processLine (instructionLine label m (s0 ++ (a ++ s1))) =
        { initializeLineInfo with
          label_name := label.getD [], opcode_name := m, opcode_value := getOpcodeValue m,
          destination_method := modeOfOperand a, destination_method_value := a,
          source_method := -1, source_method_value := [], count_op := 1,
          memory_cells := 2 } ∧
      withinCapacity (processLine (instructionLine label m (s0 ++ (a ++ s1)))) = true) ∧
    processLine oneOperandLine =
      { initializeLineInfo with
        label_name := ['L', 'O', 'O', 'P'], opcode_name := ['j', 'm', 'p'], opcode_value := 9,
        destination_method := 1, destination_method_value := ['E', 'N', 'D'],
        source_method := -1, source_method_value := [], count_op := 1,
        memory_cells := 2 } ∧
    (badLabel ['L', 'A', 'B', 'E', 'L', '6', '7', '8', '9', '0'] = false ∧
      ['L', 'A', 'B', 'E', 'L', '6', '7', '8', '9', '0'].length = MAX_METHOD_LENGTH ∧
      withinCapacity (processLine longOperandLine) = false) := by
  refine ⟨?_, by decide!, by decide!, by decide!, by decide!⟩
  intro label m s0 a s1 hl hm h0 ha hlen h1
  have hrec := processLine_one_operand label m s0 a s1 (fun l e => (hl l e).1) hm h0 ha h1
  refine ⟨hrec, ?_⟩
  rw [hrec]
  have hlab : (label.getD []).length < MAX_LABEL_LENGTH := by
    cases label with
    | none => decide
    | some l => exact (hl l rfl).2
  have hmn := mnemonic_length m hm
  simp only [withinCapacity, initializeLineInfo, hlab, hmn, hlen, decide_True, Bool.and_self,
    Bool.and_true]
  simp [MAX_METHOD_LENGTH, MAX_LINE_LENGTH]

/-! ## Whitespace normalization by the macro expander -/

theorem splitOnP_pieces (p : Char → Bool) (s : CString) :
    ∀ w ∈ s.splitOnP p, ∀ x ∈ w, p x = false := by
  induction s with
  | nil =>
    intro w hw x hx
    rw [List.splitOnP_nil] at hw
    simp only [List.mem_singleton] at hw
    subst hw
    simp at hx
  | cons c cs ih =>
    intro w hw x hx
    rw [List.splitOnP_cons] at hw
    by_cases hc : p c = true
    · rw [if_pos hc] at hw
      rcases List.mem_cons.mp hw with h | h
      · subst h
        simp at hx
      · exact ih w h x hx
    · rw [if_neg hc] at hw
      have hne := List.splitOnP_ne_nil p cs
      obtain ⟨v, vs, hv⟩ := List.exists_cons_of_ne_nil hne
      rw [hv] at hw ih
      simp only [List.modifyHead_cons, List.mem_cons] at hw
      rcases hw with h | h
      · subst h
        rcases List.mem_cons.mp hx with h1 | h1
        · rw [h1]
          simpa using hc
        · exact ih v (List.mem_cons_self _ _) x h1
      · exact ih w (List.mem_cons_of_mem _ h) x hx

theorem trimLoop_pieces (s : CString) :
    trimLoop false s = renderPieces (s.splitOnP isspace) ∧
    ∀ w ws, s.splitOnP isspace = w :: ws →
      trimLoop true s = w ++ (if ws = [] then [] else ' ' :: renderPieces ws) := by
  induction s with
  | nil =>
    refine ⟨by simp [trimLoop, renderPieces], ?_⟩
    intro w ws h
    rw [List.splitOnP_nil] at h
    cases h
    simp [trimLoop]
  | cons c cs ih =>
    obtain ⟨ih1, ih2⟩ := ih
    have hne := List.splitOnP_ne_nil isspace cs
    obtain ⟨v, vs, hv⟩ := List.exists_cons_of_ne_nil hne
    by_cases hc : isspace c = true
    · have e : (c :: cs).splitOnP isspace = [] :: cs.splitOnP isspace := by
        rw [List.splitOnP_cons, if_pos hc]
      refine ⟨?_, ?_⟩
      · rw [e]
        simp only [trimLoop, hc, if_true, renderPieces, Bool.false_eq_true, if_false]
        exact ih1
      · intro w ws h
        rw [e] at h
        cases h
        simp only [trimLoop, hc, if_true, List.nil_append, if_neg hne]
        rw [ih1]
    · have e : (c :: cs).splitOnP isspace = (c :: v) :: vs := by
        rw [List.splitOnP_cons, if_neg hc, hv]
        rfl
      have h2 := ih2 v vs hv
      refine ⟨?_, ?_⟩
      · rw [e]
        simp only [trimLoop, if_neg hc, renderPieces, h2]
        simp
      · intro w ws h
        rw [e] at h
        cases h
        simp only [trimLoop, if_neg hc, h2]
        simp

theorem joinWords_cons (w : CString) (ws : List CString) (h : ws ≠ []) :
    joinWords (w :: ws) = w ++ ' ' :: joinWords ws := by
  cases ws with
  | nil => exact absurd rfl h
  | cons v vs => rfl

theorem renderPieces_eq (ps : List CString) :
    renderPieces ps = joinWords (ps.filter (fun w => decide (w ≠ []))) ∨
      (ps.filter (fun w => decide (w ≠ [])) ≠ [] ∧
        renderPieces ps = joinWords (ps.filter (fun w => decide (w ≠ []))) ++ [' ']) := by
  induction ps with
  | nil => exact Or.inl rfl
  | cons w ws ih =>
    by_cases hw : w = []
    · subst hw
      simpa [renderPieces] using ih
    · have hf : (w :: ws).filter (fun w => decide (w ≠ [])) =
          w :: ws.filter (fun w => decide (w ≠ [])) := by
        simp [List.filter_cons, hw]
      rw [hf]
      simp only [renderPieces, if_neg hw]
      by_cases hws : ws = []
      · subst hws
        left
        simp [joinWords]
      · rw [if_neg hws]
        by_cases hW : ws.filter (fun w => decide (w ≠ [])) = []
        · right
          rw [hW] at ih ⊢
          rcases ih with h | ⟨h, _⟩
          · rw [h]
            exact ⟨List.cons_ne_nil _ _, by simp [joinWords]⟩
          · exact absurd rfl h
        · rcases ih with h | ⟨_, h⟩
          · left
            rw [h, joinWords_cons w _ hW]
          · right
            refine ⟨List.cons_ne_nil _ _, ?_⟩
            rw [h, joinWords_cons w _ hW]
            simp

theorem joinWords_last (ws : List CString) (hne : ws ≠ [])
    (h : ∀ w ∈ ws, w ≠ [] ∧ ∀ x ∈ w, isspace x = false) :
    ∃ pre c, joinWords ws = pre ++ [c] ∧ isspace c = false := by
  induction ws with
  | nil => exact absurd rfl hne
  | cons w ws ih =>
    by_cases hws : ws = []
    · subst hws
      obtain ⟨h1, h2⟩ := h w (List.mem_cons_self _ _)
      refine ⟨w.dropLast, w.getLast h1, ?_, h2 _ (List.getLast_mem h1)⟩
      simp [joinWords, List.dropLast_append_getLast]
    · obtain ⟨pre, c, e, hc⟩ := ih hws (fun v hv => h v (List.mem_cons_of_mem _ hv))
      refine ⟨w ++ ' ' :: pre, c, ?_, hc⟩
      rw [joinWords_cons w ws hws, e]
      simp

theorem wordsOf_spec (s : CString) :
    ∀ w ∈ wordsOf s, w ≠ [] ∧ ∀ x ∈ w, isspace x = false := by
  intro w hw
  unfold wordsOf at hw
  rw [List.mem_filter] at hw
  exact ⟨by simpa using hw.2, splitOnP_pieces isspace s w hw.1⟩

theorem trimLoop_skip (s : CString) :
    trimLoop false (s.dropWhile isspace) = trimLoop false s := by
  induction s with
  | nil => rfl
  | cons c cs ih =>
    by_cases hc : isspace c = true
    · rw [List.dropWhile_cons_of_pos hc, ih]
      simp [trimLoop, hc]
    · rw [List.dropWhile_cons_of_neg hc]

/-- The function `trim_whitespace` normalizes the whitespace of its argument. -/
theorem trim_whitespace_eq (s : CString) : trim_whitespace s = normalizeSpaces s := by
  have hspec := wordsOf_spec s
  unfold trim_whitespace normalizeSpaces
  unfold wordsOf at hspec ⊢
  simp only
  rw [trimLoop_skip, (trimLoop_pieces s).1]
  rcases renderPieces_eq (s.splitOnP isspace) with h | ⟨hne, h⟩
  · rw [h]
    by_cases hW : (s.splitOnP isspace).filter (fun w => decide (w ≠ [])) = []
    · rw [hW]
      simp [joinWords]
    · obtain ⟨pre, c, e, hc⟩ := joinWords_last _ hW hspec
      rw [if_neg]
      rw [e, charAt_concat_last, hc]
      simp
  · rw [h, if_pos]
    · rw [List.dropLast_concat]
    · refine ⟨by simp, ?_⟩
      rw [charAt_concat_last]
      decide

theorem joinWords_length (ws : List CString) (h : ∀ w ∈ ws, w ≠ []) :
    ws.length ≤ (joinWords ws).length := by
  induction ws with
  | nil => simp [joinWords]
  | cons w ws ih =>
    have hw : 1 ≤ w.length := List.length_pos.mpr (h w (List.mem_cons_self _ _))
    have ih' := ih (fun v hv => h v (List.mem_cons_of_mem _ hv))
    by_cases hws : ws = []
    · subst hws
      simp only [joinWords, List.length_singleton]
      exact hw
    · rw [joinWords_cons w ws hws]
      simp only [List.length_append, List.length_cons]
      omega

theorem space_free (w : CString) (h : ∀ x ∈ w, isspace x = false) :
    ∀ x ∈ w, [' '].contains x = false := by
  intro x hx
  apply contains_false_of_ne
  intro d hd hxd
  simp only [List.mem_singleton] at hd
  subst hd
  subst hxd
  have := h _ hx
  revert this
  decide

theorem strtok_joinWords (w : CString) (ws : List CString) (hw : w ≠ [])
    (hs : ∀ x ∈ w, isspace x = false) :
    strtok (joinWords (w :: ws)) [' '] = (some w, joinWords ws) := by
  by_cases hws : ws = []
  · subst hws
    exact strtok_last w _ hw (space_free w hs)
  · rw [joinWords_cons w ws hws]
    exact strtok_token w _ ' ' _ hw (space_free w hs) (by decide)

/-- The token loop on a line of words none of which names a macro prints the words,
single blanks between them. -/
theorem expandLoop_words (macros : List Macro) (n : Nat) (first : Bool) (w : CString)
    (ws : List CString)
    (h : ∀ v ∈ w :: ws, (v ≠ [] ∧ ∀ x ∈ v, isspace x = false) ∧ get_macro macros v = none)
    (hn : ws.length + 1 < n) :
    expandLoop macros n first (some w) (joinWords ws) =
      some ((if first then [] else [' ']) ++ joinWords (w :: ws)) := by
  induction n generalizing first w ws with
  | zero => exact absurd hn (Nat.not_lt_zero _)
  | succ n ih =>
    have hm := (h w (List.mem_cons_self _ _)).2
    cases ws with
    | nil =>
      have e : strtok (joinWords []) [' '] = (none, []) := by decide
      unfold expandLoop
      simp only [hm, e]
      cases n with
      | zero => simp at hn
      | succ n => simp [expandLoop, joinWords]
    | cons v vs =>
      have hv := (h v (List.mem_cons_of_mem _ (List.mem_cons_self _ _))).1
      have e := strtok_joinWords v vs hv.1 hv.2
      have ih' := ih false v vs (fun u hu => h u (List.mem_cons_of_mem _ hu))
        (by simp only [List.length_cons] at hn; omega)
      unfold expandLoop
      simp only [hm, e, ih', Option.map_some']
      rw [joinWords_cons w (v :: vs) (List.cons_ne_nil _ _)]
      simp

/-! ## The token loop ends -/

theorem expandLoop_total (macros : List Macro) (n : Nat) (first : Bool)
    (token : Option CString) (save : CString)
    (h : (token = none ∧ 0 < n) ∨ save.length + 1 < n) :
    (expandLoop macros n first token save).isSome = true := by
  induction n generalizing first token save with
  | zero =>
    rcases h with ⟨_, h⟩ | h
    · exact absurd h (Nat.lt_irrefl _)
    · exact absurd h (Nat.not_lt_zero _)
  | succ n ih =>
    unfold expandLoop
    cases token with
    | none => rfl
    | some tok =>
      have hlen : save.length + 1 < n + 1 := by
        rcases h with ⟨h, _⟩ | h
        · cases h
        · exact h
      simp only [Option.isSome_map']
      apply ih
      cases hnext : (strtok save [' ']).1 with
      | none => exact Or.inl ⟨rfl, by omega⟩
      | some next =>
        right
        have := strtok_save_length save [' '] next hnext
        omega

theorem processFileLine_total (s : ExpandState) (raw : CString) :
    (processFileLine s raw).isSome = true := by
  unfold processFileLine
  simp only
  split_ifs
  · rfl
  · rfl
  · rfl
  · rfl
  · simp only [Option.isSome_map']
    apply expandLoop_total
    cases hnext : (strtok (trim_whitespace raw) [' ']).1 with
    | none => exact Or.inl ⟨rfl, by omega⟩
    | some next =>
      right
      have := strtok_save_length (trim_whitespace raw) [' '] next hnext
      omega

/-- The macro expander returns on every input. -/
theorem process_file_total (macros : List Macro) (file : List CString) :
    (process_file macros file).isSome = true := by
  have hloop : ∀ (file : List CString) (s : ExpandState),
      (processFileLoop s file).isSome = true := by
    intro file
    induction file with
    | nil => intro s; rfl
    | cons raw rest ih =>
      intro s
      unfold processFileLoop
      have h := processFileLine_total s raw
      cases h1 : processFileLine s raw with
      | none => rw [h1] at h; cases h
      | some s1 => exact ih s1
  unfold process_file
  simp only [Option.isSome_map']
  exact hloop file _

/-! ## A source without macros and comments (C28) -/

theorem processFileLine_plain (s : ExpandState) (raw : CString)
    (hs : s.in_macro_definition = false) (hp : IsPlainLine raw)
    (hm : ∀ w ∈ wordsOf raw, get_macro s.macros w = none) :
    processFileLine s raw =
      some { s with out := s.out ++ (normalizeSpaces raw ++ ['\n']) } := by
  obtain ⟨h1, h2⟩ := hp
  unfold processFileLine
  simp only [trim_whitespace_eq, if_neg h1, hs, if_neg h2, Bool.false_eq_true, if_false]
  have hspec := wordsOf_spec raw
  have hloop : expandLoop s.macros ((normalizeSpaces raw).length + 1) true
      (strtok (normalizeSpaces raw) [' ']).1 (strtok (normalizeSpaces raw) [' ']).2 =
      some (normalizeSpaces raw) := by
    unfold normalizeSpaces
    cases hW : wordsOf raw with
    | nil =>
      have e : strtok (joinWords []) [' '] = (none, []) := by decide
      rw [e]
      simp [expandLoop, joinWords]
    | cons w ws =>
      rw [hW] at hspec hm
      have hw := hspec w (List.mem_cons_self _ _)
      rw [strtok_joinWords w ws hw.1 hw.2]
      have hlen := joinWords_length (w :: ws) (fun v hv => (hspec v hv).1)
      have := expandLoop_words s.macros ((joinWords (w :: ws)).length + 1) true w ws
        (fun v hv => ⟨hspec v hv, hm v hv⟩)
        (by simp only [List.length_cons] at hlen; omega)
      simpa using this
  rw [hloop]
  rfl

theorem processFileLoop_plain (s : ExpandState) (file : List CString)
    (hs : s.in_macro_definition = false) (hp : ∀ raw ∈ file, IsPlainLine raw)
    (hm : ∀ raw ∈ file, ∀ w ∈ wordsOf raw, get_macro s.macros w = none) :
    processFileLoop s file = some { s with out := s.out ++ normalizedText file } := by
  induction file generalizing s with
  | nil => simp [processFileLoop, normalizedText]
  | cons raw rest ih =>
    unfold processFileLoop
    rw [processFileLine_plain s raw hs (hp raw (List.mem_cons_self _ _))
      (hm raw (List.mem_cons_self _ _))]
    simp only
    rw [ih { s with out := s.out ++ (normalizeSpaces raw ++ ['\n']) } hs
      (fun r hr => hp r (List.mem_cons_of_mem _ hr))
      (fun r hr => hm r (List.mem_cons_of_mem _ hr))]
    simp [normalizedText]

/-- C28: run with an empty macro table on lines none of which, once normalized, begins
with `;` or with the four characters `macr`, `process_file` writes each line normalized
(whitespace at the ends removed, every run of whitespace replaced by one blank) and ended
by a line feed, in the same order. But it takes any line that begins with the characters
`macr` for the start of a definition: of the source `macros: .data 1` / `stop`, which
defines no macro, it writes nothing. -/
theorem macr_prefix_swallows_lines :
    (∀ file : List CString, (∀ raw ∈ file, IsPlainLine raw) →
      process_file [] file = some (normalizedText file, [])) ∧
    process_file [] blanksSource =
      some (['m', 'o', 'v', ' ', 'r', '1', ',', ' ', 'r', '2', '\n', 's', 't', 'o', 'p', '\n'],
        []) ∧
    macrPrefixSource.map (fun raw => (wordsOf raw).head?) =
      [some ['m', 'a', 'c', 'r', 'o', 's', ':'], some ['s', 't', 'o', 'p']] ∧
    process_file [] macrPrefixSource = some ([], []) := by
  refine ⟨?_, by decide!, by decide!, by decide!⟩
  intro file hp
  unfold process_file
  have h := processFileLoop_plain (expandStart []) file rfl hp (fun _ _ _ _ => rfl)
  unfold expandStart at h
  rw [h]
  rfl

/-! ## Macro calls (C29) -/

/-- C29: with the macro `m` defined as `inc r1` / `dec r2`, the line `m` is replaced by
the two body lines, each on its own line; but the line `X: m` is written as `X:inc r1` /
`dec r2`, the token `X:` glued to the first body line, and the line `m stop` as `inc r1` /
`dec r2 stop`, the token `stop` on the line of the last body line: the loop prints no
line feed and no blank around a body. A token naming a macro defined only further down
is written unchanged. -/
theorem macro_body_glued_to_tokens :
    process_file [] macroCallSource =
      some (['i', 'n', 'c', ' ', 'r', '1', '\n', 'd', 'e', 'c', ' ', 'r', '2', '\n',
          'X', ':', 'i', 'n', 'c', ' ', 'r', '1', '\n', 'd', 'e', 'c', ' ', 'r', '2', '\n',
          'i', 'n', 'c', ' ', 'r', '1', '\n', 'd', 'e', 'c', ' ', 'r', '2', ' ',
          's', 't', 'o', 'p', '\n'],
        [{ name := ['m'], body := [['i', 'n', 'c', ' ', 'r', '1'],
            ['d', 'e', 'c', ' ', 'r', '2']] }]) ∧
    process_file [] forwardMacroSource =
      some (['m', '\n', 's', 't', 'o', 'p', '\n'],
        [{ name := ['m'], body := [['s', 't', 'o', 'p']] }]) := by
  refine ⟨by decide!, by decide!⟩

/-! ## Several source files in one run (C30) -/

/-- C30: the table `macros` is global and no function empties it. Expanded alone the file
with the single line `m` gives the text `m`; expanded after a file that defines the macro
`m` with the body `stop` it gives the text `stop`, and the table it starts from already
holds one of the hundred entries. -/
theorem macros_kept_across_files :
    expandFiles [] [macroFileB] = some [['m', '\n']] ∧
    expandFiles [] [macroFileA, macroFileB] = some [[], ['s', 't', 'o', 'p', '\n']] ∧
    preAss [] macroFileA = some ([], [{ name := ['m'], body := [['s', 't', 'o', 'p']] }]) ∧
    preAss [{ name := ['m'], body := [['s', 't', 'o', 'p']] }] macroFileB =
      some (['s', 't', 'o', 'p', '\n'], [{ name := ['m'], body := [['s', 't', 'o', 'p']] }]) := by
  refine ⟨by decide!, by decide!, by decide!, by decide!⟩

/-! ## Records of the first pass -/

theorem setPayload_fields (lineInfo : LineInfo) (payload : Option CString) :
    (setPayload lineInfo payload).source_method = lineInfo.source_method ∧
    (setPayload lineInfo payload).destination_method = lineInfo.destination_method ∧
    (setPayload lineInfo payload).is_entry = lineInfo.is_entry ∧
    LineInfo.is_extern (setPayload lineInfo payload) = lineInfo.is_extern ∧
    (setPayload lineInfo payload).is_data = lineInfo.is_data ∧
    (setPayload lineInfo payload).is_string = lineInfo.is_string ∧
    (setPayload lineInfo payload).opcode_value = lineInfo.opcode_value := by
  cases payload <;> exact ⟨rfl, rfl, rfl, rfl, rfl, rfl, rfl⟩

theorem generateLine_codeView (st : GenState) (i : Nat) (line : LineInfo) :
    generateLine st i (codeView line) = generateLine st i line := rfl

theorem isExtern_values (ls : List LineInfo) (s : CString) :
    isExtern ls s = 0 ∨ isExtern ls s = 1 := by
  induction ls with
  | nil => exact Or.inr rfl
  | cons l ls ih =>
    simp only [isExtern]
    split_ifs
    · exact Or.inl rfl
    · exact ih

theorem sameButFlag_onlyFlagSet {l l' : LineInfo} (h : SameButFlag l l') :
    OnlyFlagSet l l' := by
  rcases h with rfl | rfl
  · exact ⟨rfl, rfl, rfl, rfl, rfl, rfl, rfl, rfl, rfl, rfl, rfl, rfl, rfl, rfl, rfl, id⟩
  · exact ⟨rfl, rfl, rfl, rfl, rfl, rfl, rfl, rfl, rfl, rfl, rfl, rfl, rfl, rfl, rfl,
      fun _ => rfl⟩

theorem flagsRaised_tableKept {ls ls' : List LineInfo} (h : FlagsRaised ls ls') :
    TableKept ls ls' := by
  refine ⟨flagsRaised_length h, fun i l hl => ?_⟩
  obtain ⟨l', h1, h2⟩ := flagsRaised_get h i l hl
  exact ⟨l', h1, sameButFlag_onlyFlagSet h2⟩

theorem flagsRaised_mem {ls ls' : List LineInfo} (h : FlagsRaised ls ls') (l' : LineInfo)
    (hl : l' ∈ ls') : ∃ l ∈ ls, SameButFlag l l' := by
  induction h with
  | nil => simp at hl
  | cons h _ ih =>
    rcases List.mem_cons.mp hl with e | e
    · subst e
      exact ⟨_, List.mem_cons_self _ _, h⟩
    · obtain ⟨l, h1, h2⟩ := ih e
      exact ⟨l, List.mem_cons_of_mem _ h1, h2⟩

/-- The loop of `generateOutput` fails only at a `.data` record without a literal. -/
theorem generateLoop_eq_none (n i : Nat) (st : GenState) (h : generateLoop n i st = none) :
    ∃ l ∈ st.lines, l.is_data = true ∧ (strtok l.data_string_value [',']).1 = none := by
  induction n generalizing i st with
  | zero => simp [generateLoop] at h
  | succ n ih =>
    unfold generateLoop at h
    split at h
    · cases h
    · rename_i line hget
      split at h
      · rename_i hline
        exact ⟨line, List.get?_mem hget, (generateLine_eq_none_iff st i line).mp hline⟩
      · rename_i st1 hline
        obtain ⟨l1, hl1, hd, hp⟩ := ih _ _ h
        obtain ⟨l, hl, hs⟩ := flagsRaised_mem (generateLine_raised st i line st1 hline) l1 hl1
        refine ⟨l, hl, ?_⟩
        rcases hs with rfl | rfl
        · exact ⟨hd, hp⟩
        · exact ⟨hd, hp⟩

/-- C31: when `generateOutput` has run over a table, and likewise after any number `n` of
iterations of its loop, the table has the same number of records and every record is the
one the first pass left in every field but the error flag: label, opcode name and value,
the addressing methods and their texts, payload, `memory_cells`, `memory_value`,
`is_data`, `is_string`, `is_entry`, `is_extern` and the operand count; and a flag that was
set is still set. The loop ends unless some `.data` record has a payload without a
literal. -/
theorem second_pass_changes_flags_only (lines : List LineInfo) :
    (∀ st, generateOutput lines = some st → TableKept lines st.lines) ∧
    (∀ n st, generateLoop n 0 (initialState lines) = some st → TableKept lines st.lines) ∧
    (generateOutput lines = none →
      ∃ l ∈ lines, l.is_data = true ∧ (strtok l.data_string_value [',']).1 = none) :=
  ⟨fun st h => flagsRaised_tableKept (generateOutput_raised lines st h),
    fun n st h => flagsRaised_tableKept (generateLoop_raised n 0 _ st h),
    fun h => generateLoop_eq_none _ _ _ h⟩

/-- C31 at the program `jmp NOWHERE`: the second pass sets the flag of the record, whose
other fields stay as the first pass left them. -/
theorem second_pass_changes_flags_only_witness :
    (processInputFile undefinedJumpProgram).map (fun l => l.flag) = [false] ∧
    (assemble undefinedJumpProgram).map (fun st => st.lines) =
      some ((processInputFile undefinedJumpProgram).map (fun l => { l with flag := true })) ∧
    ∀ st, generateOutput (processInputFile undefinedJumpProgram) = some st →
      TableKept (processInputFile undefinedJumpProgram) st.lines :=
  ⟨by decide!, by decide!,
    (second_pass_changes_flags_only (processInputFile undefinedJumpProgram)).1⟩

/-! ## The normal form of `trim_whitespace` (C32) -/

theorem joinWords_head (w : CString) (ws : List CString) :
    ∃ rest, joinWords (w :: ws) = w ++ rest := by
  cases ws with
  | nil => exact ⟨[], by simp [joinWords]⟩
  | cons v vs => exact ⟨' ' :: joinWords (v :: vs), rfl⟩

theorem wordsOf_joinWords (ws : List CString)
    (h : ∀ w ∈ ws, w ≠ [] ∧ ∀ x ∈ w, isspace x = false) : wordsOf (joinWords ws) = ws := by
  induction ws with
  | nil => simp [wordsOf, joinWords]
  | cons w ws ih =>
    have hw := h w (List.mem_cons_self _ _)
    have hns : ∀ x ∈ w, ¬ isspace x = true := fun x hx => by simp [hw.2 x hx]
    cases ws with
    | nil =>
      unfold wordsOf
      simp only [joinWords]
      rw [List.splitOnP_eq_single _ _ hns]
      simp [hw.1]
    | cons v vs =>
      have ih' := ih (fun u hu => h u (List.mem_cons_of_mem _ hu))
      unfold wordsOf at ih' ⊢
      rw [joinWords_cons w (v :: vs) (by simp),
        List.splitOnP_first _ _ hns ' ' (by decide), List.filter_cons_of_pos (by simp [hw.1]),
        ih']

/-- A whitespace character of a text made of words joined by single blanks is a blank
between the last character of a word and the first character of the next. -/
theorem joinWords_blank (ws : List CString)
    (h : ∀ w ∈ ws, w ≠ [] ∧ ∀ x ∈ w, isspace x = false) (pre : CString) (c : Char)
    (post : CString) (e : joinWords ws = pre ++ c :: post) (hc : isspace c = true) :
    c = ' ' ∧ (∃ pre' a, pre = pre' ++ [a] ∧ isspace a = false) ∧
      ∃ b post', post = b :: post' ∧ isspace b = false := by
  induction ws generalizing pre with
  | nil => simp [joinWords] at e
  | cons w ws ih =>
    have hw := h w (List.mem_cons_self _ _)
    cases ws with
    | nil =>
      simp only [joinWords] at e
      have : c ∈ w := by rw [e]; simp
      rw [hw.2 c this] at hc
      cases hc
    | cons v vs =>
      have hv := h v (List.mem_cons_of_mem _ (List.mem_cons_self _ _))
      rw [joinWords_cons w (v :: vs) (by simp)] at e
      have hlast : ∃ pre' a, w = pre' ++ [a] ∧ isspace a = false :=
        ⟨w.dropLast, w.getLast hw.1, (List.dropLast_append_getLast hw.1).symm,
          hw.2 _ (List.getLast_mem hw.1)⟩
      have hfirst : ∃ b post', joinWords (v :: vs) = b :: post' ∧ isspace b = false := by
        obtain ⟨rest, hr⟩ := joinWords_head v vs
        obtain ⟨b, t, hb⟩ := List.exists_cons_of_ne_nil hv.1
        exact ⟨b, t ++ rest, by rw [hr, hb]; rfl, hv.2 b (by rw [hb]; simp)⟩
      rcases List.append_eq_append_iff.mp e with ⟨a', h1, h2⟩ | ⟨c', h1, h2⟩
      · cases a' with
        | nil =>
          simp only [List.nil_append, List.cons.injEq] at h2
          simp only [List.append_nil] at h1
          obtain ⟨h3, h4⟩ := h2
          rw [h1, ← h3, ← h4]
          exact ⟨rfl, hlast, hfirst⟩
        | cons x a'' =>
          simp only [List.cons_append, List.cons.injEq] at h2
          obtain ⟨_, h4⟩ := h2
          obtain ⟨k1, ⟨p', a, k2, k3⟩, k4⟩ :=
            ih (fun u hu => h u (List.mem_cons_of_mem _ hu)) a'' h4
          refine ⟨k1, ⟨w ++ x :: p', a, ?_, k3⟩, k4⟩
          rw [h1, k2]
          simp
      · cases c' with
        | nil =>
          simp only [List.nil_append, List.cons.injEq] at h2
          simp only [List.append_nil] at h1
          obtain ⟨h3, h4⟩ := h2
          rw [← h1, h3, h4]
          exact ⟨rfl, hlast, hfirst⟩
        | cons y c'' =>
          simp only [List.cons_append, List.cons.injEq] at h2
          have : c ∈ w := by rw [h1, h2.1]; simp
          rw [hw.2 c this] at hc
          cases hc

theorem filter_trimLoop (b : Bool) (s : CString) :
    (trimLoop b s).filter (fun c => !isspace c) = s.filter (fun c => !isspace c) := by
  induction s generalizing b with
  | nil => rfl
  | cons c s ih =>
    unfold trimLoop
    by_cases hc : isspace c = true
    · rw [if_pos hc, List.filter_cons_of_neg (by simp [hc])]
      cases b
      · simp only [Bool.false_eq_true, if_false]
        exact ih false
      · simp only [if_true]
        rw [List.filter_cons_of_neg (by decide)]
        exact ih false
    · rw [if_neg hc, List.filter_cons_of_pos (by simpa using hc),
        List.filter_cons_of_pos (by simpa using hc), ih true]

theorem filter_dropWhile_isspace (s : CString) :
    (s.dropWhile isspace).filter (fun c => !isspace c) = s.filter (fun c => !isspace c) := by
  induction s with
  | nil => rfl
  | cons c s ih =>
    by_cases hc : isspace c = true
    · rw [List.dropWhile_cons_of_pos hc, List.filter_cons_of_neg (by simp [hc]), ih]
    · rw [List.dropWhile_cons_of_neg hc]

/-- C32: for every string `s`, the string `trim_whitespace` leaves has no whitespace at
its two ends; every whitespace character in it is a blank that stands between two
characters that are not whitespace (so no two stand side by side); its characters other
than whitespace are those of `s` in the same order; and its words, the maximal runs of
characters other than whitespace, are the words of `s`. -/
theorem trim_whitespace_normal_form (s : CString) :
    (∀ c, (trim_whitespace s).head? = some c → isspace c = false) ∧
    (∀ c, (trim_whitespace s).getLast? = some c → isspace c = false) ∧
    (∀ pre c post, trim_whitespace s = pre ++ c :: post → isspace c = true →
      c = ' ' ∧ (∃ pre' a, pre = pre' ++ [a] ∧ isspace a = false) ∧
        ∃ b post', post = b :: post' ∧ isspace b = false) ∧
    (trim_whitespace s).filter (fun c => !isspace c) = s.filter (fun c => !isspace c) ∧
    wordsOf (trim_whitespace s) = wordsOf s := by
  have hmid : ∀ pre c post, trim_whitespace s = pre ++ c :: post → isspace c = true →
      c = ' ' ∧ (∃ pre' a, pre = pre' ++ [a] ∧ isspace a = false) ∧
        ∃ b post', post = b :: post' ∧ isspace b = false := by
    intro pre c post e hc
    rw [trim_whitespace_eq] at e
    exact joinWords_blank (wordsOf s) (wordsOf_spec s) pre c post e hc
  refine ⟨?_, ?_, hmid, ?_, ?_⟩
  · intro c hc
    cases hs : trim_whitespace s with
    | nil => rw [hs] at hc; cases hc
    | cons d t =>
      rw [hs] at hc
      simp only [List.head?_cons, Option.some.injEq] at hc
      subst hc
      by_contra hsp
      obtain ⟨_, ⟨pre', a, h1, _⟩, _⟩ := hmid [] d t (by rw [hs]; rfl) (by simpa using hsp)
      simp at h1
  · intro c hc
    obtain ⟨pre, hpre⟩ : ∃ pre, trim_whitespace s = pre ++ [c] := by
      rcases List.eq_nil_or_concat (trim_whitespace s) with h | ⟨pre, d, h⟩
      · rw [h] at hc; cases hc
      · rw [h, List.concat_eq_append, List.getLast?_concat] at hc
        simp only [Option.some.injEq] at hc
        subst hc
        exact ⟨pre, by simpa using h⟩
    by_contra hsp
    obtain ⟨_, _, ⟨b, post', h1, _⟩⟩ := hmid pre c [] hpre (by simpa using hsp)
    cases h1
  · unfold trim_whitespace
    simp only
    split_ifs with hcond
    · obtain ⟨hne, hsp⟩ := hcond
      have hdec := List.dropLast_append_getLast hne
      have hlast : charAt (trimLoop false (s.dropWhile isspace))
          ((trimLoop false (s.dropWhile isspace)).length - 1) =
          (trimLoop false (s.dropWhile isspace)).getLast hne := by
        conv_lhs => rw [← hdec]
        exact charAt_concat_last _ _
      rw [hlast] at hsp
      have := filter_trimLoop false (s.dropWhile isspace)
      rw [← hdec, List.filter_append, List.filter_cons_of_neg (by simp [hsp]),
        List.filter_nil, List.append_nil, filter_dropWhile_isspace] at this
      exact this
    · rw [filter_trimLoop, filter_dropWhile_isspace]
  · rw [trim_whitespace_eq]
    exact wordsOf_joinWords _ (wordsOf_spec s)

/-- C32 at the text `  mov   r1,` tab ` r2  ` with its line feed, which `trim_whitespace`
turns into `mov r1, r2`. -/
theorem trim_whitespace_normal_form_witness :
    trim_whitespace paddedLine = ['m', 'o', 'v', ' ', 'r', '1', ',', ' ', 'r', '2'] ∧
    wordsOf paddedLine = [['m', 'o', 'v'], ['r', '1', ','], ['r', '2']] ∧
    wordsOf (trim_whitespace paddedLine) = wordsOf paddedLine :=
  ⟨by decide!, by decide!, (trim_whitespace_normal_form paddedLine).2.2.2.2⟩

/-! ## The test for the start of a macro definition (C33) -/

/-- C33: outside a definition, on a line that is no comment, `process_file` enters the
defining state exactly when the normalized line begins with the four characters `macr`,
whatever follows them. So it does on `macr m1`, with the name `m1`; but also on the line
`macro1: stop`, whose first token is the label `macro1:` (the name read is `o1: stop`), on
the line `macros` (name `os`), and on the line `macr` with no name after it (the name
buffer is left as it was). Of the source `macro1: stop` / `rts` nothing is emitted. -/
theorem macr_prefix_starts_definition :
    (∀ (s : ExpandState) (raw : CString), s.in_macro_definition = false →
      charAt (trim_whitespace raw) 0 ≠ ';' →
      ((processFileLine s raw).map (fun t => t.in_macro_definition) = some true ↔
        (trim_whitespace raw).take 4 = ['m', 'a', 'c', 'r'])) ∧
    (processFileLine (expandStart []) macrNameLine).map
        (fun t => (t.in_macro_definition, t.current_macro_name, t.out)) =
      some (true, ['m', '1'], []) ∧
    ((wordsOf macroLabelLine).head? = some ['m', 'a', 'c', 'r', 'o', '1', ':'] ∧
      (processFileLine (expandStart []) macroLabelLine).map
          (fun t => (t.in_macro_definition, t.current_macro_name, t.out)) =
        some (true, ['o', '1', ':', ' ', 's', 't', 'o', 'p'], [])) ∧
    ((wordsOf macrosTokenLine).head? = some ['m', 'a', 'c', 'r', 'o', 's'] ∧
      (processFileLine (expandStart []) macrosTokenLine).map
          (fun t => (t.in_macro_definition, t.current_macro_name, t.out)) =
        some (true, ['o', 's'], [])) ∧
    ((wordsOf bareMacrLine).tail = [] ∧
      (processFileLine (expandStart []) bareMacrLine).map
          (fun t => (t.in_macro_definition, t.current_macro_name, t.out)) =
        some (true, [], [])) ∧
    process_file [] macroLabelSource = some ([], []) := by
  refine ⟨?_, by decide!, ⟨by decide!, by decide!⟩, ⟨by decide!, by decide!⟩,
    ⟨by decide!, by decide!⟩, by decide!⟩
  intro s raw hs hc
  unfold processFileLine
  simp only [hc, hs, if_false, Bool.false_eq_true]
  by_cases hp : (trim_whitespace raw).take 4 = ['m', 'a', 'c', 'r']
  · simp [hp]
  · simp only [hp, if_false, Option.map_map, iff_false]
    cases expandLoop s.macros ((trim_whitespace raw).length + 1) true
        (strtok (trim_whitespace raw) [' ']).1 (strtok (trim_whitespace raw) [' ']).2 with
    | none => simp
    | some text => simp [hs]

/-! ## The width of an instruction and the words stored for it (C34) -/

theorem isMode_modeOfOperand (a : CString) : IsMode (modeOfOperand a) := by
  unfold modeOfOperand IsMode IMMEDIATE DIRECT_REGISTER INDIRECT_REGISTER DIRECT
  split <;> simp

theorem widthOfModes_eq (lineInfo : LineInfo)
    (hd : lineInfo.is_data = false) (hs : lineInfo.is_string = false)
    (he : lineInfo.is_entry = false) (hx : LineInfo.is_extern lineInfo = false) :
    calculateMemoryCells lineInfo =
      widthOfModes lineInfo.source_method lineInfo.destination_method :=
  calculateMemoryCells_modes lineInfo hd hs he hx

/-- An instruction record that `processOperands` returns without a flag has the shape of
an instruction. -/
theorem processOperands_shape (lineInfo : LineInfo) (operands : Option CString)
    (h0 : lineInfo.is_data = false ∧ lineInfo.is_string = false ∧
      lineInfo.is_entry = false ∧ LineInfo.is_extern lineInfo = false ∧
      lineInfo.source_method = -1 ∧ lineInfo.destination_method = -1)
    (hf : (processOperands lineInfo operands).flag = false) :
    HasInstructionShape (processOperands lineInfo operands) := by
  obtain ⟨e1, e2, e3, e4, e5, e6⟩ := h0
  have m1 : IsMode (-1) := Or.inl rfl
  unfold processOperands at hf ⊢
  cases operands with
  | none =>
    refine ⟨e1, e2, ?_, ?_, fun _ => e5, widthOfModes_eq _ e1 e2 e3 e4⟩
    · show IsMode lineInfo.source_method
      rw [e5]; exact m1
    · show IsMode lineInfo.destination_method
      rw [e6]; exact m1
  | some operands =>
    simp only at hf ⊢
    cases h1 : (strtok operands [' ', ',', ' ']).1 with
    | none =>
      rw [h1] at hf
      cases h2 : (strtok (strtok operands [' ', ',', ' ']).2 [' ', ',', ' ']).1 with
      | none =>
        refine ⟨e1, e2, ?_, ?_, fun _ => e5, widthOfModes_eq _ e1 e2 e3 e4⟩
        · show IsMode lineInfo.source_method
          rw [e5]; exact m1
        · show IsMode lineInfo.destination_method
          rw [e6]; exact m1
      | some b =>
        rw [h2] at hf
        cases h3 : (strtok (strtok (strtok operands [' ', ',', ' ']).2 [' ', ',', ' ']).2
          [' ', ',', ' ']).1 with
        | some c =>
          rw [h3] at hf
          cases hf
        | none =>
          refine ⟨e1, e2, ?_, ?_, fun _ => e5, widthOfModes_eq _ e1 e2 e3 e4⟩
          · show IsMode lineInfo.source_method
            rw [e5]; exact m1
          · show IsMode (parseMethod b).1
            rw [parseMethod_eq]; exact isMode_modeOfOperand b
    | some a =>
      rw [h1] at hf
      cases h2 : (strtok (strtok operands [' ', ',', ' ']).2 [' ', ',', ' ']).1 with
      | none =>
        refine ⟨e1, e2, m1, ?_, fun _ => rfl, widthOfModes_eq _ e1 e2 e3 e4⟩
        show IsMode (parseMethod a).1
        rw [parseMethod_eq]; exact isMode_modeOfOperand a
      | some b =>
        rw [h2] at hf
        cases h3 : (strtok (strtok (strtok operands [' ', ',', ' ']).2 [' ', ',', ' ']).2
          [' ', ',', ' ']).1 with
        | some c =>
          rw [h3] at hf
          cases hf
        | none =>
          refine ⟨e1, e2, ?_, ?_, fun h => ?_, widthOfModes_eq _ e1 e2 e3 e4⟩
          · show IsMode (parseMethod a).1
            rw [parseMethod_eq]; exact isMode_modeOfOperand a
          · show IsMode (parseMethod b).1
            rw [parseMethod_eq]; exact isMode_modeOfOperand b
          · have h' : (parseMethod b).1 = -1 := h
            rw [parseMethod_eq] at h'
            exact absurd h' (modeOfOperand_ne b)

theorem processStatement_shape (lineInfo : LineInfo) (token : Option CString)
    (save : CString)
    (h0 : lineInfo.is_data = false ∧ lineInfo.is_string = false ∧
      lineInfo.is_entry = false ∧ LineInfo.is_extern lineInfo = false ∧
      lineInfo.source_method = -1 ∧ lineInfo.destination_method = -1)
    (hop0 : lineInfo.opcode_value = -1)
    (ho : (processStatement lineInfo token save).opcode_value ≠ -1)
    (hf : (processStatement lineInfo token save).flag = false) :
    HasInstructionShape (processStatement lineInfo token save) := by
  unfold processStatement at ho hf ⊢
  cases token with
  | none => exact absurd hop0 ho
  | some token =>
    simp only at ho hf ⊢
    split_ifs at ho hf ⊢ with hop hdata hstring hentry hextern
    · exact absurd (by simp only [(setPayload_fields _ _).2.2.2.2.2.2]; exact hop) ho
    · exact absurd (by simp only [(setPayload_fields _ _).2.2.2.2.2.2]; exact hop) ho
    · exact absurd (by simp only [(setPayload_fields _ _).2.2.2.2.2.2]; exact hop) ho
    · exact absurd (by simp only [(setPayload_fields _ _).2.2.2.2.2.2]; exact hop) ho
    · exact absurd hop ho
    · exact processOperands_shape _ _ h0 hf

/-- An instruction record that `processLine` returns without a flag has the shape of an
instruction. -/
theorem processLine_shape (line : CString) (ho : (processLine line).opcode_value ≠ -1)
    (hf : (processLine line).flag = false) : HasInstructionShape (processLine line) := by
  unfold processLine at ho hf ⊢
  simp only at ho hf ⊢
  cases h1 : (strtok line [' ', '\r', '\t', '\n']).1 with
  | none =>
    simp only [h1] at ho hf ⊢
    exact processStatement_shape _ _ _ ⟨rfl, rfl, rfl, rfl, rfl, rfl⟩ rfl ho hf
  | some token =>
    simp only [h1] at ho hf ⊢
    split_ifs at ho hf ⊢
    · exact processStatement_shape _ _ _ ⟨rfl, rfl, rfl, rfl, rfl, rfl⟩ rfl ho hf
    · exact processStatement_shape _ _ _ ⟨rfl, rfl, rfl, rfl, rfl, rfl⟩ rfl ho hf

/-- The second pass has as many words for an instruction as the first pass gave it
cells. -/
theorem instructionWords_length (lines : List LineInfo) (r : LineInfo)
    (h : HasInstructionShape r) :
    ((instructionWords lines r).length : Int) = r.memory_cells := by
  obtain ⟨_, _, hs, hd, hsd, hc⟩ := h
  rw [hc]
  unfold instructionWords sourceWords destRegisterWords destinationWords widthOfModes
    IMMEDIATE DIRECT INDIRECT_REGISTER DIRECT_REGISTER
  rcases hd with hd | hd | hd | hd | hd
  · have hs' := hsd hd
    simp [hs', hd]
  all_goals
    rcases hs with hs | hs | hs | hs | hs <;> simp [hs, hd]

theorem markEntry_encodingView (p : CString) (ls : List LineInfo) :
    (markEntry p ls).map encodingView = ls.map encodingView := by
  induction ls with
  | nil => rfl
  | cons l ls ih =>
    simp only [markEntry, List.map_cons, ih]
    split <;> rfl

theorem markExtern_encodingView (p : CString) (ls : List LineInfo) :
    (markExtern p ls).1.map encodingView = ls.map encodingView := by
  induction ls with
  | nil => rfl
  | cons l ls ih =>
    simp only [markExtern]
    split
    · split
      · rfl
      · simp only [List.map_cons, ih]; rfl
    · simp only [List.map_cons, ih]

theorem resolveLoop_encodingView (n k : Nat) (ls : List LineInfo) :
    (resolveLoop n k ls).map encodingView = ls.map encodingView := by
  induction n generalizing k ls with
  | zero => rfl
  | succ n ih =>
    simp only [resolveLoop]
    split
    · rfl
    · split
      · rw [ih, markEntry_encodingView]
      · split
        · split
          · rw [markExtern_encodingView]
          · rw [ih, markExtern_encodingView]
        · rw [ih]

theorem readLines_encodingView (a : Int) (file : List CString) :
    (readLines a file).map encodingView = file.map (fun l => encodingView (processLine l)) := by
  induction file generalizing a with
  | nil => rfl
  | cons l ls ih =>
    simp only [readLines, List.map_cons, ih]
    rfl

/-- Record `i` of the table of the first pass is the record `processLine` returned for
line `i`, but for its address, its marks and its flag. -/
theorem processInputFile_get (file : List CString) (i : Nat) (line : CString) (r : LineInfo)
    (hline : file.get? i = some line) (hr : (processInputFile file).get? i = some r) :
    encodingView r = encodingView (processLine line) := by
  have h := congrArg (fun t => t.get? i)
    ((resolveLoop_encodingView (readLines 100 file).length 0 (readLines 100 file)).trans
      (readLines_encodingView 100 file))
  simp only [List.get?_eq_getElem?, List.getElem?_map] at h hline hr
  unfold processInputFile at hr
  rw [hr, hline] at h
  simpa using h

/-- The width of an instruction record of the table and the words stored for it, in the
embedding. -/
theorem instruction_width_of_line (file : List CString) (i : Nat) (line : CString)
    (r : LineInfo) (st : GenState)
    (hline : file.get? i = some line) (hr : (processInputFile file).get? i = some r)
    (ho : (processLine line).opcode_value ≠ -1) (hf : (processLine line).flag = false)
    (hroom : (st.outputIndex : Int) + r.memory_cells ≤ MAX_LINES) :
    r.memory_cells = (processLine line).memory_cells ∧
    1 ≤ r.memory_cells ∧ r.memory_cells ≤ 3 ∧
    ((instructionWords st.lines r).length : Int) = r.memory_cells ∧
    ∃ st', generateLine st i r = some st' ∧
      (st'.outputIndex : Int) = st.outputIndex + r.memory_cells ∧
      (st'.ic : Int) = st.ic + r.memory_cells ∧ st'.dc = st.dc := by
  have hv := processInputFile_get file i line r hline hr
  have hshape0 := processLine_shape line ho hf
  have hshape : HasInstructionShape r := by
    have e : HasInstructionShape (encodingView r) := by
      rw [hv]
      exact hshape0
    exact e
  have hcells : r.memory_cells = (processLine line).memory_cells := by
    have := congrArg (fun l : LineInfo => l.memory_cells) hv
    exact this
  have hop : r.opcode_value ≠ -1 := by
    have : r.opcode_value = (processLine line).opcode_value := by
      have := congrArg (fun l : LineInfo => l.opcode_value) hv
      exact this
    rw [this]
    exact ho
  have hlen := instructionWords_length st.lines r hshape
  have hbound : 1 ≤ r.memory_cells ∧ r.memory_cells ≤ 3 := by
    rw [hshape.2.2.2.2.2]
    unfold widthOfModes
    split_ifs <;> decide
  refine ⟨hcells, hbound.1, hbound.2, hlen, generateInstruction st i r,
    generateLine_instruction st i r hshape.1 hshape.2.1 hop, ?_⟩
  have hidx := (generateInstruction_image st i r).2
  rw [emitWords_outputIndex_eq] at hidx
  obtain ⟨hdc, hic, _, _⟩ := generateInstruction_codeWords st i r
  have hroom' : st.outputIndex + (instructionWords st.lines r).length ≤ MAX_LINES := by
    have : ((st.outputIndex + (instructionWords st.lines r).length : Nat) : Int) ≤
        (MAX_LINES : Nat) := by
      push_cast
      rw [hlen]
      exact hroom
    exact_mod_cast this
  have hpos : (generateInstruction st i r).outputIndex =
      st.outputIndex + (instructionWords st.lines r).length := by
    rw [hidx]
    omega
  refine ⟨?_, ?_, hdc⟩
  · rw [hpos, ← hlen]
    push_cast
    rfl
  · rw [← hlen]
    have : (generateInstruction st i r).ic = st.ic + (instructionWords st.lines r).length := by
      omega
    rw [this]
    push_cast
    rfl

/-- C34: in a file whose records all fit the arrays of `LineInfo`, let `r` be record `i`
of the table of the first pass, built from a line for which `processLine` returned an
instruction record with the error flag unset. From any state with room in the image for
`r.memory_cells` more words, the iteration of `generateOutput` for `r` stores exactly
`r.memory_cells` words, the opcode word and the operand words: the output position and
the instruction counter advance by `r.memory_cells`, which is the width `processLine`
computed, between 1 and 3. So it is for the second line of `mov #5, r2` /
`LOOP: add r1, *r2`, with two cells and two words. But `parseMethod` copies an operand
with `strcpy` into an array of `MAX_METHOD_LENGTH` characters and tests no length: on the
line `jmp ABCDEFGHIJKLMNOPQRSTUVW` the operand, a legal label of 23 characters, does not
fit `destination_method_value`, and the copy runs over the fields that follow it in the
record. -/
theorem instruction_width_emitted :
    (∀ (file : List CString) (i : Nat) (line : CString) (r : LineInfo) (st : GenState),
      (∀ l ∈ file, withinCapacity (processLine l) = true) →
      file.get? i = some line → (processInputFile file).get? i = some r →
      (processLine line).opcode_value ≠ -1 → (processLine line).flag = false →
      (st.outputIndex : Int) + r.memory_cells ≤ MAX_LINES →
      r.memory_cells = (processLine line).memory_cells ∧
      1 ≤ r.memory_cells ∧ r.memory_cells ≤ 3 ∧
      ((instructionWords st.lines r).length : Int) = r.memory_cells ∧
      ∃ st', generateLine st i r = some st' ∧
        (st'.outputIndex : Int) = st.outputIndex + r.memory_cells ∧
        (st'.ic : Int) = st.ic + r.memory_cells ∧ st'.dc = st.dc) ∧
    ((∀ l ∈ widthProgram, withinCapacity (processLine l) = true) ∧
      (processInputFile widthProgram).get? 1 = some widthRecord ∧
      widthRecord.memory_cells = 2 ∧
      ∃ st', generateLine (initialState (processInputFile widthProgram)) 1 widthRecord =
          some st' ∧
        (st'.outputIndex : Int) =
          (initialState (processInputFile widthProgram)).outputIndex +
            widthRecord.memory_cells ∧
        (st'.ic : Int) =
          (initialState (processInputFile widthProgram)).ic + widthRecord.memory_cells ∧
        st'.dc = (initialState (processInputFile widthProgram)).dc) ∧
    (badLabel longLabel = false ∧ longLabel.length = 23 ∧
      (processLine longJumpLine).opcode_value ≠ -1 ∧ (processLine longJumpLine).flag = false ∧
      withinCapacity (processLine longJumpLine) = false) := by
  refine ⟨?_, ⟨by decide!, by decide!, by decide!, ?_⟩,
    by decide!, by decide!, by decide!, by decide!, by decide!⟩
  · intro file i line r st _ hline hr ho hf hroom
    exact instruction_width_of_line file i line r st hline hr ho hf hroom
  · exact (instruction_width_of_line widthProgram 1 widthLine widthRecord
      (initialState (processInputFile widthProgram)) (by decide!) (by decide!) (by decide!)
      (by decide!) (by decide!)).2.2.2.2

/-! ## A label of several records (C35) -/

theorem processFileLoop_append (a b : List CString) (s : ExpandState) :
    processFileLoop s (a ++ b) = (processFileLoop s a).bind (fun s1 => processFileLoop s1 b) := by
  induction a generalizing s with
  | nil => rfl
  | cons raw rest ih =>
    simp only [List.cons_append, processFileLoop]
    cases processFileLine s raw with
    | none => rfl
    | some s1 => exact ih s1

end Assembler
